import Mathlib

/-!
# rainbow-roads: rendering pipeline, verified against its specification

Shallow embedding of `src/main.go` (functions `parse`, `render`, `main`) and of the
frame optimizer exercised by `src/image_test.go`.

Conventions of the embedding
* `uint8` colour indices, `uint` sizes: `Nat` (with `% 256` where the source can wrap);
  `int` pixel coordinates and `time.Duration`/`time.Time` nanoseconds: `Int`.
* `float64` on the progress path (the progress `p` of a record, the frame threshold `fp`,
  `pp = fp - p` and the colour index `uint8(pp * 0xff)`): IEEE 754 binary64, type `F64`, every
  operation rounded to nearest, ties to even, with the infinities and NaN.
* `float64` on the geometric path (latitudes, Mercator metres, scale): exact rationals `ℚ`;
  where the `float64` computation leaves the finite numbers or the range of the integer type
  it is converted to, the run is `undetermined`.
* Go slices: `List`; a compound statement on globals becomes explicit state passing.
-/

namespace RainbowRoads

/-! ## Go `image` package: the parts used by `render` -/

/-- Go `image.Point`. -/
structure Point where
  X : Int
  Y : Int
deriving DecidableEq, Repr

/-- Go `image.Rectangle`: the half-open box `Min.X ≤ x < Max.X`, `Min.Y ≤ y < Max.Y`. -/
structure Rectangle where
  Min : Point
  Max : Point
deriving DecidableEq, Repr

/-- Go `image.Rect(x0, y0, x1, y1)`: swaps the coordinates when they come in the wrong order. -/
def Rect (x0 y0 x1 y1 : Int) : Rectangle :=
  let (x0, x1) := if x0 > x1 then (x1, x0) else (x0, x1)
  let (y0, y1) := if y0 > y1 then (y1, y0) else (y0, y1)
  ⟨⟨x0, y0⟩, ⟨x1, y1⟩⟩

/-- Go `Point.In`: `r.Min.X <= p.X && p.X < r.Max.X && r.Min.Y <= p.Y && p.Y < r.Max.Y`. -/
def Point.In (p : Point) (r : Rectangle) : Bool :=
  decide (r.Min.X ≤ p.X) && decide (p.X < r.Max.X) &&
    decide (r.Min.Y ≤ p.Y) && decide (p.Y < r.Max.Y)

/-- Go `Rectangle.Dx`. -/
def Rectangle.Dx (r : Rectangle) : Int := r.Max.X - r.Min.X

/-- Go `Rectangle.Dy`. -/
def Rectangle.Dy (r : Rectangle) : Int := r.Max.Y - r.Min.Y

/-- Go `color.Color`, as the four channels of an RGBA value. -/
structure Color where
  R : Nat
  G : Nat
  B : Nat
  A : Nat
deriving DecidableEq, Repr

/-- Go `image.Paletted`: a buffer of palette indices, one byte a pixel, with its stride,
its bounds and its palette. -/
structure Paletted where
  Pix : List Nat
  Stride : Int
  Rect : Rectangle
  Palette : List Color
deriving DecidableEq, Repr

/-- Go `(*Paletted).PixOffset`: `(y-p.Rect.Min.Y)*p.Stride + (x-p.Rect.Min.X)*1`. -/
def Paletted.PixOffset (im : Paletted) (x y : Int) : Int :=
  (y - im.Rect.Min.Y) * im.Stride + (x - im.Rect.Min.X) * 1

/-- Go `image.NewPaletted(r, p)`: a zeroed buffer of `r.Dx() * r.Dy()` bytes, stride `r.Dx()`. -/
def NewPaletted (r : Rectangle) (p : List Color) : Paletted :=
  { Pix := List.replicate (r.Dx * r.Dy).toNat 0
    Stride := r.Dx
    Rect := r
    Palette := p }

/-- The byte `im.Pix[im.PixOffset(x, y)]` (0 when the offset is outside the buffer,
which does not happen for a position inside `im.Rect` of a well-formed image). -/
def Paletted.pixAt (im : Paletted) (x y : Int) : Nat :=
  im.Pix.getD (im.PixOffset x y).toNat 0

/-! ## `render`: the canvas of one frame (main.go 421-424, 436-465) -/

/-- Lines 421-424 of main.go: `im := image.NewPaletted(image.Rect(0, 0, int(width), int(height)), pal)`
followed by `for i := range im.Pix { im.Pix[i] = 0xff }`. -/
def newCanvas (width height : Nat) (pal : List Color) : Paletted :=
  let im := NewPaletted (Rect 0 0 (width : Int) (height : Int)) pal
  { im with Pix := im.Pix.map (fun _ => 0xff) }

/-- The closure `setPixIfLower` of `render` (main.go 436-445), with the captured image made
an explicit argument and returned next to the boolean result. -/
def setPixIfLower (im : Paletted) (x y : Int) (ci : Nat) : Paletted × Bool :=
  if (Point.mk x y).In im.Rect then
    let i := im.PixOffset x y
    if im.Pix.getD i.toNat 0 > ci then
      ({ im with Pix := im.Pix.set i.toNat ci }, true)
    else
      (im, false)
  else
    (im, false)

/-- One proposed write: the arguments of a `setPixIfLower` call. -/
structure Call where
  x : Int
  y : Int
  ci : Nat
deriving DecidableEq, Repr

/-- A finite sequence of `setPixIfLower` calls on one canvas, in order. -/
def applyCalls (im : Paletted) (calls : List Call) : Paletted :=
  calls.foldl (fun im c => (setPixIfLower im c.x c.y c.ci).1) im

/-- The minimum of `0xff` and of every colour index that `calls` proposes for pixel `(x, y)`. -/
def minProposed (calls : List Call) (x y : Int) : Nat :=
  ((calls.filter (fun c => decide (c.x = x ∧ c.y = y))).map (fun c => c.ci)).foldl min 0xff

/-- Well-formed canvas of `width × height` pixels anchored at the origin, as `render`
allocates it: bounds `(0,0)-(width,height)`, stride `width`, one byte a pixel. -/
def Paletted.IsCanvas (im : Paletted) (width height : Nat) : Prop :=
  im.Rect = ⟨⟨0, 0⟩, ⟨(width : Int), (height : Int)⟩⟩ ∧ im.Stride = (width : Int) ∧
    im.Pix.length = width * height

instance (im : Paletted) (width height : Nat) : Decidable (im.IsCanvas width height) := by
  unfold Paletted.IsCanvas; infer_instance

/-- The body of the closure `setPix` of `render` (main.go 448-464) once its colour index
`ci` is known. `ci *= 2` is `uint8` arithmetic, hence the `% 256`. The second `if ci < 0x80`
is not nested in the first: it tests the value of `ci` left by the first. -/
def setPixCi (im : Paletted) (x y : Int) (ci : Nat) : Paletted :=
  let r := setPixIfLower im x y ci
  if !r.2 then
    r.1
  else
    let im := r.1
    let (im, ci) :=
      if ci < 0x80 then
        let ci := (ci * 2) % 256
        let im := (setPixIfLower im (x - 1) y ci).1
        let im := (setPixIfLower im x (y - 1) ci).1
        let im := (setPixIfLower im (x + 1) y ci).1
        let im := (setPixIfLower im x (y + 1) ci).1
        (im, ci)
      else
        (im, ci)
    if ci < 0x80 then
      let ci := (ci * 2) % 256
      let im := (setPixIfLower im (x - 1) (y - 1) ci).1
      let im := (setPixIfLower im (x - 1) (y + 1) ci).1
      let im := (setPixIfLower im (x + 1) (y - 1) ci).1
      let im := (setPixIfLower im (x + 1) (y + 1) ci).1
      im
    else
      im

/-- Position `(px, py)` is one of the 4 orthogonal neighbours of `(x, y)`. -/
def isOrthogonal (x y px py : Int) : Prop :=
  (px = x - 1 ∧ py = y) ∨ (px = x ∧ py = y - 1) ∨ (px = x + 1 ∧ py = y) ∨ (px = x ∧ py = y + 1)

/-- Position `(px, py)` is one of the 4 diagonal neighbours of `(x, y)`. -/
def isDiagonal (x y px py : Int) : Prop :=
  (px = x - 1 ∧ py = y - 1) ∨ (px = x - 1 ∧ py = y + 1) ∨
    (px = x + 1 ∧ py = y - 1) ∨ (px = x + 1 ∧ py = y + 1)

instance (x y px py : Int) : Decidable (isOrthogonal x y px py) := by
  unfold isOrthogonal; infer_instance

instance (x y px py : Int) : Decidable (isDiagonal x y px py) := by
  unfold isDiagonal; infer_instance

/-! ## `float64` on the progress path

The progress `p` of a record, the frame threshold `fp`, their difference `pp` and the product
`pp * 0xff` are computed in IEEE 754 binary64, as Go does: each operation gives the exact
result rounded to the nearest `float64`, ties to even. -/

/-- A `float64` value: a finite number, an infinity with its sign, or NaN. The two zeros are
not told apart; the only divisors on this path are conversions of integers, which are never
the negative zero. -/
inductive F64 where
  | fin (q : ℚ)
  | inf (negative : Bool)
  | nan
deriving DecidableEq

/-- The integer nearest to `x`, the even one of the two when `x` lies half-way. -/
def roundHalfEven (x : ℚ) : Int :=
  let f := ⌊x⌋
  let d := x - f
  if d < 1 / 2 then f
  else if 1 / 2 < d then f + 1
  else if f % 2 = 0 then f else f + 1

/-- The spacing of the `float64` values around `q > 0`: `2 ^ (e - 52)` where
`2 ^ e ≤ q < 2 ^ (e + 1)`, and `2 ^ (-1074)` below the normal range. -/
def ulp (q : ℚ) : ℚ := (2 : ℚ) ^ (max (Int.log 2 q) (-1022) - 52)

/-- Rounding to 53 significant bits, nearest with ties to even, the exponent not bounded
above. -/
def roundQ (q : ℚ) : ℚ :=
  if 0 < q then (roundHalfEven (q / ulp q) : ℚ) * ulp q
  else if q < 0 then -((roundHalfEven (-q / ulp (-q)) : ℚ) * ulp (-q))
  else 0

/-- The `float64` nearest to the rational `q`; a rounded magnitude of `2 ^ 1024` or more
overflows to an infinity. -/
def roundF64 (q : ℚ) : F64 :=
  let r := roundQ q
  if (2 : ℚ) ^ 1024 ≤ r then .inf false
  else if r ≤ -(2 : ℚ) ^ 1024 then .inf true
  else .fin r

/-- Go `float64(n)` for an integer `n`. -/
def F64.ofInt (n : Int) : F64 := roundF64 (n : ℚ)

/-- Go `a - b` on `float64`. -/
def F64.sub : F64 → F64 → F64
  | .fin a, .fin b => roundF64 (a - b)
  | .fin _, .inf s => .inf (!s)
  | .inf s, .fin _ => .inf s
  | .inf s, .inf t => if s = t then .nan else .inf s
  | _, _ => .nan

/-- Go `a * b` on `float64`. -/
def F64.mul : F64 → F64 → F64
  | .fin a, .fin b => roundF64 (a * b)
  | .fin a, .inf s => if a = 0 then .nan else .inf (xor s (decide (a < 0)))
  | .inf s, .fin b => if b = 0 then .nan else .inf (xor s (decide (b < 0)))
  | .inf s, .inf t => .inf (xor s t)
  | _, _ => .nan

/-- Go `a / b` on `float64`; a zero divisor is the positive zero. -/
def F64.div : F64 → F64 → F64
  | .fin a, .fin b =>
    if b = 0 then (if a = 0 then .nan else .inf (decide (a < 0))) else roundF64 (a / b)
  | .fin _, .inf _ => .fin 0
  | .inf s, .fin b => .inf (xor s (decide (b < 0)))
  | _, _ => .nan

/-- Go `a < b` on `float64`: false as soon as one side is NaN. -/
def F64.lt : F64 → F64 → Bool
  | .fin a, .fin b => decide (a < b)
  | .fin _, .inf s => !s
  | .inf s, .fin _ => s
  | .inf s, .inf t => s && !t
  | _, _ => false

/-- Go `a <= b` on `float64`: false as soon as one side is NaN. -/
def F64.le : F64 → F64 → Bool
  | .fin a, .fin b => decide (a ≤ b)
  | .fin _, .inf s => !s
  | .inf s, .fin _ => s
  | .inf s, .inf t => s || !t
  | _, _ => false

/-- The number a finite `float64` stands for (0 for an infinity and for NaN). -/
def F64.toRat : F64 → ℚ
  | .fin q => q
  | _ => 0

/-- Go conversion of a `float64` to an integer type: the fraction is discarded. -/
def truncate (f : ℚ) : Int := if 0 ≤ f then Rat.floor f else -Rat.floor (-f)

/-- Go `uint8(v)` for a `float64`. When the truncated value is not a `uint8`, and for an
infinity or NaN, the Go specification leaves the result to the implementation: it is then
the byte `uint8Impl v`. -/
def F64.toUint8 (uint8Impl : F64 → Nat) : F64 → Nat
  | .fin q =>
    if 0 ≤ truncate q ∧ truncate q ≤ 255 then (truncate q).toNat else uint8Impl (.fin q) % 256
  | v => uint8Impl v % 256

/-! ## Activities, records and the package-level variables of main.go -/

/-- The struct `record` (main.go 391-396). `ts` is a `time.Time` as a count of nanoseconds;
`lat` and `lon` are `float64` taken as exact rationals, `p` is a `float64`. -/
structure record where
  ts : Int
  lat : ℚ
  lon : ℚ
  x : Int
  y : Int
  p : F64
deriving DecidableEq

/-- The struct `activity` (main.go 384-389). `duration` is a `time.Duration`, a signed
64-bit count of nanoseconds. -/
structure activity where
  date : Option Int
  duration : Int
  distance : ℚ
  records : List record
deriving DecidableEq

/-- The two methods of `RegionFlag` that `parse` calls. Its declaration is not part of
main.go, so both methods are taken as given. -/
structure RegionFlag where
  IsZero : Bool
  Contains : ℚ → ℚ → Bool

/-- Go `math.MaxFloat64`, `(2 - 2^-52) * 2^1023`. -/
def MaxFloat64 : ℚ := 2 ^ 1024 - 2 ^ 971

/-- The package-level variables of main.go (lines 28-57) that `parse` and `render` read or
write. -/
structure Globals where
  frames : Nat
  width : Nat
  height : Nat
  startsNear : RegionFlag
  endsNear : RegionFlag
  passesThrough : RegionFlag
  boundedBy : RegionFlag
  activities : List activity
  maxDur : Int
  minLat : ℚ
  minLon : ℚ
  maxLat : ℚ
  maxLon : ℚ
  ims : List Paletted

/-- The values of the package-level variables when `main` starts, after flag parsing:
`maxDur` is zero, the bounds start at `±math.MaxFloat64` (main.go 53-55), `frames`, `width`
and the four regions come from the command line. -/
def Globals.start (frames width : Nat) (startsNear endsNear passesThrough boundedBy : RegionFlag) :
    Globals :=
  { frames := frames
    width := width
    height := 0
    startsNear := startsNear
    endsNear := endsNear
    passesThrough := passesThrough
    boundedBy := boundedBy
    activities := []
    maxDur := 0
    minLat := MaxFloat64
    minLon := MaxFloat64
    maxLat := -MaxFloat64
    maxLon := -MaxFloat64
    ims := [] }

/-- How a step of `main` ends: it returns `nil`, it returns an error, or it panics.
`undetermined` stands for a run that leaves what this development determines: it converts to
an integer a `float64` that is not finite or is outside the range of the integer type (Go
leaves the result to the implementation), or it asks `image.NewPaletted` for `2 ^ 63` pixels
or more. Such a run panics or returns `nil` with values that depend on the implementation;
it does not return an error. -/
inductive Outcome (α : Type) where
  | ok (a : α)
  | error (msg : String)
  | panic (msg : String)
  | undetermined

/-! ## `parse` (main.go 210-321) -/

/-- The loop over `act.records` of main.go 243-259, from index `j` on, `len` being
`len(act.records)`. Returns `(include, exclude)` as they stand when the loop ends (`incl`
stands for `include`). -/
def recordLoop (g : Globals) (len : Nat) : Nat → List record → Bool → Bool × Bool
  | _, [], incl => (incl, false)
  | j, r :: rs, incl =>
    if j == 0 && !g.startsNear.IsZero && !g.startsNear.Contains r.lat r.lon then
      (incl, true)
    else if j == len - 1 && !g.endsNear.IsZero && !g.endsNear.Contains r.lat r.lon then
      (incl, true)
    else if !g.boundedBy.IsZero && !g.boundedBy.Contains r.lat r.lon then
      (incl, true)
    else if !incl && g.passesThrough.Contains r.lat r.lon then
      recordLoop g len (j + 1) rs true
    else
      recordLoop g len (j + 1) rs incl

/-- Lines 241-260 of main.go: whether the activity is removed, `exclude || !include`. -/
def removed (g : Globals) (act : activity) : Bool :=
  let r := recordLoop g act.records.length 0 act.records g.passesThrough.IsZero
  r.2 || !r.1

/-- Lines 292-295 of main.go: the bounds are widened by every record of a kept activity. -/
def widenBounds (g : Globals) : List record → Globals
  | [] => g
  | r :: rs =>
    widenBounds
      { g with
        minLat := min g.minLat r.lat
        minLon := min g.minLon r.lon
        maxLat := max g.maxLat r.lat
        maxLon := max g.maxLon r.lon } rs

/-- Lines 267-295 of main.go for a kept activity, restricted to the package-level variables
(`minDur`, `minDate`, `maxDate`, `minDist`, `maxDist` and the sums are locals that are
only printed). -/
def accumulate (g : Globals) (act : activity) : Globals :=
  let g := if act.duration > g.maxDur then { g with maxDur := act.duration } else g
  widenBounds g act.records

/-- The loop `for i := len(activities) - 1; i >= 0; i--` of main.go 239-296; the first
argument is `i + 1`. An index `i` outside `activities` cannot occur (`i < len(activities)`
holds throughout); the model leaves the state alone there. -/
def filterLoop : Nat → Globals → Globals
  | 0, g => g
  | i + 1, g =>
    match g.activities[i]? with
    | none => g
    | some act =>
      if removed g act then
        let j := g.activities.length - 1
        filterLoop i { g with activities := (g.activities.set i (g.activities.getD j act)).take j }
      else
        filterLoop i (accumulate g act)

/-- The function `parse` (main.go 210-321). `parsed` is what the file parsers (not part of
main.go) have appended to `activities` when the loop of lines 214-223 ends; their errors
only become warnings. The statistics printed at the end do not change the state. -/
def parse (parsed : List activity) (g : Globals) : Outcome Globals :=
  let g := { g with activities := parsed }
  if g.activities.length == 0 then
    .error "no matching activities found"
  else
    let g := filterLoop g.activities.length g
    if g.activities.length == 0 then
      .error "no matching activities found"
    else
      .ok g

/-! ## `render` (main.go 398-482) -/

/-- Go `uint(f)` for a `float64` whose truncation is a `uint`. -/
def toUint (f : ℚ) : Nat := (truncate f).toNat

/-- Go `t.Sub(u)` of `time.Time`: the difference as a `Duration`, saturated to the
`int64` range. -/
def timeSub (t u : Int) : Int := max (-(2 ^ 63)) (min (2 ^ 63 - 1) (t - u))

/-- Lines 409-414 of main.go: the projection of one record. `mercatorMeters` is not part of
main.go and is taken as given. The progress is the `float64` quotient
`float64(r.ts.Sub(ts0)) / float64(maxDur)`: NaN or an infinity when `maxDur` is 0. -/
def project (mercatorMeters : ℚ → ℚ → ℚ × ℚ) (minX maxY scale : ℚ) (ts0 maxDur : Int)
    (r : record) : record :=
  let (x, y) := mercatorMeters r.lat r.lon
  { r with
    x := truncate ((x - minX) * scale)
    y := truncate ((maxY - y) * scale)
    p := F64.div (F64.ofInt (timeSub r.ts ts0)) (F64.ofInt maxDur) }

/-- Lines 407-415 of main.go: every activity is projected; `act.records[0]` panics for an
activity without records. -/
def projectAll (mercatorMeters : ℚ → ℚ → ℚ × ℚ) (minX maxY scale : ℚ) (maxDur : Int) :
    List activity → Outcome (List activity)
  | [] => .ok []
  | act :: rest =>
    match act.records with
    | [] => .panic "index out of range [0] with length 0"
    | r0 :: _ =>
      match projectAll mercatorMeters minX maxY scale maxDur rest with
      | .ok rest =>
        .ok ({ act with
          records := act.records.map (project mercatorMeters minX maxY scale r0.ts maxDur) } :: rest)
      | .error msg => .error msg
      | .panic msg => .panic msg
      | .undetermined => .undetermined

/-- The closure `setPix` of `render` (main.go 446-465): `pp` is the variable it captures, and
`ci := uint8(pp * 0xff)` its colour index. -/
def setPix (uint8Impl : F64 → Nat) (im : Paletted) (pp : F64) (x y : Int) : Paletted :=
  setPixCi im x y (F64.toUint8 uint8Impl (F64.mul pp (.fin 0xff)))

/-- One invocation of the draw callback `setPix`: the record `r` whose loop iteration
makes it (so that the captured `pp` is `fp - r.p`) and the position plotted. -/
structure DrawCall where
  r : record
  x : Int
  y : Int
deriving DecidableEq

/-- Lines 427-476 of main.go, the loop over `act.records` for the frame threshold `fp`, as
the sequence of `setPix` invocations it makes. `rprev` is the variable of that name (`none`
for `nil`); `Bresenham` lists the positions that `bresenham.Bresenham` plots for a segment,
a library function that is not part of this repository. -/
def drawCalls (Bresenham : Int → Int → Int → Int → List (Int × Int)) (fp : F64) :
    Option record → List record → List DrawCall
  | _, [] => []
  | rprev, r :: rs =>
    let pp := F64.sub fp r.p
    if F64.lt pp (.fin 0) then
      []
    else if F64.lt (.fin 1) pp || (match rprev with
        | some q => decide (r.x = q.x) && decide (r.y = q.y)
        | none => false) then
      drawCalls Bresenham fp (some r) rs
    else
      (match rprev with
        | some q =>
          let dx := r.x - q.x
          let dy := r.y - q.y
          if dx < -1 || dx > 1 || dy < -1 || dy > 1 then
            (Bresenham q.x q.y r.x r.y).map (fun xy => DrawCall.mk r xy.1 xy.2)
          else
            [DrawCall.mk r r.x r.y]
        | none => [DrawCall.mk r r.x r.y]) ++ drawCalls Bresenham fp (some r) rs

/-- The effect on the frame `im` of the `setPix` invocations of one activity. -/
def drawActivity (uint8Impl : F64 → Nat) (Bresenham : Int → Int → Int → Int → List (Int × Int))
    (fp : F64) (im : Paletted) (act : activity) : Paletted :=
  (drawCalls Bresenham fp none act.records).foldl
    (fun im c => setPix uint8Impl im (F64.sub fp c.r.p) c.x c.y) im

/-- Line 425 of main.go: `fp := 1.2 * float64(f+1) / float64(frames)`, the constant `1.2`
being the `float64` nearest to it. -/
def frameThreshold (f frames : Nat) : F64 :=
  F64.div (F64.mul (roundF64 (12 / 10)) (F64.ofInt ((f + 1 : Nat) : Int)))
    (F64.ofInt (frames : Int))

/-- Lines 421-478 of main.go: frame `f` of `frames`. -/
def renderFrame (uint8Impl : F64 → Nat) (Bresenham : Int → Int → Int → Int → List (Int × Int))
    (pal : List Color) (width height frames : Nat) (activities : List activity) (f : Nat) :
    Paletted :=
  let im := newCanvas width height pal
  let fp := frameThreshold f frames
  activities.foldl (drawActivity uint8Impl Bresenham fp) im

/-- Whether a run of `render` stays within what this development determines. `dX` and
`truncH` are `maxX - minX` and the truncation of `dY * scale`; `acts` are the projected
activities. With `dX = 0` the scale is an infinity or NaN; `uint(dY * scale)` needs a
truncation in `0 .. 2^64 - 1` and every `int(...)` one in `-2^63 .. 2^63 - 1`; and when a
frame is allocated, `int(width)`, `int(height)` and the number of pixels must stay below
`2 ^ 63`. -/
def determined (g : Globals) (dX : ℚ) (truncH : Int) (acts : List activity) : Bool :=
  decide (dX ≠ 0) && decide (0 ≤ truncH) && decide (truncH < 2 ^ 64) &&
    acts.all (fun act => act.records.all (fun r =>
      decide (-(2 ^ 63) ≤ r.x) && decide (r.x < 2 ^ 63) &&
        decide (-(2 ^ 63) ≤ r.y) && decide (r.y < 2 ^ 63))) &&
    (g.frames == 0 ||
      (decide (g.width < 2 ^ 63) && decide (truncH < 2 ^ 63) &&
        decide ((g.width : Int) * truncH < 2 ^ 63)))

/-- The function `render` (main.go 398-482). `pal` is `colors.GetPalette(0x100)`. Its only
`return` statement is `return nil`. The projection loop comes first and panics on an
activity without records; no `float64` operation traps, so that panic does not depend on the
values computed before it. After the loop the run is followed only when it is `determined`. -/
def render (uint8Impl : F64 → Nat) (mercatorMeters : ℚ → ℚ → ℚ × ℚ)
    (Bresenham : Int → Int → Int → Int → List (Int × Int)) (pal : List Color)
    (g : Globals) : Outcome Globals :=
  let (minX, minY) := mercatorMeters g.minLat g.minLon
  let (maxX, maxY) := mercatorMeters g.maxLat g.maxLon
  let dX := maxX - minX
  let dY := maxY - minY
  let scale := (g.width : ℚ) / dX
  let height := toUint (dY * scale)
  let scale := scale * (9 / 10)
  let minX := minX - (5 / 100) * dX
  let maxY := maxY + (5 / 100) * dY
  match projectAll mercatorMeters minX maxY scale g.maxDur g.activities with
  | .panic msg => .panic msg
  | .error msg => .error msg
  | .undetermined => .undetermined
  | .ok acts =>
    if determined g dX (truncate (dY * ((g.width : ℚ) / dX))) acts then
      .ok { g with
        height := height
        activities := acts
        ims := (List.range g.frames).map
          (renderFrame uint8Impl Bresenham pal g.width height g.frames acts) }
    else
      .undetermined

/-- The loop of `main` (main.go 117-121): the steps run in order and the first one that does
not return `nil` ends the program. The result lists the state each executed step was run on,
in order, then the way the run ended; the run is not followed beyond an `undetermined`
step. -/
def runSteps : List (Globals → Outcome Globals) → Globals → List Globals × Outcome Globals
  | [], g => ([], .ok g)
  | step :: rest, g =>
    match step g with
    | .ok g1 => (g :: (runSteps rest g1).1, (runSteps rest g1).2)
    | .error msg => ([g], .error msg)
    | .panic msg => ([g], .panic msg)
    | .undetermined => ([g], .undetermined)

/-! ## The delta optimizer `optimizeFrames` (spec section 4.4, image_test.go) -/

/-- Modelled from the spec: a finished frame, "a palette-indexed pixel grid of fixed
width×height, a palette, and a bounding rectangle describing the sub-region that differs
from the previous frame" (section 3). `canvas` keeps the full pixel buffer and the canvas
rectangle; `bounds` is the reported bounding rectangle. The function `optimizeFrames` and
its frame type are not part of the sources; only the test `TestImageOptimizeFrames` is. -/
structure Frame where
  canvas : Paletted
  bounds : Rectangle
deriving DecidableEq

/-- Modelled from the spec: "every pixel position `(x,y)` in the canvas" (section 4.4,
step 1), row by row. -/
def positions (r : Rectangle) : List (Int × Int) :=
  (List.range r.Dy.toNat).flatMap
    (fun (j : Nat) =>
      (List.range r.Dx.toNat).map (fun (i : Nat) => (r.Min.X + (i : Int), r.Min.Y + (j : Int))))

/-- Modelled from the spec: "the set of positions where the two frames differed" (section
4.4, step 2), `prev` being the original, pre-mutation previous frame. -/
def differing (prev cur : Paletted) : List (Int × Int) :=
  (positions cur.Rect).filter (fun p => decide (cur.pixAt p.1 p.2 ≠ prev.pixAt p.1 p.2))

/-- Modelled from the spec: the bounding rectangle of section 4.4, step 2. "If the set is
empty, set the frame's bounding rectangle to a minimal degenerate 1×1 rectangle anchored at
the canvas origin. If non-empty, set the bounding rectangle to the tightest axis-aligned
rectangle `[minX, minY]..[maxX+1, maxY+1]` enclosing every differing position." -/
def boundingRect (origin : Point) : List (Int × Int) → Rectangle
  | [] => ⟨origin, ⟨origin.X + 1, origin.Y + 1⟩⟩
  | p :: ps =>
    ⟨⟨ps.foldl (fun m q => min m q.1) p.1, ps.foldl (fun m q => min m q.2) p.2⟩,
      ⟨ps.foldl (fun m q => max m q.1) p.1 + 1, ps.foldl (fun m q => max m q.2) p.2 + 1⟩⟩

/-- Modelled from the spec: section 4.4, step 1, for the positions `ps`: "if
`frame[i][x,y] == frame[i-1][x,y]` (original value), set `frame[i][x,y] =
TRANSPARENT_SENTINEL`; otherwise leave the actual drawn value". `pix` is the buffer being
rewritten, `cur` and `prev` the original frames. -/
def markUnchanged (sentinel : Nat) (prev cur : Paletted) : List (Int × Int) → List Nat → List Nat
  | [], pix => pix
  | p :: ps, pix =>
    if cur.pixAt p.1 p.2 = prev.pixAt p.1 p.2 then
      markUnchanged sentinel prev cur ps (pix.set (cur.PixOffset p.1 p.2).toNat sentinel)
    else
      markUnchanged sentinel prev cur ps pix

/-- Modelled from the spec: section 4.4 for one frame `cur` after the first, compared with
the original previous frame `prev`. The sentinel is the final palette index (section 3);
the pixel buffer keeps its extent (step 3), only the bounding rectangle narrows. -/
def optimizeFrame (prev cur : Paletted) : Frame :=
  { canvas := { cur with
      Pix := markUnchanged (cur.Palette.length - 1) prev cur (positions cur.Rect) cur.Pix }
    bounds := boundingRect cur.Rect.Min (differing prev cur) }

/-- Modelled from the spec: the frames after the first, left to right, each compared with
the original pixels of its predecessor (section 4.4: "mutation of frame `i-1` by this same
pass must not affect the comparison for frame `i`"). -/
def optimizeRest : Paletted → List Paletted → List Frame
  | _, [] => []
  | prev, cur :: rest => optimizeFrame prev cur :: optimizeRest cur rest

/-- Modelled from the spec: `optimizeFrames` (section 4.4). Frame 0 is unchanged and its
bounding rectangle is the full canvas. -/
def optimizeFrames : List Paletted → List Frame
  | [] => []
  | first :: rest => { canvas := first, bounds := first.Rect } :: optimizeRest first rest

/-- A frame of `TestImageOptimizeFrames` (image_test.go 11-16): a 3×3 image over the
palette black, white, transparent, with the given pixels. -/
def testFrame (pix : List Nat) : Paletted :=
  { NewPaletted (Rect 0 0 3 3) [⟨0, 0, 0, 0xffff⟩, ⟨0xffff, 0xffff, 0xffff, 0xffff⟩, ⟨0, 0, 0, 0⟩]
    with Pix := pix }

/-- The seven input frames of `TestImageOptimizeFrames` (image_test.go 13-21). -/
def testIms : List Paletted :=
  [testFrame [0, 0, 0, 0, 0, 0, 0, 0, 0],
   testFrame [0, 0, 0, 0, 0, 0, 0, 0, 0],
   testFrame [1, 1, 1, 1, 1, 1, 1, 1, 1],
   testFrame [1, 1, 1, 1, 0, 1, 1, 1, 1],
   testFrame [0, 1, 0, 1, 0, 1, 0, 1, 0],
   testFrame [0, 0, 0, 0, 0, 0, 0, 0, 0],
   testFrame [0, 0, 1, 1, 0, 0, 0, 0, 0]]

/-- The expectations of `TestImageOptimizeFrames` (image_test.go 23-34): for each frame its
rectangle and its pixels over the whole canvas. -/
def testExpects : List (Rectangle × List Nat) :=
  [(Rect 0 0 3 3, [0, 0, 0, 0, 0, 0, 0, 0, 0]),
   (Rect 0 0 1 1, [2, 2, 2, 2, 2, 2, 2, 2, 2]),
   (Rect 0 0 3 3, [1, 1, 1, 1, 1, 1, 1, 1, 1]),
   (Rect 1 1 2 2, [2, 2, 2, 2, 0, 2, 2, 2, 2]),
   (Rect 0 0 3 3, [0, 2, 0, 2, 2, 2, 0, 2, 0]),
   (Rect 0 0 3 3, [2, 0, 2, 0, 2, 0, 2, 0, 2]),
   (Rect 0 0 3 2, [2, 2, 1, 1, 2, 2, 2, 2, 2])]

/-- The region filters as the usage strings of the flags state them (main.go 74-77): the
activity must start from `starts_near`, end in `ends_near`, be fully contained within
`bounded_by` and pass through `passes_through`, each only when the flag is set. -/
def qualifies (g : Globals) (act : activity) : Bool :=
  (g.startsNear.IsZero || act.records.head?.any (fun r => g.startsNear.Contains r.lat r.lon)) &&
  (g.endsNear.IsZero || act.records.getLast?.any (fun r => g.endsNear.Contains r.lat r.lon)) &&
  (g.boundedBy.IsZero || act.records.all (fun r => g.boundedBy.Contains r.lat r.lon)) &&
  (g.passesThrough.IsZero || act.records.any (fun r => g.passesThrough.Contains r.lat r.lon))

/-- The regions are all that the filters read of the package-level variables. -/
def sameFlags (g g1 : Globals) : Prop :=
  g.startsNear = g1.startsNear ∧ g.endsNear = g1.endsNear ∧
    g.passesThrough = g1.passesThrough ∧ g.boundedBy = g1.boundedBy

/-! ## Sample inputs -/

/-- A region flag that was not given on the command line: `IsZero` holds. -/
def noRegion : RegionFlag := ⟨true, fun _ _ => false⟩

/-- A region flag that is set, here to the half-plane of latitudes up to 10. -/
def southOf10 : RegionFlag := ⟨false, fun lat _ => decide (lat ≤ 10)⟩

/-- The start state of a run without region flags, one frame, width 1. -/
def plainStart : Globals := Globals.start 1 1 noRegion noRegion noRegion noRegion

/-- An activity of two records at latitudes 5 and 6, ten nanoseconds long. -/
def shortTrack : activity :=
  ⟨none, 10, 0, [⟨0, 5, 0, 0, 0, .fin 0⟩, ⟨10, 6, 0, 0, 0, .fin 0⟩]⟩

/-- An activity of one record at latitude 20. -/
def farTrack : activity := ⟨none, 3, 0, [⟨0, 20, 0, 0, 0, .fin 0⟩]⟩

/-- An activity without records. -/
def emptyTrack : activity := ⟨none, 0, 0, []⟩

/-- An activity whose two records are at the same place. -/
def stillTrack : activity :=
  ⟨none, 7, 0, [⟨0, 1, 2, 0, 0, .fin 0⟩, ⟨7, 1, 2, 0, 0, .fin 0⟩]⟩

/-- A stand-in for `mercatorMeters` in closed examples. -/
def sampleMercator : ℚ → ℚ → ℚ × ℚ := fun lat lon => (lon, lat)

/-- A stand-in for `bresenham.Bresenham` in closed examples: the two end points. -/
def sampleLine : Int → Int → Int → Int → List (Int × Int) :=
  fun x0 y0 x1 y1 => [(x0, y0), (x1, y1)]

/-- A stand-in, in closed examples, for what the implementation makes of `uint8(v)` when `v`
is not in the range of `uint8`. -/
def sampleUint8 : F64 → Nat := fun _ => 0

/-- An activity of one record, projected to pixel `(1, 1)`, with progress 1/2. -/
def halfwayTrack : activity := ⟨none, 0, 0, [⟨0, 0, 0, 1, 1, .fin (1 / 2)⟩]⟩

/-! ## `render`: the projection to pixels (main.go 399-412) -/

/-- The locals `minX, minY, maxX, maxY` of `render` (main.go 399-400) before the margin is
applied: the Mercator bounding box. -/
structure Box where
  minX : ℚ
  minY : ℚ
  maxX : ℚ
  maxY : ℚ

/-- Lines 399-400 of main.go: `minX, minY := mercatorMeters(minLat, minLon)` and
`maxX, maxY := mercatorMeters(maxLat, maxLon)`. -/
def mercatorBox (mercatorMeters : ℚ → ℚ → ℚ × ℚ) (g : Globals) : Box :=
  { minX := (mercatorMeters g.minLat g.minLon).1
    minY := (mercatorMeters g.minLat g.minLon).2
    maxX := (mercatorMeters g.maxLat g.maxLon).1
    maxY := (mercatorMeters g.maxLat g.maxLon).2 }

/-- Line 401 of main.go: `dX := maxX - minX`. -/
def Box.dX (b : Box) : ℚ := b.maxX - b.minX

/-- Line 401 of main.go: `dY := maxY - minY`. -/
def Box.dY (b : Box) : ℚ := b.maxY - b.minY

/-- Lines 402-403 of main.go: `scale := float64(width) / dX` and `height = uint(dY * scale)`. -/
def canvasHeight (b : Box) (width : Nat) : Nat := toUint (b.dY * ((width : ℚ) / b.dX))

/-- Line 411 of main.go, `r.x = int((x - minX) * scale)`, after `scale *= 0.9` and
`minX -= 0.05 * dX` (lines 404-405); `mx` is the Mercator x of the record. -/
def pixelX (b : Box) (width : Nat) (mx : ℚ) : Int :=
  truncate ((mx - (b.minX - 5 / 100 * b.dX)) * ((width : ℚ) / b.dX * (9 / 10)))

/-- Line 412 of main.go, `r.y = int((maxY - y) * scale)`, after `scale *= 0.9` and
`maxY += 0.05 * dY` (lines 404, 406); `my` is the Mercator y of the record. -/
def pixelY (b : Box) (width : Nat) (my : ℚ) : Int :=
  truncate ((b.maxY + 5 / 100 * b.dY - my) * ((width : ℚ) / b.dX * (9 / 10)))

/-- An activity of two records, 3 apart in latitude and 2 apart in longitude. -/
def flatTrack : activity :=
  ⟨none, 9, 0, [⟨0, 0, 0, 0, 0, .fin 0⟩, ⟨9, 3, 2, 0, 0, .fin 0⟩]⟩

/-! # Lemmas and theorems

## Canvas lemmas -/

theorem Rect_nat (w h : Nat) : Rect 0 0 (w : Int) (h : Int) = ⟨⟨0, 0⟩, ⟨(w : Int), (h : Int)⟩⟩ := by
  have hw : ¬ ((0 : Int) > (w : Int)) := by omega
  have hh : ¬ ((0 : Int) > (h : Int)) := by omega
  simp [Rect, hw, hh]

theorem newCanvas_isCanvas (w h : Nat) (pal : List Color) : (newCanvas w h pal).IsCanvas w h := by
  refine ⟨?_, ?_, ?_⟩
  · simp [newCanvas, NewPaletted, Rect_nat]
  · simp [newCanvas, NewPaletted, Rect_nat, Rectangle.Dx]
  · simp only [newCanvas, NewPaletted, Rect_nat, Rectangle.Dx, Rectangle.Dy, List.length_map,
      List.length_replicate, sub_zero]
    rw [← Int.natCast_mul, Int.toNat_natCast]

/-- Inside a canvas the pixel offset is the row-major index `y * width + x`. -/
theorem offset_toNat {im : Paletted} {w h : Nat} (hc : im.IsCanvas w h) (x y : Nat) :
    (im.PixOffset (x : Int) (y : Int)).toNat = y * w + x := by
  obtain ⟨hr, hs, _⟩ := hc
  simp only [Paletted.PixOffset, hr, hs, sub_zero, mul_one]
  rw [← Int.natCast_mul, ← Int.natCast_add, Int.toNat_natCast]

theorem In_canvas_iff {im : Paletted} {w h : Nat} (hc : im.IsCanvas w h) (x y : Int) :
    (Point.mk x y).In im.Rect = true ↔ (0 ≤ x ∧ x < w) ∧ (0 ≤ y ∧ y < h) := by
  obtain ⟨hr, _, _⟩ := hc
  simp [Point.In, hr, and_assoc]

theorem index_lt {w h x y : Nat} (hx : x < w) (hy : y < h) : y * w + x < w * h := by
  have : (y + 1) * w ≤ h * w := Nat.mul_le_mul_right w hy
  rw [Nat.mul_comm w h]
  linarith [Nat.succ_mul y w]

theorem index_inj {w x y x1 y1 : Nat} (hx : x < w) (hx1 : x1 < w)
    (he : y * w + x = y1 * w + x1) : x = x1 ∧ y = y1 := by
  have hw : 0 < w := by omega
  have h1 : (y * w + x) % w = x := by
    rw [Nat.add_comm, Nat.add_mul_mod_self_right, Nat.mod_eq_of_lt hx]
  have h2 : (y1 * w + x1) % w = x1 := by
    rw [Nat.add_comm, Nat.add_mul_mod_self_right, Nat.mod_eq_of_lt hx1]
  have hxx : x = x1 := by rw [← h1, ← h2, he]
  subst hxx
  have : y * w = y1 * w := by omega
  exact ⟨rfl, Nat.eq_of_mul_eq_mul_right hw this⟩

theorem setPixIfLower_isCanvas {im : Paletted} {w h : Nat} (hc : im.IsCanvas w h)
    (cx cy : Int) (ci : Nat) : (setPixIfLower im cx cy ci).1.IsCanvas w h := by
  unfold setPixIfLower
  split
  · dsimp only
    split
    · obtain ⟨hr, hs, hl⟩ := hc
      exact ⟨hr, hs, by simp [hl]⟩
    · exact hc
  · exact hc

/-- Effect of one `setPixIfLower` call on an arbitrary pixel of the canvas. -/
theorem pixAt_setPixIfLower {im : Paletted} {w h : Nat} (hc : im.IsCanvas w h)
    {x y : Nat} (hx : x < w) (hy : y < h) (cx cy : Int) (ci : Nat) :
    (setPixIfLower im cx cy ci).1.pixAt x y =
      if cx = x ∧ cy = y then min (im.pixAt x y) ci else im.pixAt x y := by
  unfold setPixIfLower
  by_cases hin : (Point.mk cx cy).In im.Rect = true
  · obtain ⟨⟨hx0, hx1⟩, ⟨hy0, hy1⟩⟩ := (In_canvas_iff hc cx cy).1 hin
    lift cx to Nat using hx0
    lift cy to Nat using hy0
    have hx1 : cx < w := by exact_mod_cast hx1
    have hy1 : cy < h := by exact_mod_cast hy1
    rw [if_pos hin]
    simp only [offset_toNat hc]
    by_cases hgt : im.Pix.getD (cy * w + cx) 0 > ci
    · rw [if_pos hgt]
      have hcan : Paletted.IsCanvas { im with Pix := im.Pix.set (cy * w + cx) ci } w h := by
        obtain ⟨hr, hs, hl⟩ := hc
        exact ⟨hr, hs, by simp [hl]⟩
      simp only [Paletted.pixAt, offset_toNat hcan, offset_toNat hc]
      by_cases hsame : ((cx : Int) = x ∧ (cy : Int) = y)
      · obtain ⟨h1, h2⟩ := hsame
        have h1 : cx = x := by exact_mod_cast h1
        have h2 : cy = y := by exact_mod_cast h2
        subst h1; subst h2
        have hlen : cy * w + cx < im.Pix.length := by rw [hc.2.2]; exact index_lt hx hy
        simp only [and_self, if_true]
        rw [List.getD_eq_getElem?_getD, List.getElem?_set_self hlen]
        simp only [Option.getD_some]
        exact (Nat.min_eq_right (le_of_lt hgt)).symm
      · rw [if_neg hsame]
        have hne : cy * w + cx ≠ y * w + x := by
          intro he
          obtain ⟨h1, h2⟩ := index_inj hx1 hx he
          exact hsame ⟨by exact_mod_cast h1, by exact_mod_cast h2⟩
        rw [List.getD_eq_getElem?_getD, List.getElem?_set_ne hne, ← List.getD_eq_getElem?_getD]
    · rw [if_neg hgt]
      by_cases hsame : ((cx : Int) = x ∧ (cy : Int) = y)
      · obtain ⟨h1, h2⟩ := hsame
        have h1 : cx = x := by exact_mod_cast h1
        have h2 : cy = y := by exact_mod_cast h2
        subst h1; subst h2
        simp only [and_self, if_true, Paletted.pixAt, offset_toNat hc]
        exact (Nat.min_eq_left (not_lt.1 hgt)).symm
      · rw [if_neg hsame]
  · rw [if_neg hin]
    have hne : ¬ (cx = (x : Int) ∧ cy = (y : Int)) := by
      rintro ⟨h1, h2⟩
      apply hin
      rw [In_canvas_iff hc]
      subst h1; subst h2
      exact ⟨⟨by omega, by exact_mod_cast hx⟩, ⟨by omega, by exact_mod_cast hy⟩⟩
    rw [if_neg hne]

theorem setPixIfLower_snd (im : Paletted) (cx cy : Int) (ci : Nat) :
    (setPixIfLower im cx cy ci).2 = true ↔
      ((Point.mk cx cy).In im.Rect = true ∧ ci < im.pixAt cx cy) := by
  unfold setPixIfLower Paletted.pixAt
  by_cases hin : (Point.mk cx cy).In im.Rect = true
  · rw [if_pos hin]
    dsimp only
    by_cases hgt : im.Pix.getD (im.PixOffset cx cy).toNat 0 > ci
    · rw [if_pos hgt]; simpa [hin] using hgt
    · rw [if_neg hgt]; simpa [hin] using hgt
  · rw [if_neg hin]; simp [hin]

theorem setPixIfLower_outside (im : Paletted) (cx cy : Int) (ci : Nat)
    (hout : (Point.mk cx cy).In im.Rect = false) : setPixIfLower im cx cy ci = (im, false) := by
  unfold setPixIfLower
  simp [hout]

theorem applyCalls_isCanvas {w h : Nat} (calls : List Call) :
    ∀ {im : Paletted}, im.IsCanvas w h → (applyCalls im calls).IsCanvas w h := by
  induction calls with
  | nil => intro im hc; exact hc
  | cons c cs ih =>
    intro im hc
    exact ih (setPixIfLower_isCanvas hc c.x c.y c.ci)

theorem pixAt_applyCalls {w h : Nat} {x y : Nat} (hx : x < w) (hy : y < h) (calls : List Call) :
    ∀ {im : Paletted}, im.IsCanvas w h →
      (applyCalls im calls).pixAt x y =
        ((calls.filter (fun c => decide (c.x = (x : Int) ∧ c.y = (y : Int)))).map
          (fun c => c.ci)).foldl min (im.pixAt x y) := by
  induction calls with
  | nil => intro im _; rfl
  | cons c cs ih =>
    intro im hc
    have hstep := pixAt_setPixIfLower hc hx hy c.x c.y c.ci
    have hrec := ih (setPixIfLower_isCanvas hc c.x c.y c.ci)
    show (applyCalls (setPixIfLower im c.x c.y c.ci).1 cs).pixAt x y = _
    rw [hrec, hstep]
    by_cases hsame : (c.x = (x : Int) ∧ c.y = (y : Int))
    · simp [List.filter_cons, hsame]
    · rw [if_neg hsame]
      simp [List.filter_cons, hsame]

theorem pixAt_newCanvas {w h : Nat} (pal : List Color) {x y : Nat} (hx : x < w) (hy : y < h) :
    (newCanvas w h pal).pixAt x y = 0xff := by
  have hc := newCanvas_isCanvas w h pal
  have hlen : y * w + x < (newCanvas w h pal).Pix.length := by
    rw [hc.2.2]; exact index_lt hx hy
  unfold Paletted.pixAt
  rw [offset_toNat hc, List.getD_eq_getElem?_getD, List.getElem?_eq_getElem hlen]
  simp [newCanvas]

/-- C1: on a canvas initialised to `0xff`, after any finite sequence of `setPixIfLower` calls
every in-canvas pixel holds the minimum of `0xff` and of all colour indices proposed for it;
a further call outside the canvas changes nothing and returns `false`; and a call returns
`true` exactly when it lowered the value stored at its position. -/
theorem setPixIfLower_final_min (width height : Nat) (pal : List Color) (calls : List Call)
    (x y : Int) (ci : Nat) :
    ((Point.mk x y).In (applyCalls (newCanvas width height pal) calls).Rect = true →
      (applyCalls (newCanvas width height pal) calls).pixAt x y = minProposed calls x y) ∧
    ((Point.mk x y).In (applyCalls (newCanvas width height pal) calls).Rect = false →
      setPixIfLower (applyCalls (newCanvas width height pal) calls) x y ci =
        (applyCalls (newCanvas width height pal) calls, false)) ∧
    ((setPixIfLower (applyCalls (newCanvas width height pal) calls) x y ci).2 = true ↔
      (setPixIfLower (applyCalls (newCanvas width height pal) calls) x y ci).1.pixAt x y <
        (applyCalls (newCanvas width height pal) calls).pixAt x y) := by
  have hc : (applyCalls (newCanvas width height pal) calls).IsCanvas width height :=
    applyCalls_isCanvas calls (newCanvas_isCanvas width height pal)
  refine ⟨?_, setPixIfLower_outside _ x y ci, ?_⟩
  · intro hin
    obtain ⟨⟨hx0, hx1⟩, ⟨hy0, hy1⟩⟩ := (In_canvas_iff hc x y).1 hin
    lift x to Nat using hx0
    lift y to Nat using hy0
    have hx1 : x < width := by exact_mod_cast hx1
    have hy1 : y < height := by exact_mod_cast hy1
    rw [pixAt_applyCalls hx1 hy1 calls (newCanvas_isCanvas width height pal),
      pixAt_newCanvas pal hx1 hy1]
    rfl
  · rw [setPixIfLower_snd]
    constructor
    · rintro ⟨hin, hlt⟩
      obtain ⟨⟨hx0, hx1⟩, ⟨hy0, hy1⟩⟩ := (In_canvas_iff hc x y).1 hin
      lift x to Nat using hx0
      lift y to Nat using hy0
      have hx1 : x < width := by exact_mod_cast hx1
      have hy1 : y < height := by exact_mod_cast hy1
      rw [pixAt_setPixIfLower hc hx1 hy1]
      simp only [and_self, if_true]
      exact lt_of_le_of_lt (Nat.min_le_right _ _) hlt
    · intro hlt
      by_cases hin : (Point.mk x y).In (applyCalls (newCanvas width height pal) calls).Rect = true
      · refine ⟨hin, ?_⟩
        obtain ⟨⟨hx0, hx1⟩, ⟨hy0, hy1⟩⟩ := (In_canvas_iff hc x y).1 hin
        lift x to Nat using hx0
        lift y to Nat using hy0
        have hx1 : x < width := by exact_mod_cast hx1
        have hy1 : y < height := by exact_mod_cast hy1
        rw [pixAt_setPixIfLower hc hx1 hy1] at hlt
        simp only [and_self, if_true] at hlt
        by_contra hge
        rw [Nat.min_eq_left (not_lt.1 hge)] at hlt
        exact lt_irrefl _ hlt
      · rw [setPixIfLower_outside _ x y ci (by simpa using hin)] at hlt
        exact absurd hlt (lt_irrefl _)

/-- Effect of one `setPixIfLower` call on an in-canvas pixel given by `int` coordinates. -/
theorem pixAt_setPixIfLower_int {im : Paletted} {w h : Nat} (hc : im.IsCanvas w h)
    {px py : Int} (hin : (Point.mk px py).In im.Rect = true) (cx cy : Int) (ci : Nat) :
    (setPixIfLower im cx cy ci).1.pixAt px py =
      if cx = px ∧ cy = py then min (im.pixAt px py) ci else im.pixAt px py := by
  obtain ⟨⟨hx0, hx1⟩, ⟨hy0, hy1⟩⟩ := (In_canvas_iff hc px py).1 hin
  lift px to Nat using hx0
  lift py to Nat using hy0
  exact pixAt_setPixIfLower hc (by exact_mod_cast hx1) (by exact_mod_cast hy1) cx cy ci

theorem setPixIfLower_rect (im : Paletted) (cx cy : Int) (ci : Nat) :
    (setPixIfLower im cx cy ci).1.Rect = im.Rect := by
  unfold setPixIfLower
  split
  · dsimp only
    split <;> rfl
  · rfl

/-- One `setPixIfLower` call keeps the canvas a canvas, keeps a position inside it, and
changes the value read there as `pixAt_setPixIfLower_int` says. -/
theorem pixAt_step {im : Paletted} {w h : Nat} (hc : im.IsCanvas w h)
    {px py : Int} (hin : (Point.mk px py).In im.Rect = true) (cx cy : Int) (ci : Nat) :
    (setPixIfLower im cx cy ci).1.IsCanvas w h ∧
    (Point.mk px py).In (setPixIfLower im cx cy ci).1.Rect = true ∧
    (setPixIfLower im cx cy ci).1.pixAt px py =
      if cx = px ∧ cy = py then min (im.pixAt px py) ci else im.pixAt px py :=
  ⟨setPixIfLower_isCanvas hc cx cy ci, by rw [setPixIfLower_rect]; exact hin,
    pixAt_setPixIfLower_int hc hin cx cy ci⟩

theorem setPixIfLower_fail (im : Paletted) (cx cy : Int) (ci : Nat)
    (hf : (setPixIfLower im cx cy ci).2 = false) : (setPixIfLower im cx cy ci).1 = im := by
  unfold setPixIfLower at hf ⊢
  by_cases hin : (Point.mk cx cy).In im.Rect = true
  · rw [if_pos hin] at hf ⊢
    dsimp only at hf ⊢
    by_cases hgt : im.Pix.getD (im.PixOffset cx cy).toNat 0 > ci
    · rw [if_pos hgt] at hf
      exact absurd hf (by simp)
    · rw [if_neg hgt]
  · rw [if_neg hin]

theorem setPixCi_centre (im : Paletted) (x y : Int) (ci : Nat)
    (hok : (setPixIfLower im x y ci).2 = true) (h80 : ¬ ci < 0x80) :
    setPixCi im x y ci = (setPixIfLower im x y ci).1 := by
  unfold setPixCi
  simp only [hok, Bool.not_true, Bool.false_eq_true, if_false, h80]

theorem setPixCi_ring1 (im : Paletted) (x y : Int) (ci : Nat)
    (hok : (setPixIfLower im x y ci).2 = true) (h80 : ci < 0x80) (h40 : ¬ 2 * ci < 0x80) :
    setPixCi im x y ci =
      (setPixIfLower (setPixIfLower (setPixIfLower (setPixIfLower (setPixIfLower im x y ci).1
        (x - 1) y (2 * ci)).1 x (y - 1) (2 * ci)).1 (x + 1) y (2 * ci)).1 x (y + 1) (2 * ci)).1 := by
  have hd : (ci * 2) % 256 = 2 * ci := by omega
  unfold setPixCi
  simp only [hok, Bool.not_true, Bool.false_eq_true, if_false, h80, if_true, hd, h40]

theorem setPixCi_ring2 (im : Paletted) (x y : Int) (ci : Nat)
    (hok : (setPixIfLower im x y ci).2 = true) (h80 : ci < 0x80) (h40 : 2 * ci < 0x80) :
    setPixCi im x y ci =
      (setPixIfLower (setPixIfLower (setPixIfLower (setPixIfLower
        (setPixIfLower (setPixIfLower (setPixIfLower (setPixIfLower (setPixIfLower im x y ci).1
          (x - 1) y (2 * ci)).1 x (y - 1) (2 * ci)).1 (x + 1) y (2 * ci)).1 x (y + 1) (2 * ci)).1
        (x - 1) (y - 1) (4 * ci)).1 (x - 1) (y + 1) (4 * ci)).1 (x + 1) (y - 1) (4 * ci)).1
        (x + 1) (y + 1) (4 * ci)).1 := by
  have hd : (ci * 2) % 256 = 2 * ci := by omega
  have hq : (2 * ci * 2) % 256 = 4 * ci := by omega
  unfold setPixCi
  simp only [hok, Bool.not_true, Bool.false_eq_true, if_false, h80, if_true, hd, h40, hq]

/-- Arithmetic of the centre write followed by the ring of orthogonal writes, on the values
read at one position `(px, py)`. -/
theorem ring1_values (x y px py : Int) (ci v v0 v1 v2 v3 v4 : Nat)
    (e0 : v0 = if x = px ∧ y = py then min v (ci) else v)
    (e1 : v1 = if x - 1 = px ∧ y = py then min v0 (2 * ci) else v0)
    (e2 : v2 = if x = px ∧ y - 1 = py then min v1 (2 * ci) else v1)
    (e3 : v3 = if x + 1 = px ∧ y = py then min v2 (2 * ci) else v2)
    (e4 : v4 = if x = px ∧ y + 1 = py then min v3 (2 * ci) else v3)
    : v4 =
      if px = x ∧ py = y then min v ci
      else if isOrthogonal x y px py then min v (2 * ci)
      else v := by
  by_cases hcen : px = x ∧ py = y
  · obtain ⟨rfl, rfl⟩ := hcen
    rw [if_pos (by omega)] at e0
    rw [if_neg (by omega)] at e1
    rw [if_neg (by omega)] at e2
    rw [if_neg (by omega)] at e3
    rw [if_neg (by omega)] at e4
    unfold isOrthogonal; try unfold isDiagonal
    split_ifs <;> omega
  · by_cases ho : isOrthogonal x y px py
    · unfold isOrthogonal at ho
      rcases ho with ⟨rfl, rfl⟩ | ⟨rfl, rfl⟩ | ⟨rfl, rfl⟩ | ⟨rfl, rfl⟩
      · rw [if_neg (by omega)] at e0
        rw [if_pos (by omega)] at e1
        rw [if_neg (by omega)] at e2
        rw [if_neg (by omega)] at e3
        rw [if_neg (by omega)] at e4
        unfold isOrthogonal; try unfold isDiagonal
        split_ifs <;> omega
      · rw [if_neg (by omega)] at e0
        rw [if_neg (by omega)] at e1
        rw [if_pos (by omega)] at e2
        rw [if_neg (by omega)] at e3
        rw [if_neg (by omega)] at e4
        unfold isOrthogonal; try unfold isDiagonal
        split_ifs <;> omega
      · rw [if_neg (by omega)] at e0
        rw [if_neg (by omega)] at e1
        rw [if_neg (by omega)] at e2
        rw [if_pos (by omega)] at e3
        rw [if_neg (by omega)] at e4
        unfold isOrthogonal; try unfold isDiagonal
        split_ifs <;> omega
      · rw [if_neg (by omega)] at e0
        rw [if_neg (by omega)] at e1
        rw [if_neg (by omega)] at e2
        rw [if_neg (by omega)] at e3
        rw [if_pos (by omega)] at e4
        unfold isOrthogonal; try unfold isDiagonal
        split_ifs <;> omega
    · rw [if_neg hcen, if_neg ho]
      unfold isOrthogonal at ho
      rw [if_neg (by omega)] at e0
      rw [if_neg (by omega)] at e1
      rw [if_neg (by omega)] at e2
      rw [if_neg (by omega)] at e3
      rw [if_neg (by omega)] at e4
      omega

/-- Arithmetic of the centre write followed by both rings of writes, on the values read at
one position `(px, py)`. -/
theorem ring2_values (x y px py : Int) (ci v v0 v1 v2 v3 v4 v5 v6 v7 v8 : Nat)
    (e0 : v0 = if x = px ∧ y = py then min v (ci) else v)
    (e1 : v1 = if x - 1 = px ∧ y = py then min v0 (2 * ci) else v0)
    (e2 : v2 = if x = px ∧ y - 1 = py then min v1 (2 * ci) else v1)
    (e3 : v3 = if x + 1 = px ∧ y = py then min v2 (2 * ci) else v2)
    (e4 : v4 = if x = px ∧ y + 1 = py then min v3 (2 * ci) else v3)
    (e5 : v5 = if x - 1 = px ∧ y - 1 = py then min v4 (4 * ci) else v4)
    (e6 : v6 = if x - 1 = px ∧ y + 1 = py then min v5 (4 * ci) else v5)
    (e7 : v7 = if x + 1 = px ∧ y - 1 = py then min v6 (4 * ci) else v6)
    (e8 : v8 = if x + 1 = px ∧ y + 1 = py then min v7 (4 * ci) else v7)
    : v8 =
      if px = x ∧ py = y then min v ci
      else if isOrthogonal x y px py then min v (2 * ci)
      else if isDiagonal x y px py then min v (4 * ci)
      else v := by
  by_cases hcen : px = x ∧ py = y
  · obtain ⟨rfl, rfl⟩ := hcen
    rw [if_pos (by omega)] at e0
    rw [if_neg (by omega)] at e1
    rw [if_neg (by omega)] at e2
    rw [if_neg (by omega)] at e3
    rw [if_neg (by omega)] at e4
    rw [if_neg (by omega)] at e5
    rw [if_neg (by omega)] at e6
    rw [if_neg (by omega)] at e7
    rw [if_neg (by omega)] at e8
    unfold isOrthogonal; try unfold isDiagonal
    split_ifs <;> omega
  · by_cases ho : isOrthogonal x y px py
    · unfold isOrthogonal at ho
      rcases ho with ⟨rfl, rfl⟩ | ⟨rfl, rfl⟩ | ⟨rfl, rfl⟩ | ⟨rfl, rfl⟩
      · rw [if_neg (by omega)] at e0
        rw [if_pos (by omega)] at e1
        rw [if_neg (by omega)] at e2
        rw [if_neg (by omega)] at e3
        rw [if_neg (by omega)] at e4
        rw [if_neg (by omega)] at e5
        rw [if_neg (by omega)] at e6
        rw [if_neg (by omega)] at e7
        rw [if_neg (by omega)] at e8
        unfold isOrthogonal; try unfold isDiagonal
        split_ifs <;> omega
      · rw [if_neg (by omega)] at e0
        rw [if_neg (by omega)] at e1
        rw [if_pos (by omega)] at e2
        rw [if_neg (by omega)] at e3
        rw [if_neg (by omega)] at e4
        rw [if_neg (by omega)] at e5
        rw [if_neg (by omega)] at e6
        rw [if_neg (by omega)] at e7
        rw [if_neg (by omega)] at e8
        unfold isOrthogonal; try unfold isDiagonal
        split_ifs <;> omega
      · rw [if_neg (by omega)] at e0
        rw [if_neg (by omega)] at e1
        rw [if_neg (by omega)] at e2
        rw [if_pos (by omega)] at e3
        rw [if_neg (by omega)] at e4
        rw [if_neg (by omega)] at e5
        rw [if_neg (by omega)] at e6
        rw [if_neg (by omega)] at e7
        rw [if_neg (by omega)] at e8
        unfold isOrthogonal; try unfold isDiagonal
        split_ifs <;> omega
      · rw [if_neg (by omega)] at e0
        rw [if_neg (by omega)] at e1
        rw [if_neg (by omega)] at e2
        rw [if_neg (by omega)] at e3
        rw [if_pos (by omega)] at e4
        rw [if_neg (by omega)] at e5
        rw [if_neg (by omega)] at e6
        rw [if_neg (by omega)] at e7
        rw [if_neg (by omega)] at e8
        unfold isOrthogonal; try unfold isDiagonal
        split_ifs <;> omega
    · by_cases hd : isDiagonal x y px py
      · unfold isDiagonal at hd
        rcases hd with ⟨rfl, rfl⟩ | ⟨rfl, rfl⟩ | ⟨rfl, rfl⟩ | ⟨rfl, rfl⟩
        · rw [if_neg (by omega)] at e0
          rw [if_neg (by omega)] at e1
          rw [if_neg (by omega)] at e2
          rw [if_neg (by omega)] at e3
          rw [if_neg (by omega)] at e4
          rw [if_pos (by omega)] at e5
          rw [if_neg (by omega)] at e6
          rw [if_neg (by omega)] at e7
          rw [if_neg (by omega)] at e8
          unfold isOrthogonal; try unfold isDiagonal
          split_ifs <;> omega
        · rw [if_neg (by omega)] at e0
          rw [if_neg (by omega)] at e1
          rw [if_neg (by omega)] at e2
          rw [if_neg (by omega)] at e3
          rw [if_neg (by omega)] at e4
          rw [if_neg (by omega)] at e5
          rw [if_pos (by omega)] at e6
          rw [if_neg (by omega)] at e7
          rw [if_neg (by omega)] at e8
          unfold isOrthogonal; try unfold isDiagonal
          split_ifs <;> omega
        · rw [if_neg (by omega)] at e0
          rw [if_neg (by omega)] at e1
          rw [if_neg (by omega)] at e2
          rw [if_neg (by omega)] at e3
          rw [if_neg (by omega)] at e4
          rw [if_neg (by omega)] at e5
          rw [if_neg (by omega)] at e6
          rw [if_pos (by omega)] at e7
          rw [if_neg (by omega)] at e8
          unfold isOrthogonal; try unfold isDiagonal
          split_ifs <;> omega
        · rw [if_neg (by omega)] at e0
          rw [if_neg (by omega)] at e1
          rw [if_neg (by omega)] at e2
          rw [if_neg (by omega)] at e3
          rw [if_neg (by omega)] at e4
          rw [if_neg (by omega)] at e5
          rw [if_neg (by omega)] at e6
          rw [if_neg (by omega)] at e7
          rw [if_pos (by omega)] at e8
          unfold isOrthogonal; try unfold isDiagonal
          split_ifs <;> omega
      · rw [if_neg hcen, if_neg ho, if_neg hd]
        unfold isOrthogonal at ho
        unfold isDiagonal at hd
        rw [if_neg (by omega)] at e0
        rw [if_neg (by omega)] at e1
        rw [if_neg (by omega)] at e2
        rw [if_neg (by omega)] at e3
        rw [if_neg (by omega)] at e4
        rw [if_neg (by omega)] at e5
        rw [if_neg (by omega)] at e6
        rw [if_neg (by omega)] at e7
        rw [if_neg (by omega)] at e8
        omega

/-- Values after the centre write and the first ring of orthogonal writes. -/
theorem pixAt_ring1 {im : Paletted} {w h : Nat} (hc : im.IsCanvas w h) (x y : Int) (ci : Nat)
    {px py : Int} (hin : (Point.mk px py).In im.Rect = true) :
    (setPixIfLower (setPixIfLower (setPixIfLower (setPixIfLower (setPixIfLower im x y ci).1 (x - 1) y (2 * ci)).1 x (y - 1) (2 * ci)).1 (x + 1) y (2 * ci)).1 x (y + 1) (2 * ci)).1.pixAt px py =
      if px = x ∧ py = y then min (im.pixAt px py) ci
      else if isOrthogonal x y px py then min (im.pixAt px py) (2 * ci)
      else im.pixAt px py := by
  obtain ⟨hc0, hin0, e0⟩ := pixAt_step hc hin x y ci
  obtain ⟨hc1, hin1, e1⟩ := pixAt_step hc0 hin0 (x - 1) y (2 * ci)
  obtain ⟨hc2, hin2, e2⟩ := pixAt_step hc1 hin1 x (y - 1) (2 * ci)
  obtain ⟨hc3, hin3, e3⟩ := pixAt_step hc2 hin2 (x + 1) y (2 * ci)
  obtain ⟨hc4, hin4, e4⟩ := pixAt_step hc3 hin3 x (y + 1) (2 * ci)
  exact ring1_values x y px py ci _ _ _ _ _ _ e0 e1 e2 e3 e4

/-- Values after the centre write and both rings of writes. -/
theorem pixAt_ring2 {im : Paletted} {w h : Nat} (hc : im.IsCanvas w h) (x y : Int) (ci : Nat)
    {px py : Int} (hin : (Point.mk px py).In im.Rect = true) :
    (setPixIfLower (setPixIfLower (setPixIfLower (setPixIfLower (setPixIfLower (setPixIfLower (setPixIfLower (setPixIfLower (setPixIfLower im x y ci).1 (x - 1) y (2 * ci)).1 x (y - 1) (2 * ci)).1 (x + 1) y (2 * ci)).1 x (y + 1) (2 * ci)).1 (x - 1) (y - 1) (4 * ci)).1 (x - 1) (y + 1) (4 * ci)).1 (x + 1) (y - 1) (4 * ci)).1 (x + 1) (y + 1) (4 * ci)).1.pixAt px py =
      if px = x ∧ py = y then min (im.pixAt px py) ci
      else if isOrthogonal x y px py then min (im.pixAt px py) (2 * ci)
      else if isDiagonal x y px py then min (im.pixAt px py) (4 * ci)
      else im.pixAt px py := by
  obtain ⟨hc0, hin0, e0⟩ := pixAt_step hc hin x y ci
  obtain ⟨hc1, hin1, e1⟩ := pixAt_step hc0 hin0 (x - 1) y (2 * ci)
  obtain ⟨hc2, hin2, e2⟩ := pixAt_step hc1 hin1 x (y - 1) (2 * ci)
  obtain ⟨hc3, hin3, e3⟩ := pixAt_step hc2 hin2 (x + 1) y (2 * ci)
  obtain ⟨hc4, hin4, e4⟩ := pixAt_step hc3 hin3 x (y + 1) (2 * ci)
  obtain ⟨hc5, hin5, e5⟩ := pixAt_step hc4 hin4 (x - 1) (y - 1) (4 * ci)
  obtain ⟨hc6, hin6, e6⟩ := pixAt_step hc5 hin5 (x - 1) (y + 1) (4 * ci)
  obtain ⟨hc7, hin7, e7⟩ := pixAt_step hc6 hin6 (x + 1) (y - 1) (4 * ci)
  obtain ⟨hc8, hin8, e8⟩ := pixAt_step hc7 hin7 (x + 1) (y + 1) (4 * ci)
  exact ring2_values x y px py ci _ _ _ _ _ _ _ _ _ _ e0 e1 e2 e3 e4 e5 e6 e7 e8

/-- Value of every in-canvas pixel after a successful `setPix`. -/
theorem pixAt_setPixCi {im : Paletted} {w h : Nat} (hc : im.IsCanvas w h) (x y : Int) (ci : Nat)
    (hok : (setPixIfLower im x y ci).2 = true)
    {px py : Int} (hin : (Point.mk px py).In im.Rect = true) :
    (setPixCi im x y ci).pixAt px py =
      if px = x ∧ py = y then ci
      else if isOrthogonal x y px py then
        (if ci < 0x80 then min (im.pixAt px py) (2 * ci) else im.pixAt px py)
      else if isDiagonal x y px py then
        (if ci < 0x80 ∧ 2 * ci < 0x80 then min (im.pixAt px py) (4 * ci) else im.pixAt px py)
      else im.pixAt px py := by
  have hlt : ci < im.pixAt x y := ((setPixIfLower_snd im x y ci).1 hok).2
  by_cases hcen : px = x ∧ py = y
  · obtain ⟨rfl, rfl⟩ := hcen
    have hmin : min (im.pixAt px py) ci = ci := Nat.min_eq_right (le_of_lt hlt)
    by_cases h80 : ci < 0x80
    · by_cases h40 : 2 * ci < 0x80
      · rw [setPixCi_ring2 im px py ci hok h80 h40, pixAt_ring2 hc px py ci hin]
        simp [hmin]
      · rw [setPixCi_ring1 im px py ci hok h80 h40, pixAt_ring1 hc px py ci hin]
        simp [hmin]
    · rw [setPixCi_centre im px py ci hok h80, pixAt_setPixIfLower_int hc hin]
      simp [hmin]
  · rw [if_neg hcen]
    by_cases h80 : ci < 0x80
    · by_cases h40 : 2 * ci < 0x80
      · rw [setPixCi_ring2 im x y ci hok h80 h40, pixAt_ring2 hc x y ci hin, if_neg hcen]
        simp only [h80, h40, and_self, if_true]
      · rw [setPixCi_ring1 im x y ci hok h80 h40, pixAt_ring1 hc x y ci hin, if_neg hcen]
        simp only [h80, h40, and_false, if_true, if_false]
        split_ifs <;> rfl
    · rw [setPixCi_centre im x y ci hok h80, pixAt_setPixIfLower_int hc hin]
      have hne : ¬ (x = px ∧ y = py) := fun hh => hcen ⟨hh.1.symm, hh.2.symm⟩
      rw [if_neg hne]
      simp only [h80, false_and, if_false]
      split_ifs <;> rfl

/-- C2: the draw callback. `setPixIfLower(x, y, ci)` fails exactly when the position is
outside the canvas or the stored value is at most `ci`, and then the canvas is unchanged.
Otherwise pixel `(x, y)` becomes `ci`; each orthogonal neighbour inside the canvas becomes
`min(old, 2*ci)` when `ci < 0x80`; each diagonal neighbour inside the canvas becomes
`min(old, 4*ci)` when moreover `2*ci < 0x80`; every other pixel keeps its value; and the
`uint8` doublings do not wrap. -/
theorem setPix_glow (im : Paletted) (width height : Nat) (hc : im.IsCanvas width height)
    (x y : Int) (ci : Nat) (hci : ci ≤ 0xff) :
    ((setPixIfLower im x y ci).2 = false ↔
      ((Point.mk x y).In im.Rect = false ∨ im.pixAt x y ≤ ci)) ∧
    ((setPixIfLower im x y ci).2 = false → setPixCi im x y ci = im) ∧
    ((setPixIfLower im x y ci).2 = true →
      (setPixCi im x y ci).pixAt x y = ci ∧
      (∀ px py : Int, (Point.mk px py).In im.Rect = true → isOrthogonal x y px py →
        (setPixCi im x y ci).pixAt px py =
          if ci < 0x80 then min (im.pixAt px py) (2 * ci) else im.pixAt px py) ∧
      (∀ px py : Int, (Point.mk px py).In im.Rect = true → isDiagonal x y px py →
        (setPixCi im x y ci).pixAt px py =
          if ci < 0x80 ∧ 2 * ci < 0x80 then min (im.pixAt px py) (4 * ci) else im.pixAt px py) ∧
      (∀ px py : Int, (Point.mk px py).In im.Rect = true → ¬ (px = x ∧ py = y) →
        ¬ isOrthogonal x y px py → ¬ isDiagonal x y px py →
        (setPixCi im x y ci).pixAt px py = im.pixAt px py)) ∧
    (ci < 0x80 → (ci * 2) % 256 = 2 * ci ∧ 2 * ci ≤ 0xff) ∧
    (ci < 0x80 → 2 * ci < 0x80 → ((ci * 2) % 256 * 2) % 256 = 4 * ci ∧ 4 * ci ≤ 0xff) := by
  have key := fun (px py : Int) (hin : (Point.mk px py).In im.Rect = true)
      (hok : (setPixIfLower im x y ci).2 = true) => pixAt_setPixCi hc x y ci hok hin
  refine ⟨?_, ?_, ?_, ?_, ?_⟩
  · have hsnd := setPixIfLower_snd im x y ci
    constructor
    · intro hf
      by_cases hin : (Point.mk x y).In im.Rect = true
      · right
        by_contra hgt
        have := hsnd.2 ⟨hin, not_le.1 hgt⟩
        rw [hf] at this
        exact absurd this (by simp)
      · left; simpa using hin
    · intro hor
      by_contra hne
      have ht : (setPixIfLower im x y ci).2 = true := by simpa using hne
      obtain ⟨hin, hlt⟩ := hsnd.1 ht
      rcases hor with ho | ho
      · rw [hin] at ho; exact absurd ho (by simp)
      · exact absurd hlt (not_lt.2 ho)
  · intro hf
    have hfst : (setPixIfLower im x y ci).1 = im := setPixIfLower_fail im x y ci hf
    unfold setPixCi
    simp [hf, hfst]
  · intro hok
    have hinc : (Point.mk x y).In im.Rect = true := ((setPixIfLower_snd im x y ci).1 hok).1
    refine ⟨?_, ?_, ?_, ?_⟩
    · rw [key x y hinc hok]; simp
    · intro px py hin ho
      rw [key px py hin hok]
      have hne : ¬ (px = x ∧ py = y) := by unfold isOrthogonal at ho; omega
      simp [hne, ho]
    · intro px py hin hd
      rw [key px py hin hok]
      have hne : ¬ (px = x ∧ py = y) := by unfold isDiagonal at hd; omega
      have hno : ¬ isOrthogonal x y px py := by unfold isOrthogonal; unfold isDiagonal at hd; omega
      simp [hne, hno, hd]
    · intro px py hin hne hno hnd
      rw [key px py hin hok]
      simp [hne, hno, hnd]
  · intro h; omega
  · intro h1 h2; omega

/-- Witness for C2 on a blank 3×3 canvas: drawing index 10 at the centre. -/
theorem setPix_glow_witness :
    (newCanvas 3 3 []).IsCanvas 3 3 ∧ (10 : Nat) ≤ 0xff ∧
      (setPixIfLower (newCanvas 3 3 []) 1 1 10).2 = true ∧
      (setPixCi (newCanvas 3 3 []) 1 1 10).pixAt 1 1 = 10 :=
  ⟨newCanvas_isCanvas 3 3 [], by decide, by decide,
    ((setPix_glow (newCanvas 3 3 []) 3 3 (newCanvas_isCanvas 3 3 []) 1 1 10 (by decide)).2.2.1
      (by decide)).1⟩

/-- Witness for C1: three calls on a blank 2×2 canvas, two of them on pixel `(1, 0)`. -/
theorem setPixIfLower_final_min_witness :
    (applyCalls (newCanvas 2 2 []) [⟨1, 0, 7⟩, ⟨1, 0, 3⟩, ⟨5, 5, 1⟩]).pixAt 1 0 = 3 :=
  (setPixIfLower_final_min 2 2 [] [⟨1, 0, 7⟩, ⟨1, 0, 3⟩, ⟨5, 5, 1⟩] 1 0 0).1 (by decide)

/-! ## `float64`: rounding -/

theorem roundHalfEven_intCast (n : Int) : roundHalfEven (n : ℚ) = n := by
  unfold roundHalfEven
  simp

theorem roundHalfEven_mono {x y : ℚ} (h : x ≤ y) : roundHalfEven x ≤ roundHalfEven y := by
  have hfl : ⌊x⌋ ≤ ⌊y⌋ := Int.floor_mono h
  unfold roundHalfEven
  dsimp only
  rcases lt_or_eq_of_le hfl with hlt | heq
  · have h1 : (if x - (⌊x⌋ : ℚ) < 1 / 2 then ⌊x⌋ else if 1 / 2 < x - (⌊x⌋ : ℚ) then ⌊x⌋ + 1
        else if ⌊x⌋ % 2 = 0 then ⌊x⌋ else ⌊x⌋ + 1) ≤ ⌊x⌋ + 1 := by
      split_ifs <;> omega
    have h2 : ⌊y⌋ ≤ (if y - (⌊y⌋ : ℚ) < 1 / 2 then ⌊y⌋ else if 1 / 2 < y - (⌊y⌋ : ℚ) then ⌊y⌋ + 1
        else if ⌊y⌋ % 2 = 0 then ⌊y⌋ else ⌊y⌋ + 1) := by
      split_ifs <;> omega
    omega
  · rw [heq]
    have hxy : x - (⌊y⌋ : ℚ) ≤ y - (⌊y⌋ : ℚ) := by linarith
    split_ifs <;> first | omega | (exfalso; linarith)

theorem ulp_pos (q : ℚ) : 0 < ulp q := by
  unfold ulp
  exact zpow_pos (by norm_num) _

theorem roundQ_of_pos {q : ℚ} (h : 0 < q) :
    roundQ q = (roundHalfEven (q / ulp q) : ℚ) * ulp q := by
  unfold roundQ
  rw [if_pos h]

theorem roundQ_zero : roundQ 0 = 0 := by
  unfold roundQ
  simp

theorem roundQ_neg (q : ℚ) : roundQ (-q) = -roundQ q := by
  rcases lt_trichotomy q 0 with h | h | h
  · have h1 : 0 < -q := by linarith
    have h2 : ¬ 0 < q := by linarith
    unfold roundQ
    rw [if_pos h1, if_neg h2, if_pos h, neg_neg]
  · subst h
    simp [roundQ_zero]
  · have h1 : ¬ 0 < -q := by linarith
    have h2 : -q < 0 := by linarith
    unfold roundQ
    rw [if_neg h1, if_pos h2, if_pos h, neg_neg]

theorem roundQ_nonneg {q : ℚ} (h : 0 ≤ q) : 0 ≤ roundQ q := by
  rcases eq_or_lt_of_le h with h0 | hpos
  · rw [← h0, roundQ_zero]
  · rw [roundQ_of_pos hpos]
    have hu := ulp_pos q
    have hr : roundHalfEven ((0 : Int) : ℚ) ≤ roundHalfEven (q / ulp q) :=
      roundHalfEven_mono (by
        have : 0 ≤ q / ulp q := div_nonneg h (le_of_lt hu)
        simpa using this)
    rw [roundHalfEven_intCast] at hr
    have hr2 : (0 : ℚ) ≤ (roundHalfEven (q / ulp q) : ℚ) := by exact_mod_cast hr
    exact mul_nonneg hr2 (le_of_lt hu)

/-- A positive number rounds to at most the power of two that ends its binade. -/
theorem roundQ_le_zpow {q : ℚ} (h : 0 < q) :
    roundQ q ≤ (2 : ℚ) ^ (max (Int.log 2 q) (-1022) + 1) := by
  have hu := ulp_pos q
  have hlt : q < (2 : ℚ) ^ (Int.log 2 q + 1) := by
    have := Int.lt_zpow_succ_log_self (by norm_num : 1 < 2) q
    simpa using this
  have hle : (2 : ℚ) ^ (Int.log 2 q + 1) ≤ (2 : ℚ) ^ (max (Int.log 2 q) (-1022) + 1) :=
    zpow_le_zpow_right₀ (by norm_num) (by omega)
  have hsplit : (2 : ℚ) ^ (max (Int.log 2 q) (-1022) + 1) = ((2 ^ 53 : Int) : ℚ) * ulp q := by
    unfold ulp
    have : max (Int.log 2 q) (-1022) + 1 = 53 + (max (Int.log 2 q) (-1022) - 52) := by ring
    rw [this, zpow_add₀ (by norm_num)]
    norm_num
  have hq : q / ulp q ≤ ((2 ^ 53 : Int) : ℚ) := by
    rw [div_le_iff₀ hu, ← hsplit]
    exact le_of_lt (lt_of_lt_of_le hlt hle)
  have hr := roundHalfEven_mono hq
  rw [roundHalfEven_intCast] at hr
  have hr2 : (roundHalfEven (q / ulp q) : ℚ) ≤ ((2 ^ 53 : Int) : ℚ) := by exact_mod_cast hr
  rw [roundQ_of_pos h, hsplit]
  exact mul_le_mul_of_nonneg_right hr2 (le_of_lt hu)

/-- A positive number of the normal range rounds to at least the power of two that starts
its binade. -/
theorem zpow_le_roundQ {q : ℚ} (h : 0 < q) (hn : -1022 ≤ Int.log 2 q) :
    (2 : ℚ) ^ Int.log 2 q ≤ roundQ q := by
  have hu := ulp_pos q
  have hge : (2 : ℚ) ^ Int.log 2 q ≤ q := by
    have := Int.zpow_log_le_self (by norm_num : 1 < 2) h
    simpa using this
  have hmax : max (Int.log 2 q) (-1022) = Int.log 2 q := max_eq_left hn
  have hsplit : (2 : ℚ) ^ Int.log 2 q = ((2 ^ 52 : Int) : ℚ) * ulp q := by
    unfold ulp
    rw [hmax]
    have : Int.log 2 q = 52 + (Int.log 2 q - 52) := by ring
    nth_rewrite 1 [this]
    rw [zpow_add₀ (by norm_num)]
    norm_num
  have hq : ((2 ^ 52 : Int) : ℚ) ≤ q / ulp q := by
    rw [le_div_iff₀ hu, ← hsplit]
    exact hge
  have hr := roundHalfEven_mono hq
  rw [roundHalfEven_intCast] at hr
  have hr2 : ((2 ^ 52 : Int) : ℚ) ≤ (roundHalfEven (q / ulp q) : ℚ) := by exact_mod_cast hr
  rw [roundQ_of_pos h, hsplit]
  exact mul_le_mul_of_nonneg_right hr2 (le_of_lt hu)

theorem roundQ_mono_pos {a b : ℚ} (ha : 0 < a) (hab : a ≤ b) : roundQ a ≤ roundQ b := by
  have hb : 0 < b := lt_of_lt_of_le ha hab
  have hlog : Int.log 2 a ≤ Int.log 2 b := Int.log_mono_right ha hab
  rcases eq_or_lt_of_le (max_le_max hlog (le_refl (-1022 : Int))) with heq | hlt
  · have hulp : ulp a = ulp b := by
      unfold ulp
      rw [heq]
    rw [roundQ_of_pos ha, roundQ_of_pos hb, hulp]
    have hu := ulp_pos b
    have hq : a / ulp b ≤ b / ulp b := div_le_div_of_nonneg_right hab (le_of_lt hu)
    have hr := roundHalfEven_mono hq
    have hr2 : (roundHalfEven (a / ulp b) : ℚ) ≤ (roundHalfEven (b / ulp b) : ℚ) := by
      exact_mod_cast hr
    exact mul_le_mul_of_nonneg_right hr2 (le_of_lt hu)
  · have hn : -1022 ≤ Int.log 2 b := by
      by_contra hcon
      have h1 : max (Int.log 2 b) (-1022) = -1022 := max_eq_right (by omega)
      have h2 : -1022 ≤ max (Int.log 2 a) (-1022) := le_max_right _ _
      omega
    have hmaxb : max (Int.log 2 b) (-1022) = Int.log 2 b := max_eq_left hn
    rw [hmaxb] at hlt
    calc roundQ a ≤ (2 : ℚ) ^ (max (Int.log 2 a) (-1022) + 1) := roundQ_le_zpow ha
      _ ≤ (2 : ℚ) ^ Int.log 2 b := zpow_le_zpow_right₀ (by norm_num) (by omega)
      _ ≤ roundQ b := zpow_le_roundQ hb hn

/-- Rounding is monotone. -/
theorem roundQ_mono {a b : ℚ} (hab : a ≤ b) : roundQ a ≤ roundQ b := by
  rcases lt_or_le 0 a with ha | ha
  · exact roundQ_mono_pos ha hab
  · rcases le_or_lt 0 b with hb | hb
    · have h1 : roundQ a ≤ 0 := by
        have := roundQ_nonneg (by linarith : (0 : ℚ) ≤ -a)
        rw [roundQ_neg] at this
        linarith
      exact le_trans h1 (roundQ_nonneg hb)
    · have h1 : roundQ (-b) ≤ roundQ (-a) :=
        roundQ_mono_pos (by linarith) (by linarith)
      rw [roundQ_neg, roundQ_neg] at h1
      linarith

/-- A number `n * 2 ^ k` with `|n| < 2 ^ 53` and `k ≥ -1074` is a `float64`: rounding leaves
it alone. -/
theorem roundQ_dyadic (n : Int) (k : Int) (hn : |n| < 2 ^ 53) (hk : -1074 ≤ k) :
    roundQ ((n : ℚ) * (2 : ℚ) ^ k) = (n : ℚ) * (2 : ℚ) ^ k := by
  have key : ∀ m : Int, 0 < m → m < 2 ^ 53 →
      roundQ ((m : ℚ) * (2 : ℚ) ^ k) = (m : ℚ) * (2 : ℚ) ^ k := by
    intro m hm0 hm
    have hk2 : (0 : ℚ) < (2 : ℚ) ^ k := zpow_pos (by norm_num) _
    have hmq : (0 : ℚ) < (m : ℚ) := by exact_mod_cast hm0
    have hq : 0 < (m : ℚ) * (2 : ℚ) ^ k := mul_pos hmq hk2
    have hu := ulp_pos ((m : ℚ) * (2 : ℚ) ^ k)
    -- the exponent of the spacing is at most `k`
    have hlog : Int.log 2 ((m : ℚ) * (2 : ℚ) ^ k) < 53 + k := by
      have hlt : (m : ℚ) * (2 : ℚ) ^ k < (2 : ℚ) ^ (53 + k) := by
        rw [zpow_add₀ (by norm_num)]
        have : (m : ℚ) < (2 : ℚ) ^ (53 : Int) := by
          have h53 : ((2 ^ 53 : Int) : ℚ) = (2 : ℚ) ^ (53 : Int) := by norm_num
          rw [← h53]
          exact_mod_cast hm
        exact mul_lt_mul_of_pos_right this hk2
      have := (Int.lt_zpow_iff_log_lt (by norm_num : 1 < 2) hq).1 (by simpa using hlt)
      exact this
    have hexp : 0 ≤ k - (max (Int.log 2 ((m : ℚ) * (2 : ℚ) ^ k)) (-1022) - 52) := by
      rcases le_total (Int.log 2 ((m : ℚ) * (2 : ℚ) ^ k)) (-1022) with h | h
      · rw [max_eq_right h]; omega
      · rw [max_eq_left h]; omega
    obtain ⟨j, hj⟩ := Int.eq_ofNat_of_zero_le hexp
    have hdiv : (m : ℚ) * (2 : ℚ) ^ k / ulp ((m : ℚ) * (2 : ℚ) ^ k) = ((m * 2 ^ j : Int) : ℚ) := by
      rw [div_eq_iff (ne_of_gt hu)]
      unfold ulp
      have hk3 : k = (j : Int) + (max (Int.log 2 ((m : ℚ) * (2 : ℚ) ^ k)) (-1022) - 52) := by
        omega
      nth_rewrite 1 [hk3]
      rw [zpow_add₀ (by norm_num), zpow_natCast]
      push_cast
      ring
    rw [roundQ_of_pos hq, hdiv, roundHalfEven_intCast, ← hdiv]
    exact div_mul_cancel₀ _ (ne_of_gt hu)
  rcases lt_trichotomy n 0 with h | h | h
  · have hm : -n < 2 ^ 53 := by
      have := abs_lt.1 hn
      omega
    have := key (-n) (by omega) hm
    have hneg : ((n : ℚ) * (2 : ℚ) ^ k) = -(((-n : Int) : ℚ) * (2 : ℚ) ^ k) := by
      push_cast
      ring
    rw [hneg, roundQ_neg, this]
  · subst h
    simp [roundQ_zero]
  · exact key n h (abs_lt.1 hn).2

theorem roundQ_intCast (n : Int) (hn : |n| < 2 ^ 53) : roundQ (n : ℚ) = (n : ℚ) := by
  have := roundQ_dyadic n 0 hn (by norm_num)
  simpa using this

theorem roundQ_two_pow (k : Nat) : roundQ ((2 : ℚ) ^ k) = (2 : ℚ) ^ k := by
  have := roundQ_dyadic 1 (k : Int) (by norm_num) (by omega)
  simpa using this

theorem roundHalfEven_error (y : ℚ) : |(roundHalfEven y : ℚ) - y| ≤ 1 / 2 := by
  have h1 : (⌊y⌋ : ℚ) ≤ y := Int.floor_le y
  have h2 : y < (⌊y⌋ : ℚ) + 1 := Int.lt_floor_add_one y
  unfold roundHalfEven
  dsimp only
  rw [abs_le]
  split_ifs with ha hb hc
  · constructor <;> linarith
  · push_cast
    constructor <;> linarith
  · constructor <;> linarith
  · push_cast
    constructor <;> linarith

/-- Rounding moves a positive number by at most half the spacing around it. -/
theorem roundQ_error {q : ℚ} (h : 0 < q) : |roundQ q - q| ≤ ulp q / 2 := by
  have hu := ulp_pos q
  have he := roundHalfEven_error (q / ulp q)
  have hq : roundQ q - q = ((roundHalfEven (q / ulp q) : ℚ) - q / ulp q) * ulp q := by
    rw [roundQ_of_pos h, sub_mul, div_mul_cancel₀ _ (ne_of_gt hu)]
  rw [hq, abs_mul, abs_of_pos hu]
  calc |(roundHalfEven (q / ulp q) : ℚ) - q / ulp q| * ulp q ≤ 1 / 2 * ulp q :=
        mul_le_mul_of_nonneg_right he (le_of_lt hu)
    _ = ulp q / 2 := by ring

/-- On `[0, 255]` the `float64` values are at most `2 ^ (-45)` apart, so rounding moves a
number by at most `2 ^ (-46)`. -/
theorem roundQ_error_255 {x : ℚ} (h0 : 0 ≤ x) (h1 : x ≤ 255) :
    |roundQ x - x| ≤ 1 / 2 ^ 46 := by
  rcases eq_or_lt_of_le h0 with hz | hpos
  · rw [← hz, roundQ_zero]
    norm_num
  · have hlog : Int.log 2 x < 8 := by
      have hlt : x < ((2 : Nat) : ℚ) ^ (8 : Int) := by
        norm_num
        linarith
      exact (Int.lt_zpow_iff_log_lt (by norm_num : 1 < 2) hpos).1 hlt
    have hulp : ulp x ≤ (2 : ℚ) ^ (-45 : Int) := by
      unfold ulp
      exact zpow_le_zpow_right₀ (by norm_num) (by
        have : max (Int.log 2 x) (-1022) ≤ 7 := max_le (by omega) (by norm_num)
        omega)
    have he := roundQ_error hpos
    calc |roundQ x - x| ≤ ulp x / 2 := he
      _ ≤ (2 : ℚ) ^ (-45 : Int) / 2 := div_le_div_of_nonneg_right hulp (by norm_num)
      _ = 1 / 2 ^ 46 := by norm_num

/-! ## `float64`: operations -/

theorem truncate_of_nonneg {q : ℚ} (h : 0 ≤ q) : truncate q = ⌊q⌋ := by
  unfold truncate
  rw [if_pos h]
  rfl

theorem roundF64_fin {q : ℚ} (h1 : -(2 : ℚ) ^ 1024 < roundQ q) (h2 : roundQ q < (2 : ℚ) ^ 1024) :
    roundF64 q = .fin (roundQ q) := by
  unfold roundF64
  dsimp only
  rw [if_neg (not_le.2 h2), if_neg (not_le.2 h1)]

/-- Rounding to `float64` is monotone, infinities included. -/
theorem roundF64_le {a b : ℚ} (h : a ≤ b) : F64.le (roundF64 a) (roundF64 b) = true := by
  have hm := roundQ_mono h
  have hpow : (0 : ℚ) < (2 : ℚ) ^ 1024 := by positivity
  unfold roundF64
  dsimp only
  split_ifs <;> simp [F64.le] <;> linarith

theorem roundF64_zero : roundF64 0 = .fin 0 := by
  have h : roundF64 0 = .fin (roundQ 0) :=
    roundF64_fin (by rw [roundQ_zero]; norm_num) (by rw [roundQ_zero]; norm_num)
  rw [h, roundQ_zero]

/-- The conversion of an `int64` is finite. -/
theorem ofInt_fin (d : Int) (h1 : -(2 ^ 63) ≤ d) (h2 : d ≤ 2 ^ 63) :
    F64.ofInt d = .fin (roundQ (d : ℚ)) := by
  have hp : roundQ ((2 : ℚ) ^ 63) = (2 : ℚ) ^ 63 := roundQ_two_pow 63
  have hu : roundQ (d : ℚ) ≤ (2 : ℚ) ^ 63 := by
    have hd : (d : ℚ) ≤ (2 : ℚ) ^ 63 := by exact_mod_cast h2
    have := roundQ_mono hd
    rwa [hp] at this
  have hl : -(2 : ℚ) ^ 63 ≤ roundQ (d : ℚ) := by
    have hd : -((2 : ℚ) ^ 63) ≤ (d : ℚ) := by exact_mod_cast h1
    have := roundQ_mono hd
    rwa [roundQ_neg, hp] at this
  unfold F64.ofInt
  exact roundF64_fin (by linarith [show (2 : ℚ) ^ 63 < (2 : ℚ) ^ 1024 by norm_num])
    (by linarith [show (2 : ℚ) ^ 63 < (2 : ℚ) ^ 1024 by norm_num])

/-- An integer below `2 ^ 53` in magnitude is converted exactly. -/
theorem ofInt_exact (n : Int) (hn : |n| < 2 ^ 53) : F64.ofInt n = .fin (n : ℚ) := by
  have h := abs_lt.1 hn
  rw [ofInt_fin n (by omega) (by omega), roundQ_intCast n hn]

/-- The conversion of a positive integer is a number from 1 on or the positive infinity. -/
theorem ofInt_pos (m : Int) (hm : 0 < m) :
    F64.ofInt m = .inf false ∨ ∃ v : ℚ, 1 ≤ v ∧ F64.ofInt m = .fin v := by
  have h1 : (1 : ℚ) ≤ roundQ (m : ℚ) := by
    have hle : ((1 : Int) : ℚ) ≤ (m : ℚ) := by exact_mod_cast hm
    have := roundQ_mono hle
    rwa [roundQ_intCast 1 (by norm_num), Int.cast_one] at this
  unfold F64.ofInt roundF64
  dsimp only
  split_ifs with ha hb
  · exact Or.inl rfl
  · exfalso
    have : (0 : ℚ) < (2 : ℚ) ^ 1024 := by positivity
    linarith
  · exact Or.inr ⟨_, h1, rfl⟩

/-- Division by the conversion of a positive integer is monotone on finite numerators. -/
theorem div_ofInt_le {a b : ℚ} (hab : a ≤ b) (m : Int) (hm : 0 < m) :
    F64.le (F64.div (.fin a) (F64.ofInt m)) (F64.div (.fin b) (F64.ofInt m)) = true := by
  rcases ofInt_pos m hm with h | ⟨v, hv, h⟩
  · rw [h]
    simp [F64.div, F64.le]
  · rw [h]
    have hv0 : (0 : ℚ) < v := by linarith
    have hne : v ≠ 0 := ne_of_gt hv0
    simp only [F64.div, hne, if_false]
    exact roundF64_le (div_le_div_of_nonneg_right hab (le_of_lt hv0))

/-- Zero divided by the conversion of a positive integer is zero. -/
theorem div_ofInt_zero (m : Int) (hm : 0 < m) : F64.div (.fin 0) (F64.ofInt m) = .fin 0 := by
  rcases ofInt_pos m hm with h | ⟨v, hv, h⟩
  · rw [h]
    rfl
  · rw [h]
    have hne : v ≠ 0 := by linarith
    simp only [F64.div, hne, if_false, zero_div]
    exact roundF64_zero

theorem le_fin_iff (a b : ℚ) : F64.le (.fin a) (.fin b) = true ↔ a ≤ b := by
  simp [F64.le]

/-- The quotient of the conversions of an `int64` and of a positive integer is finite. -/
theorem div_ofInt_fin (d m : Int) (h1 : -(2 ^ 63) ≤ d) (h2 : d ≤ 2 ^ 63) (hm : 0 < m) :
    ∃ v : ℚ, F64.div (F64.ofInt d) (F64.ofInt m) = .fin v := by
  have hp : roundQ ((2 : ℚ) ^ 63) = (2 : ℚ) ^ 63 := roundQ_two_pow 63
  have hu : roundQ (d : ℚ) ≤ (2 : ℚ) ^ 63 := by
    have hd : (d : ℚ) ≤ (2 : ℚ) ^ 63 := by exact_mod_cast h2
    have := roundQ_mono hd
    rwa [hp] at this
  have hl : -(2 : ℚ) ^ 63 ≤ roundQ (d : ℚ) := by
    have hd : -((2 : ℚ) ^ 63) ≤ (d : ℚ) := by exact_mod_cast h1
    have := roundQ_mono hd
    rwa [roundQ_neg, hp] at this
  rw [ofInt_fin d h1 h2]
  rcases ofInt_pos m hm with h | ⟨v, hv, h⟩
  · rw [h]
    exact ⟨0, rfl⟩
  · rw [h]
    have hv0 : (0 : ℚ) < v := by linarith
    have hne : v ≠ 0 := ne_of_gt hv0
    simp only [F64.div, hne, if_false]
    have hq1 : roundQ (d : ℚ) / v ≤ (2 : ℚ) ^ 63 := by
      rw [div_le_iff₀ hv0]
      nlinarith
    have hq2 : -((2 : ℚ) ^ 63) ≤ roundQ (d : ℚ) / v := by
      rw [le_div_iff₀ hv0]
      nlinarith
    have hr1 := roundQ_mono hq1
    have hr2 := roundQ_mono hq2
    rw [hp] at hr1
    rw [roundQ_neg, hp] at hr2
    exact ⟨_, roundF64_fin (by linarith [show (2 : ℚ) ^ 63 < (2 : ℚ) ^ 1024 by norm_num])
      (by linarith [show (2 : ℚ) ^ 63 < (2 : ℚ) ^ 1024 by norm_num])⟩

/-- Below `2 ^ 53` both conversions are exact, and the quotient is the `float64` nearest to
the exact quotient. -/
theorem div_ofInt_exact (d m : Int) (hd : |d| < 2 ^ 53) (hm0 : 0 < m) (hm : m < 2 ^ 53) :
    F64.div (F64.ofInt d) (F64.ofInt m) = roundF64 ((d : ℚ) / (m : ℚ)) := by
  rw [ofInt_exact d hd, ofInt_exact m (by rw [abs_lt]; constructor <;> omega)]
  have hne : (m : ℚ) ≠ 0 := by
    have : (0 : ℚ) < (m : ℚ) := by exact_mod_cast hm0
    exact ne_of_gt this
  simp only [F64.div, hne, if_false]

/-- The product `pp * 0xff` for a finite `pp` in `[0, 1]`: a finite value in `[0, 255]`. -/
theorem mul_255_fin {q : ℚ} (h0 : 0 ≤ q) (h1 : q ≤ 1) :
    F64.mul (.fin q) (.fin 0xff) = .fin (roundQ (q * 255)) ∧
      0 ≤ roundQ (q * 255) ∧ roundQ (q * 255) ≤ 255 := by
  have hn : 0 ≤ roundQ (q * 255) := roundQ_nonneg (by positivity)
  have h255 : roundQ (255 : ℚ) = 255 := by
    have := roundQ_intCast 255 (by norm_num)
    simpa using this
  have hle : roundQ (q * 255) ≤ 255 := by
    have := roundQ_mono (show q * 255 ≤ 255 by linarith)
    rwa [h255] at this
  refine ⟨?_, hn, hle⟩
  show roundF64 (q * 255) = _
  exact roundF64_fin (by linarith [show (0 : ℚ) < (2 : ℚ) ^ 1024 by positivity])
    (by linarith [show (255 : ℚ) < (2 : ℚ) ^ 1024 by norm_num])

/-- `uint8(v)` for a finite `v` in `[0, 255]` is its floor. -/
theorem toUint8_fin (uint8Impl : F64 → Nat) {v : ℚ} (h0 : 0 ≤ v) (h1 : v ≤ 255) :
    F64.toUint8 uint8Impl (.fin v) = ⌊v⌋.toNat ∧ ⌊v⌋.toNat ≤ 0xff := by
  have hf0 : 0 ≤ ⌊v⌋ := Int.floor_nonneg.2 h0
  have hf1 : ⌊v⌋ ≤ 255 := by
    have : ⌊v⌋ ≤ ⌊(255 : ℚ)⌋ := Int.floor_mono h1
    simpa using this
  have ht := truncate_of_nonneg h0
  refine ⟨?_, by omega⟩
  show (if 0 ≤ truncate v ∧ truncate v ≤ 255 then (truncate v).toNat
    else uint8Impl (.fin v) % 256) = ⌊v⌋.toNat
  rw [ht, if_pos ⟨hf0, hf1⟩]

/-! ## The comet-trail window (`render`, main.go 425-476) -/

theorem mem_drawCalls (Bresenham : Int → Int → Int → Int → List (Int × Int)) (fp : F64)
    (recs : List record) : ∀ (rprev : Option record) (c : DrawCall),
      c ∈ drawCalls Bresenham fp rprev recs →
        c.r ∈ recs ∧ F64.lt (F64.sub fp c.r.p) (.fin 0) = false ∧
          F64.lt (.fin 1) (F64.sub fp c.r.p) = false := by
  induction recs with
  | nil => intro rprev c hc; simp [drawCalls] at hc
  | cons r rs ih =>
    intro rprev c hc
    unfold drawCalls at hc
    dsimp only at hc
    split_ifs at hc with h1 h2
    · simp at hc
    · obtain ⟨a, b, d⟩ := ih _ c hc
      exact ⟨List.mem_cons_of_mem _ a, b, d⟩
    · rw [List.mem_append] at hc
      rcases hc with hc | hc
      · have hr : c.r = r := by
          cases rprev with
          | none => simp at hc; rw [hc]
          | some q =>
            dsimp only at hc
            split_ifs at hc
            · simp at hc
              obtain ⟨a, b, _, rfl⟩ := hc
              rfl
            · simp at hc; rw [hc]
        have h2a : F64.lt (.fin 1) (F64.sub fp r.p) = false := by
          cases hlt : F64.lt (.fin 1) (F64.sub fp r.p) with
          | false => rfl
          | true => exact absurd (by simp [hlt]) h2
        rw [hr]
        exact ⟨List.mem_cons_self _ _, by simpa using h1, h2a⟩
      · obtain ⟨a, b, d⟩ := ih _ c hc
        exact ⟨List.mem_cons_of_mem _ a, b, d⟩

/-- A first record whose `pp` is neither below 0 nor above 1 is drawn at its own position. -/
theorem drawCalls_first (Bresenham : Int → Int → Int → Int → List (Int × Int)) (fp : F64)
    (r : record) (rs : List record) (h0 : F64.lt (F64.sub fp r.p) (.fin 0) = false)
    (h1 : F64.lt (.fin 1) (F64.sub fp r.p) = false) :
    drawCalls Bresenham fp none (r :: rs) =
      DrawCall.mk r r.x r.y :: drawCalls Bresenham fp (some r) rs := by
  rw [drawCalls]
  simp [h0, h1]

theorem setPixCi_of_fail (im : Paletted) (x y : Int) (ci : Nat)
    (hf : (setPixIfLower im x y ci).2 = false) : setPixCi im x y ci = im := by
  have hfst : (setPixIfLower im x y ci).1 = im := setPixIfLower_fail im x y ci hf
  unfold setPixCi
  simp [hf, hfst]

theorem setPixCi_isCanvas {im : Paletted} {w h : Nat} (hc : im.IsCanvas w h) (x y : Int)
    (ci : Nat) : (setPixCi im x y ci).IsCanvas w h := by
  by_cases hok : (setPixIfLower im x y ci).2 = true
  · by_cases h80 : ci < 0x80
    · by_cases h40 : 2 * ci < 0x80
      · rw [setPixCi_ring2 im x y ci hok h80 h40]
        exact setPixIfLower_isCanvas (setPixIfLower_isCanvas (setPixIfLower_isCanvas
          (setPixIfLower_isCanvas (setPixIfLower_isCanvas (setPixIfLower_isCanvas
            (setPixIfLower_isCanvas (setPixIfLower_isCanvas (setPixIfLower_isCanvas hc _ _ _)
              _ _ _) _ _ _) _ _ _) _ _ _) _ _ _) _ _ _) _ _ _) _ _ _
      · rw [setPixCi_ring1 im x y ci hok h80 h40]
        exact setPixIfLower_isCanvas (setPixIfLower_isCanvas (setPixIfLower_isCanvas
          (setPixIfLower_isCanvas (setPixIfLower_isCanvas hc _ _ _) _ _ _) _ _ _) _ _ _) _ _ _
    · rw [setPixCi_centre im x y ci hok h80]
      exact setPixIfLower_isCanvas hc _ _ _
  · rw [setPixCi_of_fail im x y ci (by simpa using hok)]
    exact hc

/-- The draw callback never raises the value of a pixel. -/
theorem pixAt_setPixCi_le {im : Paletted} {w h : Nat} (hc : im.IsCanvas w h) (x y : Int)
    (ci : Nat) {px py : Int} (hin : (Point.mk px py).In im.Rect = true) :
    (setPixCi im x y ci).pixAt px py ≤ im.pixAt px py := by
  by_cases hok : (setPixIfLower im x y ci).2 = true
  · rw [pixAt_setPixCi hc x y ci hok hin]
    have hlt := ((setPixIfLower_snd im x y ci).1 hok).2
    split_ifs with h1
    · obtain ⟨rfl, rfl⟩ := h1
      exact le_of_lt hlt
    all_goals first | exact le_refl _ | exact Nat.min_le_left _ _
  · rw [setPixCi_of_fail im x y ci (by simpa using hok)]

/-- At the position it is called for, inside the canvas, the draw callback leaves the
smaller of the old value and its colour index. -/
theorem pixAt_setPixCi_self {im : Paletted} {w h : Nat} (hc : im.IsCanvas w h) (x y : Int)
    (ci : Nat) (hin : (Point.mk x y).In im.Rect = true) :
    (setPixCi im x y ci).pixAt x y = min (im.pixAt x y) ci := by
  by_cases hok : (setPixIfLower im x y ci).2 = true
  · rw [pixAt_setPixCi hc x y ci hok hin, if_pos ⟨rfl, rfl⟩]
    have hlt := ((setPixIfLower_snd im x y ci).1 hok).2
    exact (Nat.min_eq_right (le_of_lt hlt)).symm
  · rw [setPixCi_of_fail im x y ci (by simpa using hok)]
    have hge : ¬ ci < im.pixAt x y := fun hlt => hok ((setPixIfLower_snd im x y ci).2 ⟨hin, hlt⟩)
    exact (Nat.min_eq_left (not_lt.1 hge)).symm

/-- The `setPix` invocations of a list of draw calls, on a canvas: the result is a canvas of
the same size, no pixel has been raised, and every position drawn inside the canvas holds at
most the colour index of its call. -/
theorem foldl_setPix (uint8Impl : F64 → Nat) (fp : F64) {w h : Nat} (calls : List DrawCall) :
    ∀ {im : Paletted}, im.IsCanvas w h →
      (calls.foldl (fun im c => setPix uint8Impl im (F64.sub fp c.r.p) c.x c.y) im).IsCanvas w h ∧
      (∀ px py : Int, (Point.mk px py).In im.Rect = true →
        (calls.foldl (fun im c => setPix uint8Impl im (F64.sub fp c.r.p) c.x c.y) im).pixAt px py
          ≤ im.pixAt px py) ∧
      (∀ c ∈ calls, (Point.mk c.x c.y).In im.Rect = true →
        (calls.foldl (fun im c => setPix uint8Impl im (F64.sub fp c.r.p) c.x c.y) im).pixAt
            c.x c.y ≤ F64.toUint8 uint8Impl (F64.mul (F64.sub fp c.r.p) (.fin 0xff))) := by
  induction calls with
  | nil =>
    intro im hc
    exact ⟨hc, fun _ _ _ => le_refl _, fun c hmem => absurd hmem (List.not_mem_nil _)⟩
  | cons d ds ih =>
    intro im hc
    have hc1 : (setPix uint8Impl im (F64.sub fp d.r.p) d.x d.y).IsCanvas w h :=
      setPixCi_isCanvas hc _ _ _
    have hrect : (setPix uint8Impl im (F64.sub fp d.r.p) d.x d.y).Rect = im.Rect := by
      rw [hc1.1, hc.1]
    obtain ⟨k1, k2, k3⟩ := ih hc1
    rw [hrect] at k2 k3
    refine ⟨k1, ?_, ?_⟩
    · intro px py hin
      exact le_trans (k2 px py hin) (pixAt_setPixCi_le hc _ _ _ hin)
    · intro c hmem hin
      rcases List.mem_cons.1 hmem with rfl | hmem
      · refine le_trans (k2 c.x c.y hin) ?_
        have := pixAt_setPixCi_self hc c.x c.y
          (F64.toUint8 uint8Impl (F64.mul (F64.sub fp c.r.p) (.fin 0xff))) hin
        unfold setPix
        rw [this]
        exact Nat.min_le_right _ _
      · exact k3 c hmem hin

/-- The activities of one frame, drawn in order on a canvas: the result is a canvas of the
same size, no pixel has been raised, and every position drawn inside the canvas holds at
most the colour index of its call. -/
theorem foldl_drawActivity (uint8Impl : F64 → Nat)
    (Bresenham : Int → Int → Int → Int → List (Int × Int)) (fp : F64) {w h : Nat}
    (acts : List activity) : ∀ {im : Paletted}, im.IsCanvas w h →
      (acts.foldl (drawActivity uint8Impl Bresenham fp) im).IsCanvas w h ∧
      (∀ px py : Int, (Point.mk px py).In im.Rect = true →
        (acts.foldl (drawActivity uint8Impl Bresenham fp) im).pixAt px py ≤ im.pixAt px py) ∧
      (∀ act ∈ acts, ∀ c ∈ drawCalls Bresenham fp none act.records,
        (Point.mk c.x c.y).In im.Rect = true →
        (acts.foldl (drawActivity uint8Impl Bresenham fp) im).pixAt c.x c.y ≤
          F64.toUint8 uint8Impl (F64.mul (F64.sub fp c.r.p) (.fin 0xff))) := by
  induction acts with
  | nil =>
    intro im hc
    exact ⟨hc, fun _ _ _ => le_refl _, fun a hmem => absurd hmem (List.not_mem_nil _)⟩
  | cons a as ih =>
    intro im hc
    obtain ⟨d1, d2, d3⟩ := foldl_setPix uint8Impl fp (drawCalls Bresenham fp none a.records) hc
    have hc1 : (drawActivity uint8Impl Bresenham fp im a).IsCanvas w h := d1
    have hrect : (drawActivity uint8Impl Bresenham fp im a).Rect = im.Rect := by
      rw [hc1.1, hc.1]
    obtain ⟨k1, k2, k3⟩ := ih hc1
    rw [hrect] at k2 k3
    refine ⟨k1, ?_, ?_⟩
    · intro px py hin
      exact le_trans (k2 px py hin) (d2 px py hin)
    · intro act hmem c hcall hin
      rcases List.mem_cons.1 hmem with rfl | hmem
      · exact le_trans (k2 c.x c.y hin) (d3 c hcall hin)
      · exact k3 act hmem c hcall hin

/-! ## The delta optimizer -/

theorem mem_positions_canvas (w h : Nat) (p : Int × Int) :
    p ∈ positions ⟨⟨0, 0⟩, ⟨(w : Int), (h : Int)⟩⟩ ↔
      ∃ i j : Nat, i < w ∧ j < h ∧ p = ((i : Int), (j : Int)) := by
  unfold positions
  simp only [Rectangle.Dx, Rectangle.Dy, sub_zero, Int.toNat_natCast, zero_add]
  rw [List.mem_flatMap]
  constructor
  · rintro ⟨j, hj, hp⟩
    rw [List.mem_map] at hp
    obtain ⟨i, hi, rfl⟩ := hp
    exact ⟨i, j, List.mem_range.1 hi, List.mem_range.1 hj, rfl⟩
  · rintro ⟨i, j, hi, hj, rfl⟩
    exact ⟨j, List.mem_range.2 hj, List.mem_map.2 ⟨i, List.mem_range.2 hi, rfl⟩⟩

/-- The buffer after `markUnchanged`, read at the row-major index of a canvas position. -/
theorem getD_markUnchanged {cur : Paletted} {w h : Nat} (hc : cur.IsCanvas w h) (s : Nat)
    (prev : Paletted) {x y : Nat} (hx : x < w) (hy : y < h) (ps : List (Int × Int))
    (hps : ∀ p ∈ ps, ∃ i j : Nat, i < w ∧ j < h ∧ p = ((i : Int), (j : Int))) :
    ∀ pix : List Nat, pix.length = w * h →
      (markUnchanged s prev cur ps pix).length = w * h ∧
      (markUnchanged s prev cur ps pix).getD (y * w + x) 0 =
        if ((x : Int), (y : Int)) ∈ ps ∧ cur.pixAt x y = prev.pixAt x y then s
        else pix.getD (y * w + x) 0 := by
  induction ps with
  | nil => intro pix hl; simp [markUnchanged, hl]
  | cons p ps ih =>
    intro pix hl
    obtain ⟨i, j, hi, hj, rfl⟩ := hps p (List.mem_cons_self _ _)
    have hps' : ∀ p ∈ ps, ∃ i j : Nat, i < w ∧ j < h ∧ p = ((i : Int), (j : Int)) :=
      fun q hq => hps q (List.mem_cons_of_mem _ hq)
    unfold markUnchanged
    dsimp only
    by_cases heq : cur.pixAt i j = prev.pixAt i j
    · rw [if_pos heq, offset_toNat hc]
      obtain ⟨hlen, hval⟩ := ih hps' (pix.set (j * w + i) s) (by simp [hl])
      refine ⟨hlen, ?_⟩
      rw [hval]
      by_cases hsame : i = x ∧ j = y
      · obtain ⟨rfl, rfl⟩ := hsame
        have hlt : j * w + i < pix.length := by rw [hl]; exact index_lt hx hy
        simp [heq, List.getD_eq_getElem?_getD, List.getElem?_set_self hlt]
      · have hne : j * w + i ≠ y * w + x := by
          intro he
          obtain ⟨h1, h2⟩ := index_inj hi hx he
          exact hsame ⟨h1, h2⟩
        have hne2 : ¬ (((x : Int), (y : Int)) = ((i : Int), (j : Int))) := by
          intro he
          simp only [Prod.mk.injEq, Nat.cast_inj] at he
          exact hsame ⟨he.1.symm, he.2.symm⟩
        simp only [List.mem_cons, hne2, false_or]
        rw [List.getD_eq_getElem?_getD, List.getElem?_set_ne hne, ← List.getD_eq_getElem?_getD]
    · rw [if_neg heq]
      obtain ⟨hlen, hval⟩ := ih hps' pix hl
      refine ⟨hlen, ?_⟩
      rw [hval]
      by_cases hsame : i = x ∧ j = y
      · obtain ⟨rfl, rfl⟩ := hsame
        simp [heq]
      · have hne2 : ¬ (((x : Int), (y : Int)) = ((i : Int), (j : Int))) := by
          intro he
          simp only [Prod.mk.injEq, Nat.cast_inj] at he
          exact hsame ⟨he.1.symm, he.2.symm⟩
        simp only [List.mem_cons, hne2, false_or]

/-- Pixels of a frame after the first, once optimized. -/
theorem pixAt_optimizeFrame {cur : Paletted} {w h : Nat} (hc : cur.IsCanvas w h)
    (prev : Paletted) {x y : Int} (hin : (Point.mk x y).In cur.Rect = true) :
    (optimizeFrame prev cur).canvas.pixAt x y =
      if cur.pixAt x y = prev.pixAt x y then cur.Palette.length - 1 else cur.pixAt x y := by
  obtain ⟨⟨hx0, hx1⟩, ⟨hy0, hy1⟩⟩ := (In_canvas_iff hc x y).1 hin
  lift x to Nat using hx0
  lift y to Nat using hy0
  have hx : x < w := by exact_mod_cast hx1
  have hy : y < h := by exact_mod_cast hy1
  have hrect : cur.Rect = ⟨⟨0, 0⟩, ⟨(w : Int), (h : Int)⟩⟩ := hc.1
  have hps : ∀ p ∈ positions cur.Rect, ∃ i j : Nat, i < w ∧ j < h ∧ p = ((i : Int), (j : Int)) := by
    intro p hp
    rw [hrect] at hp
    exact (mem_positions_canvas w h p).1 hp
  have hmem : ((x : Int), (y : Int)) ∈ positions cur.Rect := by
    rw [hrect]
    exact (mem_positions_canvas w h _).2 ⟨x, y, hx, hy, rfl⟩
  obtain ⟨hlen, hval⟩ := getD_markUnchanged hc (cur.Palette.length - 1) prev hx hy
    (positions cur.Rect) hps cur.Pix hc.2.2
  have hcan : (optimizeFrame prev cur).canvas.IsCanvas w h := ⟨hc.1, hc.2.1, hlen⟩
  have e1 : (optimizeFrame prev cur).canvas.pixAt x y =
      (optimizeFrame prev cur).canvas.Pix.getD (y * w + x) 0 := by
    unfold Paletted.pixAt
    rw [offset_toNat hcan]
  have e2 : cur.pixAt x y = cur.Pix.getD (y * w + x) 0 := by
    unfold Paletted.pixAt
    rw [offset_toNat hc]
  rw [e1]
  show (markUnchanged _ prev cur (positions cur.Rect) cur.Pix).getD (y * w + x) 0 = _
  rw [hval]
  simp only [hmem, true_and]
  rw [← e2]

theorem length_optimizeRest : ∀ (rest : List Paletted) (prev : Paletted),
    (optimizeRest prev rest).length = rest.length := by
  intro rest
  induction rest with
  | nil => intro prev; rfl
  | cons cur rest ih => intro prev; simp [optimizeRest, ih]

theorem length_optimizeFrames (ims : List Paletted) :
    (optimizeFrames ims).length = ims.length := by
  cases ims with
  | nil => rfl
  | cons first rest => simp [optimizeFrames, length_optimizeRest]

/-- Frame `i + 1` of the result is frame `i + 1` of the input optimized against the original
frame `i` of the input. -/
theorem getElem?_optimizeRest : ∀ (rest : List Paletted) (prev : Paletted) (i : Nat)
    (p c : Paletted), (prev :: rest)[i]? = some p → rest[i]? = some c →
    (optimizeRest prev rest)[i]? = some (optimizeFrame p c) := by
  intro rest
  induction rest with
  | nil => intro prev i p c _ hc; simp at hc
  | cons cur rest ih =>
    intro prev i p c hp hc
    cases i with
    | zero =>
      simp only [List.getElem?_cons_zero, Option.some.injEq] at hp hc
      subst hp; subst hc
      simp [optimizeRest]
    | succ i =>
      simp only [List.getElem?_cons_succ] at hp hc
      simp only [optimizeRest, List.getElem?_cons_succ]
      exact ih cur i p c hp hc

theorem getElem?_optimizeFrames_succ (ims : List Paletted) (i : Nat) (p c : Paletted)
    (hp : ims[i]? = some p) (hc : ims[i + 1]? = some c) :
    (optimizeFrames ims)[i + 1]? = some (optimizeFrame p c) := by
  cases ims with
  | nil => simp at hp
  | cons first rest =>
    simp only [List.getElem?_cons_succ] at hc
    simp only [optimizeFrames, List.getElem?_cons_succ]
    exact getElem?_optimizeRest rest first i p c hp hc

/-- C4: for a non-empty sequence of equally sized frames, `optimizeFrames` keeps the
number of frames and the pixels of frame 0; in every later frame a canvas pixel becomes the
transparency sentinel (the last palette index) when the original frame holds there the same
value as the original previous frame, and keeps its original value otherwise. -/
theorem optimizeFrames_pixels (w h : Nat) (ims : List Paletted) (hne : ims ≠ [])
    (hsize : ∀ im ∈ ims, im.IsCanvas w h) :
    (optimizeFrames ims).length = ims.length ∧
    (∃ im0 f0, ims[0]? = some im0 ∧ (optimizeFrames ims)[0]? = some f0 ∧
      f0.canvas.Pix = im0.Pix) ∧
    (∀ (i : Nat) (prev cur : Paletted), ims[i]? = some prev → ims[i + 1]? = some cur →
      ∃ f, (optimizeFrames ims)[i + 1]? = some f ∧
        ∀ x y : Int, (Point.mk x y).In cur.Rect = true →
          f.canvas.pixAt x y =
            if cur.pixAt x y = prev.pixAt x y then cur.Palette.length - 1
            else cur.pixAt x y) := by
  refine ⟨length_optimizeFrames ims, ?_, ?_⟩
  · cases ims with
    | nil => exact absurd rfl hne
    | cons first rest =>
      exact ⟨first, ⟨first, first.Rect⟩, by simp, by simp [optimizeFrames], rfl⟩
  · intro i prev cur hp hc
    refine ⟨optimizeFrame prev cur, getElem?_optimizeFrames_succ ims i prev cur hp hc, ?_⟩
    intro x y hin
    have hcan : cur.IsCanvas w h := hsize cur (List.getElem?_mem hc)
    exact pixAt_optimizeFrame hcan prev hin

theorem foldl_min_le {α : Type} (f : α → Int) (ps : List α) :
    ∀ m : Int, ps.foldl (fun m q => min m (f q)) m ≤ m ∧
      ∀ q ∈ ps, ps.foldl (fun m q => min m (f q)) m ≤ f q := by
  induction ps with
  | nil => intro m; simp
  | cons p ps ih =>
    intro m
    obtain ⟨h1, h2⟩ := ih (min m (f p))
    refine ⟨le_trans h1 (min_le_left _ _), ?_⟩
    intro q hq
    rcases List.mem_cons.1 hq with rfl | hq
    · exact le_trans h1 (min_le_right _ _)
    · exact h2 q hq

theorem foldl_min_attained {α : Type} (f : α → Int) (ps : List α) :
    ∀ m : Int, ps.foldl (fun m q => min m (f q)) m = m ∨
      ∃ q ∈ ps, ps.foldl (fun m q => min m (f q)) m = f q := by
  induction ps with
  | nil => intro m; left; rfl
  | cons p ps ih =>
    intro m
    rcases ih (min m (f p)) with h | ⟨q, hq, h⟩
    · rcases min_choice m (f p) with hm | hm
      · left; simp only [List.foldl_cons]; rw [h, hm]
      · right; exact ⟨p, List.mem_cons_self _ _, by simp only [List.foldl_cons]; rw [h, hm]⟩
    · right; exact ⟨q, List.mem_cons_of_mem _ hq, h⟩

theorem le_foldl_max {α : Type} (f : α → Int) (ps : List α) :
    ∀ m : Int, m ≤ ps.foldl (fun m q => max m (f q)) m ∧
      ∀ q ∈ ps, f q ≤ ps.foldl (fun m q => max m (f q)) m := by
  induction ps with
  | nil => intro m; simp
  | cons p ps ih =>
    intro m
    obtain ⟨h1, h2⟩ := ih (max m (f p))
    refine ⟨le_trans (le_max_left _ _) h1, ?_⟩
    intro q hq
    rcases List.mem_cons.1 hq with rfl | hq
    · exact le_trans (le_max_right _ _) h1
    · exact h2 q hq

theorem foldl_max_attained {α : Type} (f : α → Int) (ps : List α) :
    ∀ m : Int, ps.foldl (fun m q => max m (f q)) m = m ∨
      ∃ q ∈ ps, ps.foldl (fun m q => max m (f q)) m = f q := by
  induction ps with
  | nil => intro m; left; rfl
  | cons p ps ih =>
    intro m
    rcases ih (max m (f p)) with h | ⟨q, hq, h⟩
    · rcases max_choice m (f p) with hm | hm
      · left; simp only [List.foldl_cons]; rw [h, hm]
      · right; exact ⟨p, List.mem_cons_self _ _, by simp only [List.foldl_cons]; rw [h, hm]⟩
    · right; exact ⟨q, List.mem_cons_of_mem _ hq, h⟩

/-- The bounding rectangle of a non-empty list of positions contains each of them and
touches one of them on each of its four sides. -/
theorem boundingRect_spec (origin : Point) (ps : List (Int × Int)) (hne : ps ≠ []) :
    (∀ q ∈ ps, (Point.mk q.1 q.2).In (boundingRect origin ps) = true) ∧
    (∃ q ∈ ps, q.1 = (boundingRect origin ps).Min.X) ∧
    (∃ q ∈ ps, q.2 = (boundingRect origin ps).Min.Y) ∧
    (∃ q ∈ ps, q.1 + 1 = (boundingRect origin ps).Max.X) ∧
    (∃ q ∈ ps, q.2 + 1 = (boundingRect origin ps).Max.Y) := by
  cases ps with
  | nil => exact absurd rfl hne
  | cons p ps =>
    have a1 := foldl_min_le (fun q : Int × Int => q.1) ps p.1
    have a2 := foldl_min_le (fun q : Int × Int => q.2) ps p.2
    have a3 := le_foldl_max (fun q : Int × Int => q.1) ps p.1
    have a4 := le_foldl_max (fun q : Int × Int => q.2) ps p.2
    have b1 := foldl_min_attained (fun q : Int × Int => q.1) ps p.1
    have b2 := foldl_min_attained (fun q : Int × Int => q.2) ps p.2
    have b3 := foldl_max_attained (fun q : Int × Int => q.1) ps p.1
    have b4 := foldl_max_attained (fun q : Int × Int => q.2) ps p.2
    refine ⟨?_, ?_, ?_, ?_, ?_⟩
    · intro q hq
      simp only [boundingRect, Point.In, Bool.and_eq_true, decide_eq_true_eq]
      rcases List.mem_cons.1 hq with rfl | hq
      · exact ⟨⟨⟨a1.1, Int.lt_add_one_iff.2 a3.1⟩, a2.1⟩, Int.lt_add_one_iff.2 a4.1⟩
      · exact ⟨⟨⟨a1.2 q hq, Int.lt_add_one_iff.2 (a3.2 q hq)⟩, a2.2 q hq⟩,
          Int.lt_add_one_iff.2 (a4.2 q hq)⟩
    · rcases b1 with h | ⟨q, hq, h⟩
      · exact ⟨p, List.mem_cons_self _ _, h.symm⟩
      · exact ⟨q, List.mem_cons_of_mem _ hq, h.symm⟩
    · rcases b2 with h | ⟨q, hq, h⟩
      · exact ⟨p, List.mem_cons_self _ _, h.symm⟩
      · exact ⟨q, List.mem_cons_of_mem _ hq, h.symm⟩
    · rcases b3 with h | ⟨q, hq, h⟩
      · exact ⟨p, List.mem_cons_self _ _, by simp only [boundingRect]; rw [h]⟩
      · exact ⟨q, List.mem_cons_of_mem _ hq, by simp only [boundingRect]; rw [h]⟩
    · rcases b4 with h | ⟨q, hq, h⟩
      · exact ⟨p, List.mem_cons_self _ _, by simp only [boundingRect]; rw [h]⟩
      · exact ⟨q, List.mem_cons_of_mem _ hq, by simp only [boundingRect]; rw [h]⟩

theorem mem_differing {cur : Paletted} {w h : Nat} (hc : cur.IsCanvas w h) (prev : Paletted)
    (x y : Int) :
    (x, y) ∈ differing prev cur ↔
      ((Point.mk x y).In cur.Rect = true ∧ cur.pixAt x y ≠ prev.pixAt x y) := by
  unfold differing
  rw [List.mem_filter, hc.1, mem_positions_canvas, ← hc.1, In_canvas_iff hc]
  simp only [decide_eq_true_eq]
  constructor
  · rintro ⟨⟨i, j, hi, hj, he⟩, hd⟩
    simp only [Prod.mk.injEq] at he
    obtain ⟨rfl, rfl⟩ := he
    exact ⟨⟨⟨by omega, by exact_mod_cast hi⟩, ⟨by omega, by exact_mod_cast hj⟩⟩, hd⟩
  · rintro ⟨⟨⟨hx0, hx1⟩, ⟨hy0, hy1⟩⟩, hd⟩
    lift x to Nat using hx0
    lift y to Nat using hy0
    exact ⟨⟨x, y, by exact_mod_cast hx1, by exact_mod_cast hy1, rfl⟩, hd⟩

/-- C5: frame 0 keeps the full canvas as its bounding rectangle; a later frame identical to
the original previous frame gets the rectangle `(0,0)-(1,1)`; a later frame that differs
somewhere gets the rectangle that contains every differing position, touches a differing
position on each of its four sides (so it is `[minX, minY]..[maxX+1, maxY+1]`), is contained
in every rectangle containing the differing positions, and lies inside the canvas. -/
theorem optimizeFrames_bounds (w h : Nat) (ims : List Paletted)
    (hsize : ∀ im ∈ ims, im.IsCanvas w h) :
    (∀ im0, ims[0]? = some im0 →
      ∃ f0, (optimizeFrames ims)[0]? = some f0 ∧ f0.bounds = ⟨⟨0, 0⟩, ⟨(w : Int), (h : Int)⟩⟩) ∧
    (∀ (i : Nat) (prev cur : Paletted), ims[i]? = some prev → ims[i + 1]? = some cur →
      ∃ f, (optimizeFrames ims)[i + 1]? = some f ∧
        ((∀ x y : Int, (Point.mk x y).In cur.Rect = true → cur.pixAt x y = prev.pixAt x y) →
          f.bounds = ⟨⟨0, 0⟩, ⟨1, 1⟩⟩) ∧
        ((∃ x y : Int, (Point.mk x y).In cur.Rect = true ∧ cur.pixAt x y ≠ prev.pixAt x y) →
          (∀ x y : Int, (Point.mk x y).In cur.Rect = true → cur.pixAt x y ≠ prev.pixAt x y →
            (Point.mk x y).In f.bounds = true) ∧
          (∃ x y : Int, (Point.mk x y).In cur.Rect = true ∧ cur.pixAt x y ≠ prev.pixAt x y ∧
            x = f.bounds.Min.X) ∧
          (∃ x y : Int, (Point.mk x y).In cur.Rect = true ∧ cur.pixAt x y ≠ prev.pixAt x y ∧
            y = f.bounds.Min.Y) ∧
          (∃ x y : Int, (Point.mk x y).In cur.Rect = true ∧ cur.pixAt x y ≠ prev.pixAt x y ∧
            x + 1 = f.bounds.Max.X) ∧
          (∃ x y : Int, (Point.mk x y).In cur.Rect = true ∧ cur.pixAt x y ≠ prev.pixAt x y ∧
            y + 1 = f.bounds.Max.Y) ∧
          (∀ r : Rectangle,
            (∀ x y : Int, (Point.mk x y).In cur.Rect = true → cur.pixAt x y ≠ prev.pixAt x y →
              (Point.mk x y).In r = true) →
            r.Min.X ≤ f.bounds.Min.X ∧ r.Min.Y ≤ f.bounds.Min.Y ∧
              f.bounds.Max.X ≤ r.Max.X ∧ f.bounds.Max.Y ≤ r.Max.Y) ∧
          (0 ≤ f.bounds.Min.X ∧ 0 ≤ f.bounds.Min.Y ∧
            f.bounds.Max.X ≤ (w : Int) ∧ f.bounds.Max.Y ≤ (h : Int)))) := by
  refine ⟨?_, ?_⟩
  · intro im0 h0
    cases ims with
    | nil => simp at h0
    | cons first rest =>
      simp only [List.getElem?_cons_zero, Option.some.injEq] at h0
      subst h0
      refine ⟨⟨first, first.Rect⟩, by simp [optimizeFrames], ?_⟩
      exact (hsize first (List.mem_cons_self _ _)).1
  · intro i prev cur hp hc
    have hcan : cur.IsCanvas w h := hsize cur (List.getElem?_mem hc)
    refine ⟨optimizeFrame prev cur, getElem?_optimizeFrames_succ ims i prev cur hp hc, ?_, ?_⟩
    · intro hsame
      have hnil : differing prev cur = [] := by
        apply List.eq_nil_iff_forall_not_mem.2
        rintro ⟨x, y⟩ hmem
        obtain ⟨hin, hd⟩ := (mem_differing hcan prev x y).1 hmem
        exact hd (hsame x y hin)
      simp only [optimizeFrame, hnil, boundingRect, hcan.1]
      simp
    · rintro ⟨x0, y0, hin0, hd0⟩
      have hne : differing prev cur ≠ [] := by
        intro hnil
        have hmem := (mem_differing hcan prev x0 y0).2 ⟨hin0, hd0⟩
        rw [hnil] at hmem
        exact absurd hmem (List.not_mem_nil _)
      obtain ⟨hall, ⟨q1, hq1, e1⟩, ⟨q2, hq2, e2⟩, ⟨q3, hq3, e3⟩, ⟨q4, hq4, e4⟩⟩ :=
        boundingRect_spec cur.Rect.Min (differing prev cur) hne
      have m1 := (mem_differing hcan prev q1.1 q1.2).1 hq1
      have m2 := (mem_differing hcan prev q2.1 q2.2).1 hq2
      have m3 := (mem_differing hcan prev q3.1 q3.2).1 hq3
      have m4 := (mem_differing hcan prev q4.1 q4.2).1 hq4
      have c1 := (In_canvas_iff hcan q1.1 q1.2).1 m1.1
      have c2 := (In_canvas_iff hcan q2.1 q2.2).1 m2.1
      have c3 := (In_canvas_iff hcan q3.1 q3.2).1 m3.1
      have c4 := (In_canvas_iff hcan q4.1 q4.2).1 m4.1
      show _ ∧ _ ∧ _ ∧ _ ∧ _ ∧ _ ∧ _
      refine ⟨?_, ⟨q1.1, q1.2, m1.1, m1.2, e1⟩, ⟨q2.1, q2.2, m2.1, m2.2, e2⟩,
        ⟨q3.1, q3.2, m3.1, m3.2, e3⟩, ⟨q4.1, q4.2, m4.1, m4.2, e4⟩, ?_, ?_⟩
      · intro x y hin hd
        exact hall (x, y) ((mem_differing hcan prev x y).2 ⟨hin, hd⟩)
      · intro r hr
        have r1 := hr q1.1 q1.2 m1.1 m1.2
        have r2 := hr q2.1 q2.2 m2.1 m2.2
        have r3 := hr q3.1 q3.2 m3.1 m3.2
        have r4 := hr q4.1 q4.2 m4.1 m4.2
        simp only [Point.In, Bool.and_eq_true, decide_eq_true_eq] at r1 r2 r3 r4
        change r.Min.X ≤ (boundingRect cur.Rect.Min (differing prev cur)).Min.X ∧
          r.Min.Y ≤ (boundingRect cur.Rect.Min (differing prev cur)).Min.Y ∧
          (boundingRect cur.Rect.Min (differing prev cur)).Max.X ≤ r.Max.X ∧
          (boundingRect cur.Rect.Min (differing prev cur)).Max.Y ≤ r.Max.Y
        rw [← e1, ← e2, ← e3, ← e4]
        refine ⟨r1.1.1.1, r2.1.2, ?_, ?_⟩
        · have := r3.1.1.2; omega
        · have := r4.2; omega
      · change 0 ≤ (boundingRect cur.Rect.Min (differing prev cur)).Min.X ∧
          0 ≤ (boundingRect cur.Rect.Min (differing prev cur)).Min.Y ∧
          (boundingRect cur.Rect.Min (differing prev cur)).Max.X ≤ (w : Int) ∧
          (boundingRect cur.Rect.Min (differing prev cur)).Max.Y ≤ (h : Int)
        rw [← e1, ← e2, ← e3, ← e4]
        refine ⟨c1.1.1, c2.2.1, ?_, ?_⟩
        · have := c3.1.2; omega
        · have := c4.2.2; omega

/-- The model of `optimizeFrames` passes `TestImageOptimizeFrames`: on the frames of the test
it yields the rectangles and pixels the test expects. -/
theorem optimizeFrames_testIms :
    (optimizeFrames testIms).map (fun f => (f.bounds, f.canvas.Pix)) = testExpects := by
  decide

/-- Witness for C4 on the frames of the test: frame 3 differs from frame 2 in its centre
only. -/
theorem optimizeFrames_pixels_witness :
    testIms ≠ [] ∧ (∀ im ∈ testIms, im.IsCanvas 3 3) ∧
      ∃ f, (optimizeFrames testIms)[3]? = some f ∧
        ∀ x y : Int, (Point.mk x y).In (testFrame [1, 1, 1, 1, 0, 1, 1, 1, 1]).Rect = true →
          f.canvas.pixAt x y =
            if (testFrame [1, 1, 1, 1, 0, 1, 1, 1, 1]).pixAt x y =
                (testFrame [1, 1, 1, 1, 1, 1, 1, 1, 1]).pixAt x y
            then (testFrame [1, 1, 1, 1, 0, 1, 1, 1, 1]).Palette.length - 1
            else (testFrame [1, 1, 1, 1, 0, 1, 1, 1, 1]).pixAt x y :=
  ⟨by decide, by decide,
    (optimizeFrames_pixels 3 3 testIms (by decide) (by decide)).2.2 2 _ _ rfl rfl⟩

/-- Witness for C5 on the frames of the test: frame 0 keeps the full canvas. -/
theorem optimizeFrames_bounds_witness :
    (∀ im ∈ testIms, im.IsCanvas 3 3) ∧
      ∃ f0, (optimizeFrames testIms)[0]? = some f0 ∧ f0.bounds = ⟨⟨0, 0⟩, ⟨3, 3⟩⟩ :=
  ⟨by decide, (optimizeFrames_bounds 3 3 testIms (by decide)).1 _ rfl⟩

/-! ## `parse`: the region filters -/

theorem recordLoop_congr {g g1 : Globals} (hf : sameFlags g g1) (len : Nat) (rs : List record) :
    ∀ (j : Nat) (incl : Bool), recordLoop g len j rs incl = recordLoop g1 len j rs incl := by
  obtain ⟨h1, h2, h3, h4⟩ := hf
  induction rs with
  | nil => intro j incl; rfl
  | cons r rs ih =>
    intro j incl
    simp only [recordLoop, h1, h2, h3, h4, ih]

theorem removed_congr {g g1 : Globals} (hf : sameFlags g g1) (act : activity) :
    removed g act = removed g1 act := by
  unfold removed
  rw [recordLoop_congr hf, hf.2.2.1]

/-- What the loop over the records computes, from index `j` on. -/
theorem recordLoop_spec (g : Globals) (len : Nat) (rs : List record) :
    ∀ (j : Nat) (incl : Bool), len = j + rs.length →
      (recordLoop g len j rs incl).2 =
        !((decide (j ≠ 0) || g.startsNear.IsZero ||
            rs.head?.all (fun r => g.startsNear.Contains r.lat r.lon)) &&
          (g.endsNear.IsZero || rs.getLast?.all (fun r => g.endsNear.Contains r.lat r.lon)) &&
          (g.boundedBy.IsZero || rs.all (fun r => g.boundedBy.Contains r.lat r.lon))) ∧
      ((recordLoop g len j rs incl).2 = false →
        (recordLoop g len j rs incl).1 =
          (incl || rs.any (fun r => g.passesThrough.Contains r.lat r.lon))) := by
  induction rs with
  | nil => intro j incl _; simp [recordLoop]
  | cons r rs ih =>
    intro j incl hlen
    have hlen' : len = (j + 1) + rs.length := by simp at hlen; omega
    obtain ⟨ih2a, ih1a⟩ := ih (j + 1) true hlen'
    obtain ⟨ih2b, ih1b⟩ := ih (j + 1) incl hlen'
    have hend : (j == len - 1) = decide (rs = []) := by
      cases rs with
      | nil => simp at hlen'; simp [hlen']
      | cons a as => simp at hlen'; simp; omega
    have hlast : rs ≠ [] → (r :: rs).getLast? = rs.getLast? := by
      intro hne
      cases rs with
      | nil => exact absurd rfl hne
      | cons a as => simp [List.getLast?_cons_cons]
    unfold recordLoop
    rw [hend]
    by_cases c1 : (j == 0 && !g.startsNear.IsZero && !g.startsNear.Contains r.lat r.lon) = true
    · rw [if_pos c1]
      simp only [Bool.and_eq_true, beq_iff_eq, Bool.not_eq_true'] at c1
      simp [c1.1.1, c1.1.2, c1.2]
    · rw [if_neg c1]
      have c1' : (decide (j ≠ 0) || g.startsNear.IsZero ||
          (r :: rs).head?.all (fun r => g.startsNear.Contains r.lat r.lon)) = true := by
        simp only [Bool.and_eq_true, beq_iff_eq, Bool.not_eq_true', not_and,
          Bool.not_eq_false] at c1
        by_cases hj : j = 0
        · by_cases hs : g.startsNear.IsZero = true
          · simp [hs]
          · have := c1 ⟨hj, by simpa using hs⟩
            simp [this]
        · simp [hj]
      rw [c1']
      by_cases c2 : (decide (rs = []) && !g.endsNear.IsZero &&
          !g.endsNear.Contains r.lat r.lon) = true
      · rw [if_pos c2]
        simp only [Bool.and_eq_true, decide_eq_true_eq, Bool.not_eq_true'] at c2
        simp [c2.1.1, c2.1.2, c2.2]
      · rw [if_neg c2]
        by_cases c3 : (!g.boundedBy.IsZero && !g.boundedBy.Contains r.lat r.lon) = true
        · rw [if_pos c3]
          simp only [Bool.and_eq_true, Bool.not_eq_true'] at c3
          simp [c3.1, c3.2]
        · rw [if_neg c3]
          have c3' : (g.boundedBy.IsZero ||
              (r :: rs).all (fun r => g.boundedBy.Contains r.lat r.lon)) =
              (g.boundedBy.IsZero || rs.all (fun r => g.boundedBy.Contains r.lat r.lon)) := by
            simp only [Bool.and_eq_true, Bool.not_eq_true', not_and, Bool.not_eq_false] at c3
            by_cases hb : g.boundedBy.IsZero = true
            · simp [hb]
            · have := c3 (by simpa using hb)
              simp [this]
          have c2' : (g.endsNear.IsZero ||
              (r :: rs).getLast?.all (fun r => g.endsNear.Contains r.lat r.lon)) =
              (g.endsNear.IsZero || rs.getLast?.all (fun r => g.endsNear.Contains r.lat r.lon)) := by
            by_cases hrs : rs = []
            · subst hrs
              simp only [Bool.and_eq_true, decide_eq_true_eq, Bool.not_eq_true', not_and,
                Bool.not_eq_false, true_and, decide_True, Bool.true_and] at c2
              by_cases he : g.endsNear.IsZero = true
              · simp [he]
              · have := c2 (by simpa using he)
                simp [this]
            · rw [hlast hrs]
          rw [c3', c2']
          have hj1 : decide (j + 1 ≠ 0) = true := by simp
          rw [hj1] at ih2a ih2b
          simp only [Bool.true_or, Bool.true_and] at ih2a ih2b ⊢
          by_cases c4 : (!incl && g.passesThrough.Contains r.lat r.lon) = true
          · rw [if_pos c4]
            refine ⟨ih2a, ?_⟩
            intro hx
            rw [ih1a hx]
            simp only [Bool.and_eq_true, Bool.not_eq_true'] at c4
            simp [c4.2]
          · rw [if_neg c4]
            refine ⟨ih2b, ?_⟩
            intro hx
            rw [ih1b hx]
            simp only [Bool.and_eq_true, Bool.not_eq_true', not_and, Bool.not_eq_false] at c4
            by_cases hi : incl = true
            · simp [hi]
            · have : g.passesThrough.Contains r.lat r.lon = false := by
                by_contra hc
                exact absurd (c4 (by simpa using hi)) (by simpa using hc)
              simp [this]

/-- The removal test of `parse` is the negation of the filters, for an activity that has a
record. -/
theorem removed_eq (g : Globals) (act : activity) (hrec : act.records ≠ []) :
    removed g act = !qualifies g act := by
  obtain ⟨h2, h1⟩ := recordLoop_spec g act.records.length act.records 0 g.passesThrough.IsZero
    (by simp)
  unfold removed qualifies
  dsimp only
  cases hrs : act.records with
  | nil => exact absurd hrs hrec
  | cons r rs =>
    rw [hrs] at h1 h2
    have hl : ∃ z, (r :: rs).getLast? = some z := by
      cases hz : (r :: rs).getLast? with
      | none => simp at hz
      | some z => exact ⟨z, rfl⟩
    obtain ⟨z, hz⟩ := hl
    rw [hz] at h2 ⊢
    simp only [List.head?_cons, Option.all_some, Option.any_some, ne_eq, not_true_eq_false,
      decide_False, Bool.false_or] at h2 ⊢
    generalize hX : ((g.startsNear.IsZero || g.startsNear.Contains r.lat r.lon) &&
        (g.endsNear.IsZero || g.endsNear.Contains z.lat z.lon) &&
        (g.boundedBy.IsZero ||
          (r :: rs).all (fun r => g.boundedBy.Contains r.lat r.lon))) = X at h2 ⊢
    by_cases hex : (recordLoop g (r :: rs).length 0 (r :: rs) g.passesThrough.IsZero).2 = true
    · rw [hex] at h2 ⊢
      cases X with
      | false => simp
      | true => simp at h2
    · have hex' : (recordLoop g (r :: rs).length 0 (r :: rs) g.passesThrough.IsZero).2 = false := by
        simpa using hex
      rw [hex'] at h2
      rw [hex', h1 hex']
      cases X with
      | false => simp at h2
      | true => simp

theorem widenBounds_fields (rs : List record) : ∀ g : Globals,
    (widenBounds g rs).activities = g.activities ∧ (widenBounds g rs).maxDur = g.maxDur ∧
      sameFlags (widenBounds g rs) g := by
  induction rs with
  | nil => intro g; exact ⟨rfl, rfl, rfl, rfl, rfl, rfl⟩
  | cons r rs ih =>
    intro g
    obtain ⟨h1, h2, h3, h4, h5, h6⟩ := ih { g with
      minLat := min g.minLat r.lat
      minLon := min g.minLon r.lon
      maxLat := max g.maxLat r.lat
      maxLon := max g.maxLon r.lon }
    exact ⟨h1, h2, h3, h4, h5, h6⟩

theorem accumulate_fields (g : Globals) (act : activity) :
    (accumulate g act).activities = g.activities ∧
      (accumulate g act).maxDur = max g.maxDur act.duration ∧
      sameFlags (accumulate g act) g := by
  unfold accumulate
  by_cases h : act.duration > g.maxDur
  · simp only [h, if_true]
    obtain ⟨h1, h2, h3⟩ := widenBounds_fields act.records { g with maxDur := act.duration }
    refine ⟨h1, ?_, h3⟩
    rw [h2]
    exact (max_eq_right (le_of_lt h)).symm
  · simp only [h, if_false]
    obtain ⟨h1, h2, h3⟩ := widenBounds_fields act.records g
    refine ⟨h1, ?_, h3⟩
    rw [h2]
    exact (max_eq_left (not_lt.1 h)).symm

theorem swapRemove_last {α : Type} (front : List α) (a : α) :
    ((front ++ [a]).set front.length ((front ++ [a]).getD ((front ++ [a]).length - 1) a)).take
      ((front ++ [a]).length - 1) = front := by
  simp

theorem swapRemove_inner {α : Type} (front : List α) (a z : α) (bs : List α) :
    ((front ++ a :: (bs ++ [z])).set front.length
      ((front ++ a :: (bs ++ [z])).getD ((front ++ a :: (bs ++ [z])).length - 1) a)).take
      ((front ++ a :: (bs ++ [z])).length - 1) = front ++ z :: bs := by
  have hlen : (front ++ a :: (bs ++ [z])).length - 1 = front.length + (bs.length + 1) := by
    simp
  have hget : (front ++ a :: (bs ++ [z])).getD (front.length + (bs.length + 1)) a = z := by
    rw [List.getD_eq_getElem?_getD, List.getElem?_append_right (by omega)]
    have : front.length + (bs.length + 1) - front.length = bs.length + 1 := by omega
    rw [this, List.getElem?_cons_succ, List.getElem?_concat_length]
    rfl
  rw [hlen, hget, List.set_append_right _ _ (le_refl _), Nat.sub_self, List.set_cons_zero,
    List.take_append, List.take_succ_cons, List.take_left' rfl]

theorem sameFlags_trans {a b c : Globals} (h1 : sameFlags a b) (h2 : sameFlags b c) :
    sameFlags a c :=
  ⟨h1.1.trans h2.1, h1.2.1.trans h2.2.1, h1.2.2.1.trans h2.2.2.1, h1.2.2.2.trans h2.2.2.2⟩

/-- Invariant of the backward swap-remove loop of `parse`. `front` holds the activities
still to be visited, `back` those already visited and kept; `g0` fixes the regions. -/
theorem filterLoop_inv (g0 : Globals) : ∀ (i : Nat) (g : Globals) (front back : List activity),
    sameFlags g g0 → g.activities = front ++ back → front.length = i →
    sameFlags (filterLoop i g) g0 ∧
    List.Perm (filterLoop i g).activities (front.filter (fun a => !removed g0 a) ++ back) ∧
    g.maxDur ≤ (filterLoop i g).maxDur ∧
    (∀ a ∈ front, removed g0 a = false → a.duration ≤ (filterLoop i g).maxDur) ∧
    ((filterLoop i g).maxDur = g.maxDur ∨
      ∃ a ∈ front, removed g0 a = false ∧ a.duration = (filterLoop i g).maxDur) := by
  intro i
  induction i with
  | zero =>
    intro g front back hf hact hlen
    have hnil : front = [] := List.length_eq_zero.1 hlen
    subst hnil
    simp only [filterLoop]
    refine ⟨hf, ?_, le_refl _, ?_, ?_⟩
    · rw [hact]; simp
    · intro a ha; simp at ha
    · simp
  | succ i ih =>
    intro g front back hf hact hlen
    rcases List.eq_nil_or_concat front with hnil | ⟨f1, a, hfront⟩
    · rw [hnil] at hlen; simp at hlen
    rw [List.concat_eq_append] at hfront
    subst hfront
    have hfl : f1.length = i := by simp at hlen; exact hlen
    have hget : g.activities[i]? = some a := by
      rw [hact, List.append_assoc, List.getElem?_append_right (by omega), hfl, Nat.sub_self]
      simp
    have hrem : removed g a = removed g0 a := removed_congr hf a
    rw [filterLoop]
    simp only [hget]
    by_cases hr : removed g a = true
    · rw [if_pos hr]
      have hr0 : removed g0 a = true := by rw [← hrem]; exact hr
      have hfilt : (f1 ++ [a]).filter (fun a => !removed g0 a) =
          f1.filter (fun a => !removed g0 a) := by
        simp [List.filter_append, hr0]
      rcases List.eq_nil_or_concat back with hb | ⟨bs, z, hb⟩
      · subst hb
        have hnew : ((g.activities.set i (g.activities.getD (g.activities.length - 1) a)).take
            (g.activities.length - 1)) = f1 ++ [] := by
          rw [hact, List.append_nil, ← hfl, List.append_nil]
          exact swapRemove_last f1 a
        obtain ⟨k1, k2, k3, k4, k5⟩ := ih
          { g with activities := (g.activities.set i
              (g.activities.getD (g.activities.length - 1) a)).take (g.activities.length - 1) }
          f1 [] hf hnew hfl
        refine ⟨k1, ?_, k3, ?_, ?_⟩
        · rw [hfilt]; exact k2
        · intro b hb hkeep
          rcases List.mem_append.1 hb with hb | hb
          · exact k4 b hb hkeep
          · simp only [List.mem_singleton] at hb
            subst hb
            rw [hr0] at hkeep
            exact absurd hkeep (by simp)
        · rcases k5 with k5 | ⟨b, hb, hk, hd⟩
          · exact Or.inl k5
          · exact Or.inr ⟨b, List.mem_append_left _ hb, hk, hd⟩
      · rw [List.concat_eq_append] at hb
        subst hb
        have hnew : ((g.activities.set i (g.activities.getD (g.activities.length - 1) a)).take
            (g.activities.length - 1)) = f1 ++ z :: bs := by
          rw [hact, ← hfl]
          have := swapRemove_inner f1 a z bs
          simpa using this
        obtain ⟨k1, k2, k3, k4, k5⟩ := ih
          { g with activities := (g.activities.set i
              (g.activities.getD (g.activities.length - 1) a)).take (g.activities.length - 1) }
          f1 (z :: bs) hf hnew hfl
        refine ⟨k1, ?_, k3, ?_, ?_⟩
        · rw [hfilt]
          refine k2.trans ?_
          exact List.Perm.append_left _ (List.perm_append_singleton z bs).symm
        · intro b hb hkeep
          rcases List.mem_append.1 hb with hb | hb
          · exact k4 b hb hkeep
          · simp only [List.mem_singleton] at hb
            subst hb
            rw [hr0] at hkeep
            exact absurd hkeep (by simp)
        · rcases k5 with k5 | ⟨b, hb, hk, hd⟩
          · exact Or.inl k5
          · exact Or.inr ⟨b, List.mem_append_left _ hb, hk, hd⟩
    · rw [if_neg hr]
      have hr0 : removed g0 a = false := by rw [← hrem]; simpa using hr
      obtain ⟨c1, c2, c3⟩ := accumulate_fields g a
      have hnew : (accumulate g a).activities = f1 ++ a :: back := by
        rw [c1, hact]; simp
      obtain ⟨k1, k2, k3, k4, k5⟩ := ih (accumulate g a) f1 (a :: back)
        (sameFlags_trans c3 hf) hnew hfl
      rw [c2] at k3 k5
      have hfilt : (f1 ++ [a]).filter (fun a => !removed g0 a) ++ back =
          f1.filter (fun a => !removed g0 a) ++ a :: back := by
        simp [List.filter_append, hr0]
      refine ⟨k1, ?_, le_trans (le_max_left _ _) k3, ?_, ?_⟩
      · rw [hfilt]; exact k2
      · intro b hb hkeep
        rcases List.mem_append.1 hb with hb | hb
        · exact k4 b hb hkeep
        · simp only [List.mem_singleton] at hb
          subst hb
          exact le_trans (le_max_right _ _) k3
      · rcases k5 with k5 | ⟨b, hb, hk, hd⟩
        · rcases max_choice g.maxDur a.duration with hm | hm
          · left; rw [k5, hm]
          · right
            exact ⟨a, List.mem_append_right _ (List.mem_singleton.2 rfl), hr0, by rw [k5, hm]⟩
        · exact Or.inr ⟨b, List.mem_append_left _ hb, hk, hd⟩

theorem parse_ok_iff (parsed : List activity) (g : Globals) (g1 : Globals) :
    parse parsed g = .ok g1 ↔
      (parsed ≠ [] ∧ g1 = filterLoop parsed.length { g with activities := parsed } ∧
        g1.activities ≠ []) := by
  unfold parse
  dsimp only
  by_cases h1 : parsed = []
  · subst h1; simp
  · have h1' : ¬ (parsed.length == 0) = true := by simpa using h1
    rw [if_neg h1']
    by_cases h2 : (filterLoop parsed.length { g with activities := parsed }).activities = []
    · have h2' : ((filterLoop parsed.length { g with activities := parsed }).activities.length
          == 0) = true := by simp [h2]
      rw [if_pos h2']
      constructor
      · intro h; cases h
      · rintro ⟨_, rfl, h3⟩; exact absurd h2 h3
    · have h2' : ¬ ((filterLoop parsed.length { g with activities := parsed }).activities.length
          == 0) = true := by simpa using h2
      rw [if_neg h2']
      constructor
      · intro h
        cases h
        exact ⟨h1, rfl, h2⟩
      · rintro ⟨_, rfl, _⟩; rfl

/-- The list `parse` leaves is a permutation of the parsed activities that are not removed,
whatever the records are. -/
theorem filterLoop_perm_removed (parsed : List activity) (g : Globals) :
    List.Perm (filterLoop parsed.length { g with activities := parsed }).activities
      (parsed.filter (fun a => !removed g a)) := by
  have h := (filterLoop_inv g parsed.length { g with activities := parsed } parsed []
    ⟨rfl, rfl, rfl, rfl⟩ (by simp) rfl).2.1
  simpa using h

/-- With a record in every parsed activity, the loop keeps a permutation of the activities
that satisfy the region filters. -/
theorem filterLoop_perm_qualifies (parsed : List activity) (g : Globals)
    (hrec : ∀ act ∈ parsed, act.records ≠ []) :
    List.Perm (filterLoop parsed.length { g with activities := parsed }).activities
      (parsed.filter (qualifies g)) := by
  have hfilter : parsed.filter (fun a => !removed g a) = parsed.filter (qualifies g) := by
    apply List.filter_congr
    intro a ha
    rw [removed_eq g a (hrec a ha)]
    simp
  have hperm := filterLoop_perm_removed parsed g
  rw [hfilter] at hperm
  exact hperm

/-- C7: when every parsed activity has a record, the backward swap-remove loop of `parse`
leaves a permutation of the parsed activities that satisfy the four region filters; so does
`parse` when it returns without error. -/
theorem parse_filter_perm (parsed : List activity) (g : Globals)
    (hrec : ∀ act ∈ parsed, act.records ≠ []) :
    List.Perm (filterLoop parsed.length { g with activities := parsed }).activities
        (parsed.filter (qualifies g)) ∧
      ∀ g1, parse parsed g = .ok g1 → List.Perm g1.activities (parsed.filter (qualifies g)) := by
  refine ⟨filterLoop_perm_qualifies parsed g hrec, ?_⟩
  intro g1 hok
  obtain ⟨_, rfl, _⟩ := (parse_ok_iff parsed g g1).1 hok
  exact filterLoop_perm_qualifies parsed g hrec

theorem parse_error_characterised (parsed : List activity) (g : Globals) (msg : String) :
    parse parsed g = .error msg ↔
      (msg = "no matching activities found" ∧
        (parsed = [] ∨
          (filterLoop parsed.length { g with activities := parsed }).activities = [])) := by
  unfold parse
  dsimp only
  by_cases h1 : parsed = []
  · subst h1
    simp only [List.length_nil, beq_self_eq_true, if_true, true_or, and_true]
    constructor
    · intro h; cases h; rfl
    · intro h; rw [h]
  · have h1' : ¬ (parsed.length == 0) = true := by simpa using h1
    rw [if_neg h1']
    by_cases h2 : (filterLoop parsed.length { g with activities := parsed }).activities = []
    · have h2' : ((filterLoop parsed.length { g with activities := parsed }).activities.length
          == 0) = true := by simp [h2]
      rw [if_pos h2']
      simp only [h2, or_true, and_true]
      constructor
      · intro h; cases h; rfl
      · intro h; rw [h]
    · have h2' : ¬ ((filterLoop parsed.length { g with activities := parsed }).activities.length
          == 0) = true := by simpa using h2
      rw [if_neg h2']
      simp only [h1, h2, or_self, and_false, iff_false]
      intro h; cases h

theorem parse_ne_panic (parsed : List activity) (g : Globals) (msg : String) :
    parse parsed g ≠ .panic msg := by
  unfold parse
  dsimp only
  split
  · intro h; cases h
  · split
    · intro h; cases h
    · intro h; cases h

/-- The state on which the third step of `main` runs, when it runs, is the state the second
step returned. -/
theorem runSteps_third (s1 s2 s3 s4 : Globals → Outcome Globals) (g gR : Globals)
    (h : (runSteps [s1, s2, s3, s4] g).1[2]? = some gR) :
    ∃ g1, s1 g = .ok g1 ∧ s2 g1 = .ok gR := by
  simp only [runSteps] at h
  cases h1 : s1 g with
  | ok g1 =>
    rw [h1] at h
    simp only [List.getElem?_cons_succ] at h
    cases h2 : s2 g1 with
    | ok g2 =>
      rw [h2] at h
      simp only [List.getElem?_cons_succ] at h
      cases h3 : s3 g2 with
      | ok g3 =>
        rw [h3] at h
        simp only [List.getElem?_cons_zero, Option.some.injEq] at h
        exact ⟨g1, rfl, by rw [← h]; exact h2⟩
      | error m => rw [h3] at h; simp at h; exact ⟨g1, rfl, by rw [← h]; exact h2⟩
      | panic m => rw [h3] at h; simp at h; exact ⟨g1, rfl, by rw [← h]; exact h2⟩
      | undetermined => rw [h3] at h; simp at h; exact ⟨g1, rfl, by rw [← h]; exact h2⟩
    | error m => rw [h2] at h; simp at h
    | panic m => rw [h2] at h; simp at h
    | undetermined => rw [h2] at h; simp at h
  | error m => rw [h1] at h; simp at h
  | panic m => rw [h1] at h; simp at h
  | undetermined => rw [h1] at h; simp at h

/-- C9: `parse` returns the error "no matching activities found" exactly when the activity
list is empty after parsing or empty after the region filters (that is, when every parsed
activity has a record, no parsed activity satisfies the filters); it returns no other
error and does not panic; and in `main`, where a failing step ends the program, `render` only ever runs on a
state whose activity list is not empty. -/
theorem parse_error_iff (parsed : List activity) (g : Globals) :
    (parse parsed g = .error "no matching activities found" ↔
      (parsed = [] ∨
        (filterLoop parsed.length { g with activities := parsed }).activities = [])) ∧
    ((∀ act ∈ parsed, act.records ≠ []) →
      ((filterLoop parsed.length { g with activities := parsed }).activities = [] ↔
        ∀ act ∈ parsed, qualifies g act = false)) ∧
    (∀ msg, parse parsed g = .error msg → msg = "no matching activities found") ∧
    (∀ msg, parse parsed g ≠ .panic msg) ∧
    (∀ g1, parse parsed g = .ok g1 → g1.activities ≠ []) ∧
    (∀ (scan save : Globals → Outcome Globals) (parsers : Globals → List activity)
      (uint8Impl : F64 → Nat) (mercatorMeters : ℚ → ℚ → ℚ × ℚ)
      (Bresenham : Int → Int → Int → Int → List (Int × Int)) (pal : List Color) (gR : Globals),
      (runSteps [scan, fun s => parse (parsers s) s,
        render uint8Impl mercatorMeters Bresenham pal, save] g).1[2]? = some gR →
          gR.activities ≠ []) := by
  refine ⟨?_, ?_, ?_, parse_ne_panic parsed g, ?_, ?_⟩
  · rw [parse_error_characterised]
    simp
  · intro hrec
    have hperm := filterLoop_perm_qualifies parsed g hrec
    constructor
    · intro hnil act hact
      rw [hnil] at hperm
      have hf : parsed.filter (qualifies g) = [] := List.Perm.eq_nil hperm.symm
      by_contra hq
      have hmem : act ∈ parsed.filter (qualifies g) :=
        List.mem_filter.2 ⟨hact, by simpa using hq⟩
      rw [hf] at hmem
      exact absurd hmem (List.not_mem_nil _)
    · intro hall
      have hf : parsed.filter (qualifies g) = [] := by
        apply List.eq_nil_iff_forall_not_mem.2
        intro a ha
        obtain ⟨h1, h2⟩ := List.mem_filter.1 ha
        rw [hall a h1] at h2
        exact absurd h2 (by simp)
      rw [hf] at hperm
      exact List.Perm.eq_nil hperm
  · intro msg h
    exact ((parse_error_characterised parsed g msg).1 h).1
  · intro g1 h
    exact ((parse_ok_iff parsed g g1).1 h).2.2
  · intro scan save parsers uint8Impl mercatorMeters Bresenham pal gR h
    obtain ⟨g1, _, h2⟩ := runSteps_third _ _ _ _ g gR h
    exact ((parse_ok_iff (parsers g1) g1 gR).1 h2).2.2

/-! ## `render`: projection and progress -/

theorem projectAll_ne_error (mercatorMeters : ℚ → ℚ → ℚ × ℚ) (minX maxY scale : ℚ)
    (maxDur : Int) (acts : List activity) :
    ∀ msg, projectAll mercatorMeters minX maxY scale maxDur acts ≠ .error msg := by
  induction acts with
  | nil => intro msg h; cases h
  | cons act rest ih =>
    intro msg
    unfold projectAll
    cases hr : act.records with
    | nil => intro h; cases h
    | cons r0 rs =>
      dsimp only
      cases hrest : projectAll mercatorMeters minX maxY scale maxDur rest with
      | ok out => intro h; cases h
      | error m => exact absurd hrest (ih m)
      | panic m => intro h; cases h
      | undetermined => intro h; cases h

/-- When `projectAll` returns, each activity had a first record and its records have been
projected with that record's timestamp as `ts0`. -/
theorem projectAll_ok (mercatorMeters : ℚ → ℚ → ℚ × ℚ) (minX maxY scale : ℚ)
    (maxDur : Int) (acts : List activity) :
    ∀ out, projectAll mercatorMeters minX maxY scale maxDur acts = .ok out →
      List.Forall₂ (fun a b => ∃ r0, a.records.head? = some r0 ∧
        b.records = a.records.map (project mercatorMeters minX maxY scale r0.ts maxDur))
        acts out := by
  induction acts with
  | nil =>
    intro out h
    simp only [projectAll] at h
    cases h
    exact List.Forall₂.nil
  | cons act rest ih =>
    intro out h
    unfold projectAll at h
    cases hr : act.records with
    | nil => rw [hr] at h; cases h
    | cons r0 rs =>
      rw [hr] at h
      dsimp only at h
      cases hrest : projectAll mercatorMeters minX maxY scale maxDur rest with
      | ok out1 =>
        rw [hrest] at h
        cases h
        refine List.Forall₂.cons ⟨r0, by rw [hr]; rfl, by rw [hr]⟩ (ih out1 hrest)
      | error m => rw [hrest] at h; cases h
      | panic m => rw [hrest] at h; cases h
      | undetermined => rw [hrest] at h; cases h

/-- With a record in every activity, `projectAll` returns. -/
theorem projectAll_total (mercatorMeters : ℚ → ℚ → ℚ × ℚ) (minX maxY scale : ℚ)
    (maxDur : Int) (acts : List activity) (hrec : ∀ act ∈ acts, act.records ≠ []) :
    ∃ out, projectAll mercatorMeters minX maxY scale maxDur acts = .ok out := by
  induction acts with
  | nil => exact ⟨[], rfl⟩
  | cons act rest ih =>
    obtain ⟨out, hout⟩ := ih (fun a ha => hrec a (List.mem_cons_of_mem _ ha))
    unfold projectAll
    cases hr : act.records with
    | nil => exact absurd hr (hrec act (List.mem_cons_self _ _))
    | cons r0 rs =>
      dsimp only
      rw [hout]
      exact ⟨_, rfl⟩

/-- The projection loop panics exactly when some activity has no record, and then with the
index-out-of-range message of `act.records[0]`. -/
theorem projectAll_panic_iff (mercatorMeters : ℚ → ℚ → ℚ × ℚ) (minX maxY scale : ℚ)
    (maxDur : Int) (acts : List activity) (msg : String) :
    projectAll mercatorMeters minX maxY scale maxDur acts = .panic msg ↔
      (msg = "index out of range [0] with length 0" ∧ ∃ act ∈ acts, act.records = []) := by
  induction acts with
  | nil =>
    constructor
    · intro h; cases h
    · rintro ⟨_, a, ha, _⟩
      exact absurd ha (List.not_mem_nil _)
  | cons act rest ih =>
    unfold projectAll
    cases hr : act.records with
    | nil =>
      dsimp only
      constructor
      · intro h
        cases h
        exact ⟨rfl, act, List.mem_cons_self _ _, hr⟩
      · rintro ⟨rfl, _⟩
        rfl
    | cons r0 rs =>
      dsimp only
      have hne : act.records ≠ [] := by rw [hr]; exact List.cons_ne_nil _ _
      have hex : (∃ a ∈ act :: rest, a.records = []) ↔ ∃ a ∈ rest, a.records = [] := by
        constructor
        · rintro ⟨a, ha, hnil⟩
          rcases List.mem_cons.1 ha with rfl | ha
          · exact absurd hnil hne
          · exact ⟨a, ha, hnil⟩
        · rintro ⟨a, ha, hnil⟩
          exact ⟨a, List.mem_cons_of_mem _ ha, hnil⟩
      rw [hex, ← ih]
      cases hrest : projectAll mercatorMeters minX maxY scale maxDur rest with
      | ok out => simp
      | error m => simp
      | panic m => simp
      | undetermined => simp

theorem render_ne_error (uint8Impl : F64 → Nat) (mercatorMeters : ℚ → ℚ → ℚ × ℚ)
    (Bresenham : Int → Int → Int → Int → List (Int × Int)) (pal : List Color) (g : Globals)
    (msg : String) : render uint8Impl mercatorMeters Bresenham pal g ≠ .error msg := by
  unfold render
  dsimp only
  split
  · intro h; cases h
  · rename_i m hm
    exact absurd hm (projectAll_ne_error _ _ _ _ _ _ m)
  · intro h; cases h
  · split
    · intro h; cases h
    · intro h; cases h

/-- What `render` does, in terms of the projection loop: it panics when the loop does, and
otherwise returns the projected activities, the height and the frames when the run is
`determined`. -/
theorem render_eq (uint8Impl : F64 → Nat) (mercatorMeters : ℚ → ℚ → ℚ × ℚ)
    (Bresenham : Int → Int → Int → Int → List (Int × Int)) (pal : List Color) (g : Globals) :
    render uint8Impl mercatorMeters Bresenham pal g =
      match projectAll mercatorMeters
          ((mercatorBox mercatorMeters g).minX - 5 / 100 * (mercatorBox mercatorMeters g).dX)
          ((mercatorBox mercatorMeters g).maxY + 5 / 100 * (mercatorBox mercatorMeters g).dY)
          ((g.width : ℚ) / (mercatorBox mercatorMeters g).dX * (9 / 10)) g.maxDur g.activities with
      | .panic msg => .panic msg
      | .error msg => .error msg
      | .undetermined => .undetermined
      | .ok acts =>
        if determined g (mercatorBox mercatorMeters g).dX
            (truncate ((mercatorBox mercatorMeters g).dY *
              ((g.width : ℚ) / (mercatorBox mercatorMeters g).dX))) acts then
          .ok { g with
            height := canvasHeight (mercatorBox mercatorMeters g) g.width
            activities := acts
            ims := (List.range g.frames).map
              (renderFrame uint8Impl Bresenham pal g.width
                (canvasHeight (mercatorBox mercatorMeters g) g.width) g.frames acts) }
        else
          .undetermined :=
  rfl

/-- The panic of `render` is the panic of `act.records[0]`: it happens exactly when some
activity has no record. -/
theorem render_panic_iff (uint8Impl : F64 → Nat) (mercatorMeters : ℚ → ℚ → ℚ × ℚ)
    (Bresenham : Int → Int → Int → Int → List (Int × Int)) (pal : List Color) (g : Globals)
    (msg : String) :
    render uint8Impl mercatorMeters Bresenham pal g = .panic msg ↔
      (msg = "index out of range [0] with length 0" ∧ ∃ act ∈ g.activities, act.records = []) := by
  rw [render_eq, ← projectAll_panic_iff mercatorMeters
    ((mercatorBox mercatorMeters g).minX - 5 / 100 * (mercatorBox mercatorMeters g).dX)
    ((mercatorBox mercatorMeters g).maxY + 5 / 100 * (mercatorBox mercatorMeters g).dY)
    ((g.width : ℚ) / (mercatorBox mercatorMeters g).dX * (9 / 10)) g.maxDur g.activities msg]
  cases hp : projectAll mercatorMeters
    ((mercatorBox mercatorMeters g).minX - 5 / 100 * (mercatorBox mercatorMeters g).dX)
    ((mercatorBox mercatorMeters g).maxY + 5 / 100 * (mercatorBox mercatorMeters g).dY)
    ((g.width : ℚ) / (mercatorBox mercatorMeters g).dX * (9 / 10)) g.maxDur g.activities with
  | ok acts =>
    dsimp only
    split_ifs <;> simp
  | error m => simp
  | panic m => simp
  | undetermined => simp

/-- When `render` returns, its state holds the projected activities, the height and one
frame for each of `frames`. -/
theorem render_ok (uint8Impl : F64 → Nat) (mercatorMeters : ℚ → ℚ → ℚ × ℚ)
    (Bresenham : Int → Int → Int → Int → List (Int × Int)) (pal : List Color) (g g2 : Globals)
    (h : render uint8Impl mercatorMeters Bresenham pal g = .ok g2) :
    projectAll mercatorMeters
        ((mercatorBox mercatorMeters g).minX - 5 / 100 * (mercatorBox mercatorMeters g).dX)
        ((mercatorBox mercatorMeters g).maxY + 5 / 100 * (mercatorBox mercatorMeters g).dY)
        ((g.width : ℚ) / (mercatorBox mercatorMeters g).dX * (9 / 10)) g.maxDur g.activities =
      .ok g2.activities ∧
    g2.height = canvasHeight (mercatorBox mercatorMeters g) g.width ∧
    g2.ims = (List.range g.frames).map
      (renderFrame uint8Impl Bresenham pal g.width g2.height g.frames g2.activities) ∧
    determined g (mercatorBox mercatorMeters g).dX
      (truncate ((mercatorBox mercatorMeters g).dY *
        ((g.width : ℚ) / (mercatorBox mercatorMeters g).dX))) g2.activities = true := by
  rw [render_eq] at h
  cases hp : projectAll mercatorMeters
    ((mercatorBox mercatorMeters g).minX - 5 / 100 * (mercatorBox mercatorMeters g).dX)
    ((mercatorBox mercatorMeters g).maxY + 5 / 100 * (mercatorBox mercatorMeters g).dY)
    ((g.width : ℚ) / (mercatorBox mercatorMeters g).dX * (9 / 10)) g.maxDur g.activities with
  | ok acts =>
    rw [hp] at h
    dsimp only at h
    split_ifs at h with hd
    cases h
    exact ⟨rfl, rfl, rfl, hd⟩
  | error m => rw [hp] at h; cases h
  | panic m => rw [hp] at h; cases h
  | undetermined => rw [hp] at h; cases h

/-- A run of `render` in which every activity has a record and which is `determined`
returns. -/
theorem render_total (uint8Impl : F64 → Nat) (mercatorMeters : ℚ → ℚ → ℚ × ℚ)
    (Bresenham : Int → Int → Int → Int → List (Int × Int)) (pal : List Color) (g : Globals)
    (acts : List activity)
    (hp : projectAll mercatorMeters
        ((mercatorBox mercatorMeters g).minX - 5 / 100 * (mercatorBox mercatorMeters g).dX)
        ((mercatorBox mercatorMeters g).maxY + 5 / 100 * (mercatorBox mercatorMeters g).dY)
        ((g.width : ℚ) / (mercatorBox mercatorMeters g).dX * (9 / 10)) g.maxDur g.activities =
      .ok acts)
    (hd : determined g (mercatorBox mercatorMeters g).dX
      (truncate ((mercatorBox mercatorMeters g).dY *
        ((g.width : ℚ) / (mercatorBox mercatorMeters g).dX))) acts = true) :
    ∃ g2, render uint8Impl mercatorMeters Bresenham pal g = .ok g2 := by
  rw [render_eq, hp]
  dsimp only
  rw [if_pos hd]
  exact ⟨_, rfl⟩

theorem project_p (mercatorMeters : ℚ → ℚ → ℚ × ℚ) (minX maxY scale : ℚ) (ts0 maxDur : Int)
    (r : record) :
    (project mercatorMeters minX maxY scale ts0 maxDur r).p =
      F64.div (F64.ofInt (timeSub r.ts ts0)) (F64.ofInt maxDur) := by
  unfold project
  rfl

theorem timeSub_self (t : Int) : timeSub t t = 0 := by
  unfold timeSub
  rw [sub_self]
  norm_num

theorem timeSub_exact (t u : Int) (h1 : -(2 ^ 63) ≤ t - u) (h2 : t - u ≤ 2 ^ 63 - 1) :
    timeSub t u = t - u := by
  unfold timeSub
  rw [min_eq_right h2, max_eq_right h1]

theorem timeSub_mono {t1 t2 : Int} (h : t1 ≤ t2) (u : Int) : timeSub t1 u ≤ timeSub t2 u := by
  unfold timeSub
  exact max_le_max (le_refl _) (min_le_min (le_refl _) (by omega))

theorem timeSub_range (t u : Int) : -(2 ^ 63) ≤ timeSub t u ∧ timeSub t u ≤ 2 ^ 63 := by
  unfold timeSub
  constructor
  · exact le_max_left _ _
  · exact max_le (by norm_num) (le_trans (min_le_left _ _) (by norm_num))

/-- Progress along one activity: it is `float64(ts.Sub(ts0)) / float64(maxDur)` for every
record, hence 0 for the first record and non-decreasing when the timestamps are
non-decreasing and `maxDur > 0`. -/
theorem progress_projected (mercatorMeters : ℚ → ℚ → ℚ × ℚ) (minX maxY scale : ℚ)
    (maxDur : Int) (r0 : record) (recs : List record) (hhead : recs.head? = some r0) :
    (recs.map (project mercatorMeters minX maxY scale r0.ts maxDur)).map (fun r => r.p) =
        recs.map (fun r => F64.div (F64.ofInt (timeSub r.ts r0.ts)) (F64.ofInt maxDur)) ∧
    (0 < maxDur → (recs.map (fun r => r.ts)).Pairwise (fun a b => a ≤ b) →
      ((recs.map (project mercatorMeters minX maxY scale r0.ts maxDur)).map
          (fun r => r.p)).head? = some (.fin 0) ∧
        (∀ p ∈ (recs.map (project mercatorMeters minX maxY scale r0.ts maxDur)).map
          (fun r => r.p), ∃ v : ℚ, p = .fin v) ∧
        ((recs.map (project mercatorMeters minX maxY scale r0.ts maxDur)).map
          (fun r => r.p)).Pairwise (fun a b => F64.toRat a ≤ F64.toRat b)) := by
  have hmap : (recs.map (project mercatorMeters minX maxY scale r0.ts maxDur)).map
      (fun r => r.p) =
        recs.map (fun r => F64.div (F64.ofInt (timeSub r.ts r0.ts)) (F64.ofInt maxDur)) := by
    rw [List.map_map]
    apply List.map_congr_left
    intro r _
    exact project_p mercatorMeters minX maxY scale r0.ts maxDur r
  refine ⟨hmap, ?_⟩
  intro hpos hsorted
  rw [hmap]
  refine ⟨?_, ?_, ?_⟩
  · cases recs with
    | nil => simp at hhead
    | cons r rs =>
      simp only [List.head?_cons, Option.some.injEq] at hhead
      subst hhead
      simp only [List.map_cons, List.head?_cons, timeSub_self, Option.some.injEq]
      rw [ofInt_exact 0 (by norm_num), Int.cast_zero]
      exact div_ofInt_zero maxDur hpos
  · intro p hp
    rw [List.mem_map] at hp
    obtain ⟨r, _, rfl⟩ := hp
    obtain ⟨a1, a2⟩ := timeSub_range r.ts r0.ts
    exact div_ofInt_fin _ maxDur a1 a2 hpos
  · rw [List.pairwise_map] at hsorted ⊢
    refine hsorted.imp ?_
    intro a b hab
    obtain ⟨a1, a2⟩ := timeSub_range a.ts r0.ts
    obtain ⟨b1, b2⟩ := timeSub_range b.ts r0.ts
    obtain ⟨va, hva⟩ := div_ofInt_fin _ maxDur a1 a2 hpos
    obtain ⟨vb, hvb⟩ := div_ofInt_fin _ maxDur b1 b2 hpos
    have h1 : (timeSub a.ts r0.ts : ℚ) ≤ (timeSub b.ts r0.ts : ℚ) := by
      exact_mod_cast timeSub_mono hab r0.ts
    have hle := div_ofInt_le (roundQ_mono h1) maxDur hpos
    rw [← ofInt_fin _ a1 a2, ← ofInt_fin _ b1 b2, hva, hvb, le_fin_iff] at hle
    rw [hva, hvb]
    exact hle

/-- `maxDur` after `parse`, run from the start state: the largest of 0 and the durations of
the retained activities. -/
theorem parse_maxDur (frames width : Nat) (sn en pt bb : RegionFlag) (parsed : List activity)
    (g1 : Globals) (h : parse parsed (Globals.start frames width sn en pt bb) = .ok g1) :
    0 ≤ g1.maxDur ∧ (∀ a ∈ g1.activities, a.duration ≤ g1.maxDur) ∧
      (g1.maxDur = 0 ∨ ∃ a ∈ g1.activities, a.duration = g1.maxDur) := by
  obtain ⟨_, rfl, _⟩ := (parse_ok_iff parsed _ g1).1 h
  obtain ⟨_, k2, k3, k4, k5⟩ := filterLoop_inv (Globals.start frames width sn en pt bb)
    parsed.length { Globals.start frames width sn en pt bb with activities := parsed } parsed []
    ⟨rfl, rfl, rfl, rfl⟩ (by simp) rfl
  rw [List.append_nil] at k2
  refine ⟨k3, ?_, ?_⟩
  · intro a ha
    obtain ⟨h1, h2⟩ := List.mem_filter.1 (k2.mem_iff.1 ha)
    exact k4 a h1 (by simpa using h2)
  · rcases k5 with k5 | ⟨a, ha, hk, hd⟩
    · exact Or.inl k5
    · exact Or.inr ⟨a, k2.mem_iff.2 (List.mem_filter.2 ⟨ha, by simp [hk]⟩), hd⟩

/-- C6: after `parse`, run from the start state on activities whose durations are not
negative, the retained activities are exactly the parsed ones that the region filters do not
remove, and `maxDur` is the maximum of their durations: it is the duration of a retained
activity and no retained activity lasts longer. The projection loop of `render`, and so
`render` when it returns, gives every record the progress
`p = float64(ts.Sub(ts0)) / float64(maxDur)`, `ts0` being the timestamp of the first record
of its activity (`Sub` is exact within the `int64` range and the conversions are exact below
`2 ^ 53`, where `p` is the `float64` nearest to the exact quotient); hence, with
non-decreasing timestamps and `maxDur > 0`, the first record has `p = 0`, every `p` is a
finite number and `p` is non-decreasing along the activity. -/
theorem parse_render_progress (uint8Impl : F64 → Nat) (mercatorMeters : ℚ → ℚ → ℚ × ℚ)
    (Bresenham : Int → Int → Int → Int → List (Int × Int)) (pal : List Color)
    (frames width : Nat) (sn en pt bb : RegionFlag) (parsed : List activity) (g1 : Globals)
    (hdur : ∀ a ∈ parsed, 0 ≤ a.duration)
    (hparse : parse parsed (Globals.start frames width sn en pt bb) = .ok g1) :
    List.Perm g1.activities
      (parsed.filter (fun a => !removed (Globals.start frames width sn en pt bb) a)) ∧
    ((∃ a ∈ g1.activities, a.duration = g1.maxDur) ∧
      ∀ a ∈ g1.activities, a.duration ≤ g1.maxDur) ∧
    (∀ (minX maxY scale : ℚ) (acts : List activity),
      projectAll mercatorMeters minX maxY scale g1.maxDur g1.activities = .ok acts →
      List.Forall₂ (fun a b => ∃ r0, a.records.head? = some r0 ∧
        b.records.map (fun r => r.p) =
          a.records.map
            (fun r => F64.div (F64.ofInt (timeSub r.ts r0.ts)) (F64.ofInt g1.maxDur)) ∧
        (0 < g1.maxDur → (a.records.map (fun r => r.ts)).Pairwise (fun s t => s ≤ t) →
          (b.records.map (fun r => r.p)).head? = some (.fin 0) ∧
            (∀ p ∈ b.records.map (fun r => r.p), ∃ v : ℚ, p = .fin v) ∧
            (b.records.map (fun r => r.p)).Pairwise
              (fun p q => F64.toRat p ≤ F64.toRat q)))
        g1.activities acts) ∧
    (∀ g2, render uint8Impl mercatorMeters Bresenham pal g1 = .ok g2 →
      List.Forall₂ (fun a b => ∃ r0, a.records.head? = some r0 ∧
        b.records.map (fun r => r.p) =
          a.records.map
            (fun r => F64.div (F64.ofInt (timeSub r.ts r0.ts)) (F64.ofInt g1.maxDur)) ∧
        (0 < g1.maxDur → (a.records.map (fun r => r.ts)).Pairwise (fun s t => s ≤ t) →
          (b.records.map (fun r => r.p)).head? = some (.fin 0) ∧
            (∀ p ∈ b.records.map (fun r => r.p), ∃ v : ℚ, p = .fin v) ∧
            (b.records.map (fun r => r.p)).Pairwise
              (fun p q => F64.toRat p ≤ F64.toRat q)))
        g1.activities g2.activities) ∧
    (∀ t u : Int, -(2 ^ 63) ≤ t - u → t - u ≤ 2 ^ 63 - 1 → timeSub t u = t - u) ∧
    (∀ d m : Int, |d| < 2 ^ 53 → 0 < m → m < 2 ^ 53 →
      F64.div (F64.ofInt d) (F64.ofInt m) = roundF64 ((d : ℚ) / (m : ℚ))) := by
  have hmax := parse_maxDur frames width sn en pt bb parsed g1 hparse
  obtain ⟨_, hg1, hne⟩ := (parse_ok_iff parsed _ g1).1 hparse
  have hperm : List.Perm g1.activities
      (parsed.filter (fun a => !removed (Globals.start frames width sn en pt bb) a)) := by
    rw [hg1]
    exact filterLoop_perm_removed parsed _
  have key : ∀ (minX maxY scale : ℚ) (acts : List activity),
      projectAll mercatorMeters minX maxY scale g1.maxDur g1.activities = .ok acts →
      List.Forall₂ (fun a b => ∃ r0, a.records.head? = some r0 ∧
        b.records.map (fun r => r.p) =
          a.records.map
            (fun r => F64.div (F64.ofInt (timeSub r.ts r0.ts)) (F64.ofInt g1.maxDur)) ∧
        (0 < g1.maxDur → (a.records.map (fun r => r.ts)).Pairwise (fun s t => s ≤ t) →
          (b.records.map (fun r => r.p)).head? = some (.fin 0) ∧
            (∀ p ∈ b.records.map (fun r => r.p), ∃ v : ℚ, p = .fin v) ∧
            (b.records.map (fun r => r.p)).Pairwise
              (fun p q => F64.toRat p ≤ F64.toRat q)))
        g1.activities acts := by
    intro minX maxY scale acts hproj
    have hall := projectAll_ok mercatorMeters minX maxY scale g1.maxDur g1.activities acts hproj
    refine hall.imp ?_
    rintro a b ⟨r0, hhead, hb⟩
    refine ⟨r0, hhead, ?_⟩
    rw [hb]
    exact progress_projected mercatorMeters minX maxY scale g1.maxDur r0 a.records hhead
  refine ⟨hperm, ⟨?_, hmax.2.1⟩, key, ?_, timeSub_exact, div_ofInt_exact⟩
  · rcases hmax.2.2 with h0 | hex
    · obtain ⟨a, rest, hcons⟩ := List.exists_cons_of_ne_nil hne
      have ha : a ∈ g1.activities := by rw [hcons]; exact List.mem_cons_self _ _
      have hpar : a ∈ parsed := (List.mem_filter.1 (hperm.mem_iff.1 ha)).1
      have h1 := hdur a hpar
      have h2 := hmax.2.1 a ha
      exact ⟨a, ha, by omega⟩
    · exact hex
  · intro g2 hrender
    exact key _ _ _ _ (render_ok uint8Impl mercatorMeters Bresenham pal g1 g2 hrender).1

/-! ## Claims on `parse` and `render` taken together -/

/-- Witness for C7: of two activities only the one south of latitude 10 is bounded by the
region. -/
theorem parse_filter_perm_witness :
    (∀ act ∈ [shortTrack, farTrack], act.records ≠ []) ∧
      List.Perm
        (filterLoop 2 { Globals.start 1 1 noRegion noRegion noRegion southOf10 with
          activities := [shortTrack, farTrack] }).activities
        ([shortTrack, farTrack].filter
          (qualifies (Globals.start 1 1 noRegion noRegion noRegion southOf10))) :=
  ⟨by decide,
    (parse_filter_perm [shortTrack, farTrack]
      (Globals.start 1 1 noRegion noRegion noRegion southOf10) (by decide)).1⟩

theorem removed_no_records (g : Globals) (act : activity) (h : act.records = []) :
    removed g act = !g.passesThrough.IsZero := by
  unfold removed
  rw [h]
  simp [recordLoop]

/-- Counterexample to C8 as stated: the two records of the only activity are at the same
place, so the bounds coincide (`dX = dY = 0`), and `render` returns no error. -/
theorem render_coincident_no_error :
    ∃ g1, parse [stillTrack] plainStart = .ok g1 ∧ g1.minLat = g1.maxLat ∧
      g1.minLon = g1.maxLon ∧
      (sampleMercator g1.maxLat g1.maxLon).1 - (sampleMercator g1.minLat g1.minLon).1 = 0 ∧
      (sampleMercator g1.maxLat g1.maxLon).2 - (sampleMercator g1.minLat g1.minLon).2 = 0 ∧
      ¬ ∃ msg, render sampleUint8 sampleMercator sampleLine [] g1 = .error msg := by
  have hlat : (filterLoop 1 { plainStart with activities := [stillTrack] }).minLat =
      (filterLoop 1 { plainStart with activities := [stillTrack] }).maxLat := by
    simp [filterLoop, removed, recordLoop, accumulate, widenBounds, plainStart, Globals.start,
      stillTrack, noRegion, MaxFloat64]
    rw [min_eq_right (by norm_num), max_eq_right (by norm_num)]
  have hlon : (filterLoop 1 { plainStart with activities := [stillTrack] }).minLon =
      (filterLoop 1 { plainStart with activities := [stillTrack] }).maxLon := by
    simp [filterLoop, removed, recordLoop, accumulate, widenBounds, plainStart, Globals.start,
      stillTrack, noRegion, MaxFloat64]
    rw [min_eq_right (by norm_num), max_eq_right (by norm_num)]
  refine ⟨filterLoop 1 { plainStart with activities := [stillTrack] }, rfl, hlat, hlon, ?_, ?_, ?_⟩
  · rw [hlat, hlon, sub_self]
  · rw [hlat, hlon, sub_self]
  · rintro ⟨msg, h⟩
    exact render_ne_error _ _ _ _ _ msg h

/-- C8, as the code has it: `render` has no invalid-input check. Whatever the bounds are,
coincident or not, it returns no error: its only `return` is `return nil`. -/
theorem render_returns_no_error (uint8Impl : F64 → Nat) (mercatorMeters : ℚ → ℚ → ℚ × ℚ)
    (Bresenham : Int → Int → Int → Int → List (Int × Int)) (pal : List Color) (g : Globals) :
    ∀ msg, render uint8Impl mercatorMeters Bresenham pal g ≠ .error msg :=
  fun msg => render_ne_error uint8Impl mercatorMeters Bresenham pal g msg

/-- Counterexample to C10 as stated: an activity without records passes `parse` when
`passes_through` is not set, and `render` then panics on `act.records[0]` instead of
returning an error. -/
theorem render_empty_activity_panics :
    ∃ g1, parse [emptyTrack] plainStart = .ok g1 ∧
      render sampleUint8 sampleMercator sampleLine [] g1 =
        .panic "index out of range [0] with length 0" :=
  ⟨filterLoop 1 { plainStart with activities := [emptyTrack] }, rfl, rfl⟩

/-- C10, as the code has it: neither `parse` nor `render` checks for an activity without
records. When `parse` returns, a parsed activity without records is among the activities it
hands to `render` exactly when `passes_through` is not set (the filter for that flag is all
that removes it). So when `passes_through` is set, or every parsed activity has a record,
every activity that reaches `render` has one and the projection loop with its
`act.records[0]` completes. `render` indexes `act.records[0]` unconditionally: it panics with
an index out of range exactly when `passes_through` is not set and some parsed activity has
no record, it panics for no other reason, and it returns no error. -/
theorem pipeline_records_in_range (uint8Impl : F64 → Nat) (mercatorMeters : ℚ → ℚ → ℚ × ℚ)
    (Bresenham : Int → Int → Int → Int → List (Int × Int)) (pal : List Color)
    (parsed : List activity) (g g1 : Globals) (hparse : parse parsed g = .ok g1) :
    (∀ act ∈ parsed, act.records = [] →
      (act ∈ g1.activities ↔ g.passesThrough.IsZero = true)) ∧
    ((g.passesThrough.IsZero = false ∨ ∀ act ∈ parsed, act.records ≠ []) →
      (∀ act ∈ g1.activities, act.records ≠ []) ∧
      ∀ minX maxY scale : ℚ, ∃ out,
        projectAll mercatorMeters minX maxY scale g1.maxDur g1.activities = .ok out) ∧
    (render uint8Impl mercatorMeters Bresenham pal g1 =
        .panic "index out of range [0] with length 0" ↔
      (g.passesThrough.IsZero = true ∧ ∃ act ∈ parsed, act.records = [])) ∧
    (∀ msg, render uint8Impl mercatorMeters Bresenham pal g1 = .panic msg →
      msg = "index out of range [0] with length 0") ∧
    (∀ msg, render uint8Impl mercatorMeters Bresenham pal g1 ≠ .error msg) := by
  obtain ⟨_, hg1, _⟩ := (parse_ok_iff parsed g g1).1 hparse
  have hperm : List.Perm g1.activities (parsed.filter (fun a => !removed g a)) := by
    rw [hg1]
    exact filterLoop_perm_removed parsed g
  have hkept : ∀ act ∈ parsed, act.records = [] →
      (act ∈ g1.activities ↔ g.passesThrough.IsZero = true) := by
    intro act hact hnil
    rw [hperm.mem_iff, List.mem_filter, removed_no_records g act hnil]
    simp [hact]
  refine ⟨hkept, ?_, ?_, ?_,
    fun msg => render_ne_error uint8Impl mercatorMeters Bresenham pal g1 msg⟩
  · intro hor
    have hmem : ∀ act ∈ g1.activities, act.records ≠ [] := by
      intro act hact hnil
      have hpar : act ∈ parsed := (List.mem_filter.1 (hperm.mem_iff.1 hact)).1
      rcases hor with hz | hrec
      · have := (hkept act hpar hnil).1 hact
        rw [hz] at this
        exact absurd this (by simp)
      · exact hrec act hpar hnil
    exact ⟨hmem, fun minX maxY scale =>
      projectAll_total mercatorMeters minX maxY scale _ _ hmem⟩
  · rw [render_panic_iff]
    constructor
    · rintro ⟨_, act, hact, hnil⟩
      have hpar : act ∈ parsed := (List.mem_filter.1 (hperm.mem_iff.1 hact)).1
      exact ⟨(hkept act hpar hnil).1 hact, act, hpar, hnil⟩
    · rintro ⟨hz, act, hpar, hnil⟩
      exact ⟨rfl, act, (hkept act hpar hnil).2 hz, hnil⟩
  · intro msg h
    exact ((render_panic_iff uint8Impl mercatorMeters Bresenham pal g1 msg).1 h).1

/-- Witness for C10: with `passes_through` set, `parse` drops the activity without records
and keeps the other one, so every activity it hands to `render` has a record. -/
theorem pipeline_records_in_range_witness :
    parse [emptyTrack, shortTrack] (Globals.start 1 1 noRegion noRegion southOf10 noRegion) =
        .ok (filterLoop 2 { Globals.start 1 1 noRegion noRegion southOf10 noRegion with
          activities := [emptyTrack, shortTrack] }) ∧
      (emptyTrack ∈ (filterLoop 2 { Globals.start 1 1 noRegion noRegion southOf10 noRegion with
          activities := [emptyTrack, shortTrack] }).activities ↔
        (Globals.start 1 1 noRegion noRegion southOf10 noRegion).passesThrough.IsZero = true) ∧
      ∀ act ∈ (filterLoop 2 { Globals.start 1 1 noRegion noRegion southOf10 noRegion with
          activities := [emptyTrack, shortTrack] }).activities, act.records ≠ [] :=
  ⟨rfl,
    (pipeline_records_in_range sampleUint8 sampleMercator sampleLine []
      [emptyTrack, shortTrack] (Globals.start 1 1 noRegion noRegion southOf10 noRegion) _
      rfl).1 emptyTrack (by decide) rfl,
    ((pipeline_records_in_range sampleUint8 sampleMercator sampleLine []
      [emptyTrack, shortTrack] (Globals.start 1 1 noRegion noRegion southOf10 noRegion) _
      rfl).2.1 (Or.inl rfl)).1⟩

/-! ## `render`: every track point and the canvas -/

theorem pixelX_bounds (b : Box) (width : Nat) (mx : ℚ) (hw : 1 ≤ width) (hdX : 0 < b.dX)
    (h1 : b.minX ≤ mx) (h2 : mx ≤ b.maxX) :
    0 ≤ pixelX b width mx ∧ pixelX b width mx < (width : Int) := by
  have hwq : (0 : ℚ) < (width : ℚ) := by exact_mod_cast hw
  have hs : 0 < (width : ℚ) / b.dX * (9 / 10) := by positivity
  have hdx : b.dX = b.maxX - b.minX := rfl
  have ht0 : 0 ≤ (mx - (b.minX - 5 / 100 * b.dX)) * ((width : ℚ) / b.dX * (9 / 10)) :=
    mul_nonneg (by linarith) (le_of_lt hs)
  have ht1 : (mx - (b.minX - 5 / 100 * b.dX)) * ((width : ℚ) / b.dX * (9 / 10)) ≤
      189 / 200 * (width : ℚ) := by
    have hle : mx - (b.minX - 5 / 100 * b.dX) ≤ 21 / 20 * b.dX := by linarith
    calc (mx - (b.minX - 5 / 100 * b.dX)) * ((width : ℚ) / b.dX * (9 / 10))
        ≤ 21 / 20 * b.dX * ((width : ℚ) / b.dX * (9 / 10)) :=
          mul_le_mul_of_nonneg_right hle (le_of_lt hs)
      _ = 189 / 200 * (width : ℚ) := by
          field_simp
          ring
  unfold pixelX
  rw [truncate_of_nonneg ht0]
  refine ⟨Int.floor_nonneg.2 ht0, ?_⟩
  rw [Int.floor_lt]
  have : (189 / 200 : ℚ) * (width : ℚ) < (width : ℚ) := by linarith
  calc _ ≤ 189 / 200 * (width : ℚ) := ht1
    _ < ((width : Int) : ℚ) := by push_cast; exact this

theorem pixelY_bounds (b : Box) (width : Nat) (my : ℚ) (hw : 1 ≤ width) (hdX : 0 < b.dX)
    (hdY : 0 < b.dY) (h1 : b.minY ≤ my) (h2 : my ≤ b.maxY) :
    0 ≤ pixelY b width my ∧ pixelY b width my ≤ (canvasHeight b width : Int) ∧
      (18 ≤ canvasHeight b width → pixelY b width my < (canvasHeight b width : Int)) := by
  have hwq : (0 : ℚ) < (width : ℚ) := by exact_mod_cast hw
  have hs : 0 < (width : ℚ) / b.dX * (9 / 10) := by positivity
  have hH : 0 < b.dY * ((width : ℚ) / b.dX) := by positivity
  have hdy : b.dY = b.maxY - b.minY := rfl
  have hv0 : 0 ≤ (b.maxY + 5 / 100 * b.dY - my) * ((width : ℚ) / b.dX * (9 / 10)) :=
    mul_nonneg (by linarith) (le_of_lt hs)
  have hv1 : (b.maxY + 5 / 100 * b.dY - my) * ((width : ℚ) / b.dX * (9 / 10)) ≤
      189 / 200 * (b.dY * ((width : ℚ) / b.dX)) := by
    have hle : b.maxY + 5 / 100 * b.dY - my ≤ 21 / 20 * b.dY := by linarith
    calc (b.maxY + 5 / 100 * b.dY - my) * ((width : ℚ) / b.dX * (9 / 10))
        ≤ 21 / 20 * b.dY * ((width : ℚ) / b.dX * (9 / 10)) :=
          mul_le_mul_of_nonneg_right hle (le_of_lt hs)
      _ = 189 / 200 * (b.dY * ((width : ℚ) / b.dX)) := by ring
  have hheight : (canvasHeight b width : Int) = ⌊b.dY * ((width : ℚ) / b.dX)⌋ := by
    unfold canvasHeight toUint
    rw [truncate_of_nonneg (le_of_lt hH)]
    exact Int.toNat_of_nonneg (Int.floor_nonneg.2 (le_of_lt hH))
  unfold pixelY
  rw [truncate_of_nonneg hv0, hheight]
  refine ⟨Int.floor_nonneg.2 hv0, ?_, ?_⟩
  · apply Int.floor_le_floor
    linarith
  · intro h18
    have h18' : (18 : Int) ≤ ⌊b.dY * ((width : ℚ) / b.dX)⌋ := by
      rw [← hheight]; exact_mod_cast h18
    have h18q : (18 : ℚ) ≤ (⌊b.dY * ((width : ℚ) / b.dX)⌋ : ℚ) := by exact_mod_cast h18'
    have hlt := Int.lt_floor_add_one (b.dY * ((width : ℚ) / b.dX))
    rw [Int.floor_lt]
    linarith

theorem forall₂_mem_right {α β : Type} {R : α → β → Prop} {as : List α} {bs : List β}
    (h : List.Forall₂ R as bs) : ∀ b ∈ bs, ∃ a ∈ as, R a b := by
  induction h with
  | nil => intro b hb; exact absurd hb (List.not_mem_nil _)
  | cons hab _ ih =>
    intro b hb
    rcases List.mem_cons.1 hb with rfl | hb
    · exact ⟨_, List.mem_cons_self _ _, hab⟩
    · obtain ⟨a, ha, hr⟩ := ih b hb
      exact ⟨a, List.mem_cons_of_mem _ ha, hr⟩

/-- What `render` stores: the height of the canvas and the pixel of every record. -/
theorem render_projection (uint8Impl : F64 → Nat) (mercatorMeters : ℚ → ℚ → ℚ × ℚ)
    (Bresenham : Int → Int → Int → Int → List (Int × Int)) (pal : List Color) (g g2 : Globals)
    (h : render uint8Impl mercatorMeters Bresenham pal g = .ok g2) :
    g2.height = canvasHeight (mercatorBox mercatorMeters g) g.width ∧
    List.Forall₂ (fun a b => List.Forall₂ (fun r q =>
        q.lat = r.lat ∧ q.lon = r.lon ∧
        q.x = pixelX (mercatorBox mercatorMeters g) g.width (mercatorMeters r.lat r.lon).1 ∧
        q.y = pixelY (mercatorBox mercatorMeters g) g.width (mercatorMeters r.lat r.lon).2)
      a.records b.records) g.activities g2.activities := by
  obtain ⟨hproj, hh, _, _⟩ := render_ok uint8Impl mercatorMeters Bresenham pal g g2 h
  refine ⟨hh, ?_⟩
  have hall := projectAll_ok _ _ _ _ _ _ _ hproj
  refine hall.imp ?_
  rintro a b ⟨r0, _, hb⟩
  rw [hb, List.forall₂_map_right_iff, List.forall₂_same]
  intro r _
  exact ⟨rfl, rfl, rfl, rfl⟩

/-- A run is `determined` when the box is not degenerate, the canvas is below `2 ^ 31` in
both directions and every projected record lies within it or on the row below it. -/
theorem determined_of_bounds (g : Globals) (dX : ℚ) (truncH : Int) (acts : List activity)
    (hdX : dX ≠ 0) (h0 : 0 ≤ truncH) (hw : g.width < 2 ^ 31) (hh : truncH < 2 ^ 31)
    (hrec : ∀ act ∈ acts, ∀ r ∈ act.records,
      0 ≤ r.x ∧ r.x < (g.width : Int) ∧ 0 ≤ r.y ∧ r.y ≤ truncH) :
    determined g dX truncH acts = true := by
  have hwi : (g.width : Int) < 2 ^ 31 := by exact_mod_cast hw
  have hprod : (g.width : Int) * truncH < 2 ^ 63 := by
    have h1 : (g.width : Int) * truncH ≤ 2 ^ 31 * 2 ^ 31 :=
      Int.mul_le_mul (le_of_lt hwi) (le_of_lt hh) h0 (by norm_num)
    have h2 : (2 : Int) ^ 31 * 2 ^ 31 < 2 ^ 63 := by norm_num
    omega
  have hall : (acts.all (fun act => act.records.all (fun r =>
      decide (-(2 ^ 63) ≤ r.x) && decide (r.x < 2 ^ 63) &&
        decide (-(2 ^ 63) ≤ r.y) && decide (r.y < 2 ^ 63)))) = true := by
    rw [List.all_eq_true]
    intro act hact
    rw [List.all_eq_true]
    intro r hr
    obtain ⟨a, b, c, d⟩ := hrec act hact r hr
    simp only [Bool.and_eq_true, decide_eq_true_eq]
    refine ⟨⟨⟨?_, ?_⟩, ?_⟩, ?_⟩ <;> omega
  have hwn : g.width < 2 ^ 63 := by omega
  unfold determined
  rw [hall]
  simp only [Bool.and_eq_true, Bool.or_eq_true, decide_eq_true_eq, and_true]
  exact ⟨⟨⟨hdX, h0⟩, by omega⟩, Or.inr ⟨⟨hwn, by omega⟩, hprod⟩⟩

/-- `render` returns on every state with a non-degenerate Mercator box, `width ≥ 1`, a
record in every activity, every record inside the box, and a canvas below `2 ^ 31` in both
directions. -/
theorem render_total_box (uint8Impl : F64 → Nat) (mercatorMeters : ℚ → ℚ → ℚ × ℚ)
    (Bresenham : Int → Int → Int → Int → List (Int × Int)) (pal : List Color) (g : Globals)
    (hw : 1 ≤ g.width) (hdX : 0 < (mercatorBox mercatorMeters g).dX)
    (hdY : 0 < (mercatorBox mercatorMeters g).dY)
    (hrec : ∀ act ∈ g.activities, act.records ≠ [])
    (hin : ∀ act ∈ g.activities, ∀ r ∈ act.records,
      (mercatorBox mercatorMeters g).minX ≤ (mercatorMeters r.lat r.lon).1 ∧
      (mercatorMeters r.lat r.lon).1 ≤ (mercatorBox mercatorMeters g).maxX ∧
      (mercatorBox mercatorMeters g).minY ≤ (mercatorMeters r.lat r.lon).2 ∧
      (mercatorMeters r.lat r.lon).2 ≤ (mercatorBox mercatorMeters g).maxY)
    (hsw : g.width < 2 ^ 31)
    (hsh : canvasHeight (mercatorBox mercatorMeters g) g.width < 2 ^ 31) :
    ∃ g2, render uint8Impl mercatorMeters Bresenham pal g = .ok g2 := by
  obtain ⟨acts, hp⟩ := projectAll_total mercatorMeters
    ((mercatorBox mercatorMeters g).minX - 5 / 100 * (mercatorBox mercatorMeters g).dX)
    ((mercatorBox mercatorMeters g).maxY + 5 / 100 * (mercatorBox mercatorMeters g).dY)
    ((g.width : ℚ) / (mercatorBox mercatorMeters g).dX * (9 / 10)) g.maxDur g.activities hrec
  have hall := projectAll_ok _ _ _ _ _ _ _ hp
  have hwq : (0 : ℚ) < (g.width : ℚ) := by exact_mod_cast hw
  have hH : 0 ≤ (mercatorBox mercatorMeters g).dY *
      ((g.width : ℚ) / (mercatorBox mercatorMeters g).dX) := by positivity
  have ht0 : 0 ≤ truncate ((mercatorBox mercatorMeters g).dY *
      ((g.width : ℚ) / (mercatorBox mercatorMeters g).dX)) := by
    rw [truncate_of_nonneg hH]
    exact Int.floor_nonneg.2 hH
  have hcast : ((canvasHeight (mercatorBox mercatorMeters g) g.width : Nat) : Int) =
      truncate ((mercatorBox mercatorMeters g).dY *
        ((g.width : ℚ) / (mercatorBox mercatorMeters g).dX)) := by
    unfold canvasHeight toUint
    exact Int.toNat_of_nonneg ht0
  refine render_total uint8Impl mercatorMeters Bresenham pal g acts hp
    (determined_of_bounds g _ _ acts (ne_of_gt hdX) ht0 hsw (by rw [← hcast]; exact_mod_cast hsh)
      ?_)
  intro b hb q hq
  obtain ⟨a, ha, r0, _, hrecs⟩ := forall₂_mem_right hall b hb
  rw [hrecs, List.mem_map] at hq
  obtain ⟨r, hr, rfl⟩ := hq
  obtain ⟨i1, i2, i3, i4⟩ := hin a ha r hr
  obtain ⟨x0, x1⟩ := pixelX_bounds (mercatorBox mercatorMeters g) g.width
    (mercatorMeters r.lat r.lon).1 hw hdX i1 i2
  obtain ⟨y0, y1, _⟩ := pixelY_bounds (mercatorBox mercatorMeters g) g.width
    (mercatorMeters r.lat r.lon).2 hw hdX hdY i3 i4
  rw [← hcast]
  exact ⟨x0, x1, y0, y1⟩

theorem flatTrack_parsed :
    parse [flatTrack] plainStart =
        .ok (filterLoop 1 { plainStart with activities := [flatTrack] }) ∧
      (filterLoop 1 { plainStart with activities := [flatTrack] }).width = 1 ∧
      (filterLoop 1 { plainStart with activities := [flatTrack] }).activities = [flatTrack] ∧
      mercatorBox sampleMercator (filterLoop 1 { plainStart with activities := [flatTrack] }) =
        ⟨0, 0, 2, 3⟩ := by
  refine ⟨rfl, rfl, rfl, ?_⟩
  simp [mercatorBox, sampleMercator, filterLoop, removed, recordLoop, accumulate, widenBounds,
    plainStart, Globals.start, flatTrack, noRegion, MaxFloat64]
  norm_num [min_def, max_def]

theorem flatBox_values :
    canvasHeight ⟨0, 0, 2, 3⟩ 1 = 1 ∧ pixelY ⟨0, 0, 2, 3⟩ 1 0 = 1 := by
  constructor
  · unfold canvasHeight toUint
    rw [truncate_of_nonneg (by norm_num [Box.dX, Box.dY])]
    have : ⌊Box.dY ⟨0, 0, 2, 3⟩ * (((1 : Nat) : ℚ) / Box.dX ⟨0, 0, 2, 3⟩)⌋ = 1 := by
      rw [Int.floor_eq_iff]
      norm_num [Box.dX, Box.dY]
    rw [this]
    rfl
  · unfold pixelY
    rw [truncate_of_nonneg (by norm_num [Box.dX, Box.dY])]
    rw [Int.floor_eq_iff]
    norm_num [Box.dX, Box.dY]

/-- The run of `render` on `flatTrack` returns. -/
theorem flatTrack_rendered :
    ∃ g2, render sampleUint8 sampleMercator sampleLine []
      (filterLoop 1 { plainStart with activities := [flatTrack] }) = .ok g2 := by
  obtain ⟨_, hwidth, hacts, hbox⟩ := flatTrack_parsed
  refine render_total_box sampleUint8 sampleMercator sampleLine [] _ ?_ ?_ ?_ ?_ ?_ ?_ ?_
  · rw [hwidth]
  · rw [hbox]; norm_num [Box.dX]
  · rw [hbox]; norm_num [Box.dY]
  · rw [hacts]; decide
  · rw [hacts, hbox]
    intro act hact r hr
    rw [List.mem_singleton] at hact
    subst hact
    simp only [flatTrack, List.mem_cons, List.mem_singleton, List.not_mem_nil, or_false] at hr
    rcases hr with rfl | rfl <;> norm_num [sampleMercator]
  · rw [hwidth]; norm_num
  · rw [hbox, hwidth, flatBox_values.1]; norm_num

/-- Witness for C6: one activity of duration 9 is parsed and retained, `maxDur` is that
duration, `render` returns, and the first record of the rendered activity has `p = 0`. -/
theorem parse_render_progress_witness :
    (∀ a ∈ [flatTrack], 0 ≤ a.duration) ∧
      parse [flatTrack] plainStart =
        .ok (filterLoop 1 { plainStart with activities := [flatTrack] }) ∧
      (∃ a ∈ (filterLoop 1 { plainStart with activities := [flatTrack] }).activities,
        a.duration = (filterLoop 1 { plainStart with activities := [flatTrack] }).maxDur) ∧
      ∃ g2, render sampleUint8 sampleMercator sampleLine []
          (filterLoop 1 { plainStart with activities := [flatTrack] }) = .ok g2 ∧
        ∃ b ∈ g2.activities, (b.records.map (fun r => r.p)).head? = some (.fin 0) := by
  obtain ⟨g2, hr⟩ := flatTrack_rendered
  have hk := parse_render_progress sampleUint8 sampleMercator sampleLine [] 1 1 noRegion
    noRegion noRegion noRegion [flatTrack]
    (filterLoop 1 { plainStart with activities := [flatTrack] }) (by decide) rfl
  have hacts : (filterLoop 1 { plainStart with activities := [flatTrack] }).activities =
      [flatTrack] := rfl
  have h3 := hk.2.2.2.1 g2 hr
  rw [hacts, List.forall₂_cons_left_iff] at h3
  obtain ⟨b, bs, ⟨r0, _, _, himp⟩, _, hg2⟩ := h3
  have hp := (himp (by decide) (by simp [flatTrack])).1
  exact ⟨by decide, rfl, hk.2.1.1, g2, hr, b, by rw [hg2]; exact List.mem_cons_self _ _, hp⟩

/-- Counterexample to C11 as stated: two records 2 apart in Mercator x and 3 apart in
Mercator y, rendered at width 1. The box has `dX = 2 > 0` and `dY = 3 > 0`, the canvas gets
height `trunc(3 * 1 / 2) = 1`, and the record in the bottom corner of the box gets
`y = trunc(3.15 * 0.45) = 1`, which is not below the height. -/
theorem render_flat_box_below_canvas :
    ∃ g1 g2, parse [flatTrack] plainStart = .ok g1 ∧
      render sampleUint8 sampleMercator sampleLine [] g1 = .ok g2 ∧
      1 ≤ g1.width ∧ 0 < (mercatorBox sampleMercator g1).dX ∧
      0 < (mercatorBox sampleMercator g1).dY ∧
      (mercatorBox sampleMercator g1).minX ≤ (sampleMercator 0 0).1 ∧
      (sampleMercator 0 0).1 ≤ (mercatorBox sampleMercator g1).maxX ∧
      (mercatorBox sampleMercator g1).minY ≤ (sampleMercator 0 0).2 ∧
      (sampleMercator 0 0).2 ≤ (mercatorBox sampleMercator g1).maxY ∧
      g2.height = 1 ∧
      pixelY (mercatorBox sampleMercator g1) g1.width (sampleMercator 0 0).2 = 1 ∧
      ∃ b ∈ g2.activities, ∃ q ∈ b.records, q.lat = 0 ∧ q.lon = 0 ∧ q.y = 1 ∧
        ¬ q.y < (g2.height : Int) := by
  obtain ⟨hparse, hwidth, hacts, hbox⟩ := flatTrack_parsed
  obtain ⟨hheight, hy⟩ := flatBox_values
  obtain ⟨g2, hrender⟩ := flatTrack_rendered
  obtain ⟨hh, hall⟩ := render_projection sampleUint8 sampleMercator sampleLine [] _ g2 hrender
  rw [hbox, hwidth] at hh hall
  rw [hacts, List.forall₂_cons_left_iff] at hall
  obtain ⟨b, bs, hb, _, hg2⟩ := hall
  simp only [flatTrack] at hb
  rw [List.forall₂_cons_left_iff] at hb
  obtain ⟨q, qs, hq, _, hrecs⟩ := hb
  have hqy : q.y = 1 := by
    rw [hq.2.2.2]
    exact hy
  refine ⟨_, g2, hparse, hrender, ?_, ?_, ?_, ?_, ?_, ?_, ?_, ?_, ?_, ?_⟩
  · rw [hwidth]
  · rw [hbox]; norm_num [Box.dX]
  · rw [hbox]; norm_num [Box.dY]
  · rw [hbox]; norm_num [sampleMercator]
  · rw [hbox]; norm_num [sampleMercator]
  · rw [hbox]; norm_num [sampleMercator]
  · rw [hbox]; norm_num [sampleMercator]
  · rw [hh, hheight]
  · rw [hbox, hwidth]; exact hy
  · refine ⟨b, by rw [hg2]; exact List.mem_cons_self _ _, q,
      by rw [hrecs]; exact List.mem_cons_self _ _, hq.1, hq.2.1, hqy, ?_⟩
    rw [hqy, hh, hheight]
    decide

/-- A position on the row `y = height` is outside a canvas of that height: `setPixIfLower`
leaves the canvas alone there. -/
theorem setPixIfLower_row_below {im : Paletted} {w h : Nat} (hc : im.IsCanvas w h) (x : Int)
    (ci : Nat) : setPixIfLower im x (h : Int) ci = (im, false) := by
  apply setPixIfLower_outside
  cases hin : (Point.mk x (h : Int)).In im.Rect with
  | false => rfl
  | true =>
    have := ((In_canvas_iff hc x (h : Int)).1 hin).2.2
    exact absurd this (lt_irrefl _)

/-- C11, as the code has it: for `width ≥ 1` and a Mercator bounding box with `dX > 0` and
`dY > 0`, `render` gives the canvas the height `trunc(dY * width / dX)` and every record the
pixel `x = trunc((mx - (minX - 0.05*dX)) * 0.9*width/dX)`,
`y = trunc(((maxY + 0.05*dY) - my) * 0.9*width/dX)`. For a record whose Mercator coordinates
lie inside the box, `0 ≤ x < width` and `0 ≤ y ≤ height`, and `y < height` as soon as
`height ≥ 18`. A position with `y = height` is outside the canvas and `setPixIfLower`
ignores it. -/
theorem render_pixels_in_canvas (uint8Impl : F64 → Nat) (mercatorMeters : ℚ → ℚ → ℚ × ℚ)
    (Bresenham : Int → Int → Int → Int → List (Int × Int)) (pal : List Color) (g g2 : Globals)
    (hw : 1 ≤ g.width) (hdX : 0 < (mercatorBox mercatorMeters g).dX)
    (hdY : 0 < (mercatorBox mercatorMeters g).dY)
    (hr : render uint8Impl mercatorMeters Bresenham pal g = .ok g2) :
    g2.height = canvasHeight (mercatorBox mercatorMeters g) g.width ∧
    List.Forall₂ (fun a b => List.Forall₂ (fun r q =>
        q.x = pixelX (mercatorBox mercatorMeters g) g.width (mercatorMeters r.lat r.lon).1 ∧
        q.y = pixelY (mercatorBox mercatorMeters g) g.width (mercatorMeters r.lat r.lon).2 ∧
        ((mercatorBox mercatorMeters g).minX ≤ (mercatorMeters r.lat r.lon).1 →
          (mercatorMeters r.lat r.lon).1 ≤ (mercatorBox mercatorMeters g).maxX →
          (mercatorBox mercatorMeters g).minY ≤ (mercatorMeters r.lat r.lon).2 →
          (mercatorMeters r.lat r.lon).2 ≤ (mercatorBox mercatorMeters g).maxY →
          0 ≤ q.x ∧ q.x < (g.width : Int) ∧ 0 ≤ q.y ∧ q.y ≤ (g2.height : Int) ∧
            (18 ≤ g2.height → q.y < (g2.height : Int))))
      a.records b.records) g.activities g2.activities ∧
    (∀ mx : ℚ, pixelX (mercatorBox mercatorMeters g) g.width mx =
      truncate ((mx - ((mercatorBox mercatorMeters g).minX -
        5 / 100 * (mercatorBox mercatorMeters g).dX)) *
          (9 / 10 * (g.width : ℚ) / (mercatorBox mercatorMeters g).dX))) ∧
    (∀ my : ℚ, pixelY (mercatorBox mercatorMeters g) g.width my =
      truncate ((((mercatorBox mercatorMeters g).maxY +
        5 / 100 * (mercatorBox mercatorMeters g).dY) - my) *
          (9 / 10 * (g.width : ℚ) / (mercatorBox mercatorMeters g).dX))) ∧
    canvasHeight (mercatorBox mercatorMeters g) g.width =
      (truncate ((mercatorBox mercatorMeters g).dY * (g.width : ℚ) /
        (mercatorBox mercatorMeters g).dX)).toNat ∧
    (∀ (im : Paletted) (x : Int) (ci : Nat), im.IsCanvas g.width g2.height →
      setPixIfLower im x (g2.height : Int) ci = (im, false)) := by
  obtain ⟨hh, hall⟩ := render_projection uint8Impl mercatorMeters Bresenham pal g g2 hr
  refine ⟨hh, ?_, ?_, ?_, ?_, ?_⟩
  · refine hall.imp ?_
    intro a b hab
    refine hab.imp ?_
    rintro r q ⟨_, _, hx, hy⟩
    refine ⟨hx, hy, ?_⟩
    intro h1 h2 h3 h4
    obtain ⟨x0, x1⟩ := pixelX_bounds (mercatorBox mercatorMeters g) g.width
      (mercatorMeters r.lat r.lon).1 hw hdX h1 h2
    obtain ⟨y0, y1, y2⟩ := pixelY_bounds (mercatorBox mercatorMeters g) g.width
      (mercatorMeters r.lat r.lon).2 hw hdX hdY h3 h4
    rw [hx, hy, hh]
    exact ⟨x0, x1, y0, y1, y2⟩
  · intro mx
    unfold pixelX
    congr 1
    ring
  · intro my
    unfold pixelY
    congr 1
    ring
  · unfold canvasHeight toUint
    congr 2
    ring
  · intro im x ci hc
    exact setPixIfLower_row_below hc x ci

/-- Witness for C11: the two records of `flatTrack`, rendered at width 1. -/
theorem render_pixels_in_canvas_witness :
    1 ≤ (filterLoop 1 { plainStart with activities := [flatTrack] }).width ∧
      0 < (mercatorBox sampleMercator
        (filterLoop 1 { plainStart with activities := [flatTrack] })).dX ∧
      0 < (mercatorBox sampleMercator
        (filterLoop 1 { plainStart with activities := [flatTrack] })).dY ∧
      ∃ g2, render sampleUint8 sampleMercator sampleLine []
          (filterLoop 1 { plainStart with activities := [flatTrack] }) = .ok g2 ∧
        g2.height = canvasHeight (mercatorBox sampleMercator
          (filterLoop 1 { plainStart with activities := [flatTrack] }))
          (filterLoop 1 { plainStart with activities := [flatTrack] }).width := by
  obtain ⟨_, hwidth, hacts, hbox⟩ := flatTrack_parsed
  have hw : 1 ≤ (filterLoop 1 { plainStart with activities := [flatTrack] }).width := by
    rw [hwidth]
  have hdX : 0 < (mercatorBox sampleMercator
      (filterLoop 1 { plainStart with activities := [flatTrack] })).dX := by
    rw [hbox]; norm_num [Box.dX]
  have hdY : 0 < (mercatorBox sampleMercator
      (filterLoop 1 { plainStart with activities := [flatTrack] })).dY := by
    rw [hbox]; norm_num [Box.dY]
  obtain ⟨g2, hrender⟩ := flatTrack_rendered
  exact ⟨hw, hdX, hdY, g2, hrender,
    (render_pixels_in_canvas sampleUint8 sampleMercator sampleLine [] _ g2 hw hdX hdY hrender).1⟩

/-! ## The colour index of a drawn point -/

/-- The `float64` product of a value of `[0, 1]` and 255 has the floor of the exact product or
the integer just above it as its own floor: integers up to 255 are `float64` values and
rounding is monotone. -/
theorem floor_roundQ_255 {q : ℚ} (h0 : 0 ≤ q) (h1 : q ≤ 1) :
    ⌊q * 255⌋ ≤ ⌊roundQ (q * 255)⌋ ∧ ⌊roundQ (q * 255)⌋ ≤ ⌊q * 255⌋ + 1 := by
  have hx0 : 0 ≤ q * 255 := by positivity
  have hx1 : q * 255 ≤ 255 := by linarith
  have hf0 : 0 ≤ ⌊q * 255⌋ := Int.floor_nonneg.2 hx0
  have hf1 : ⌊q * 255⌋ ≤ 255 := by
    have : ⌊q * 255⌋ ≤ ⌊(255 : ℚ)⌋ := Int.floor_mono hx1
    simpa using this
  constructor
  · rw [Int.le_floor]
    have := roundQ_mono (Int.floor_le (q * 255))
    rwa [roundQ_intCast _ (by rw [abs_lt]; constructor <;> omega)] at this
  · have hlt : q * 255 ≤ ((⌊q * 255⌋ + 1 : Int) : ℚ) := by
      push_cast
      exact le_of_lt (Int.lt_floor_add_one (q * 255))
    have := roundQ_mono hlt
    rw [roundQ_intCast _ (by rw [abs_lt]; constructor <;> omega)] at this
    have h2 : ⌊roundQ (q * 255)⌋ ≤ ⌊((⌊q * 255⌋ + 1 : Int) : ℚ)⌋ := Int.floor_mono this
    rwa [Int.floor_intCast] at h2

/-- The two window tests `pp < 0` and `pp > 1` both fail exactly for a finite `pp` in
`[0, 1]` and for NaN. -/
theorem window_iff (v : F64) :
    (F64.lt v (.fin 0) = false ∧ F64.lt (.fin 1) v = false) ↔
      (v = .nan ∨ ∃ q : ℚ, v = .fin q ∧ 0 ≤ q ∧ q ≤ 1) := by
  cases v with
  | fin q => simp [F64.lt]
  | inf s => cases s <;> simp [F64.lt]
  | nan => simp [F64.lt]

/-- C3: in the loop of `render` over the records of an activity, for the frame threshold
`fp`, with `pp = fp - p` the `float64` difference:
every invocation of the draw callback is made for a record whose `pp` is a number of
`[0, 1]` or NaN; a record whose `pp` is below 0, above 1 or infinite gets no invocation; a
first record whose `pp` is in `[0, 1]` is drawn at its own position (so is one whose `pp` is
NaN, with the implementation's `uint8` of NaN as index). For a `pp` in `[0, 1]` the colour
index `uint8(pp * 0xff)` is the floor of the `float64` product `pp * 255`, which lies within
`2 ^ (-46)` of the exact product and has its floor or one more as its own floor, and at an
in-canvas position the callback leaves the smaller of the old value and that index; the
index is 0 for `pp = 0` and `0xff` for `pp = 1`. After an activity is drawn, and in the finished frame `f` that `render` stores,
every position plotted inside the canvas holds at most the colour index of its invocation. -/
theorem drawCalls_colour_index (uint8Impl : F64 → Nat)
    (Bresenham : Int → Int → Int → Int → List (Int × Int)) (fp : F64)
    (rprev : Option record) (recs : List record) :
    (∀ c ∈ drawCalls Bresenham fp rprev recs, c.r ∈ recs ∧
      (F64.sub fp c.r.p = .nan ∨ ∃ q : ℚ, F64.sub fp c.r.p = .fin q ∧ 0 ≤ q ∧ q ≤ 1)) ∧
    (∀ r : record,
      ((∃ q : ℚ, F64.sub fp r.p = .fin q ∧ (q < 0 ∨ 1 < q)) ∨
        ∃ s : Bool, F64.sub fp r.p = .inf s) →
        ∀ c ∈ drawCalls Bresenham fp rprev recs, c.r ≠ r) ∧
    (∀ (r : record) (rs : List record),
      (F64.sub fp r.p = .nan ∨ ∃ q : ℚ, F64.sub fp r.p = .fin q ∧ 0 ≤ q ∧ q ≤ 1) →
      drawCalls Bresenham fp none (r :: rs) =
        DrawCall.mk r r.x r.y :: drawCalls Bresenham fp (some r) rs) ∧
    (∀ q : ℚ, 0 ≤ q → q ≤ 1 →
      F64.mul (.fin q) (.fin 0xff) = .fin (roundQ (q * 255)) ∧
      0 ≤ roundQ (q * 255) ∧ roundQ (q * 255) ≤ 255 ∧
      |roundQ (q * 255) - q * 255| ≤ 1 / 2 ^ 46 ∧
      F64.toUint8 uint8Impl (F64.mul (.fin q) (.fin 0xff)) = ⌊roundQ (q * 255)⌋.toNat ∧
      ⌊q * 255⌋ ≤ ⌊roundQ (q * 255)⌋ ∧ ⌊roundQ (q * 255)⌋ ≤ ⌊q * 255⌋ + 1 ∧
      ∀ (im : Paletted) (w h : Nat) (x y : Int), im.IsCanvas w h →
        (Point.mk x y).In im.Rect = true →
        (setPix uint8Impl im (.fin q) x y).pixAt x y =
          min (im.pixAt x y) ⌊roundQ (q * 255)⌋.toNat) ∧
    (F64.toUint8 uint8Impl (F64.mul (.fin 0) (.fin 0xff)) = 0 ∧
      F64.toUint8 uint8Impl (F64.mul (.fin 1) (.fin 0xff)) = 0xff ∧
      F64.toUint8 uint8Impl (F64.mul .nan (.fin 0xff)) = uint8Impl .nan % 256 ∧
      ∀ a b : ℚ, F64.sub (.fin a) (.fin b) = roundF64 (a - b)) ∧
    (∀ (im : Paletted) (w h : Nat) (act : activity), im.IsCanvas w h →
      ∀ c ∈ drawCalls Bresenham fp none act.records, (Point.mk c.x c.y).In im.Rect = true →
        (drawActivity uint8Impl Bresenham fp im act).pixAt c.x c.y ≤
          F64.toUint8 uint8Impl (F64.mul (F64.sub fp c.r.p) (.fin 0xff))) ∧
    (∀ (pal : List Color) (width height frames f : Nat) (acts : List activity),
      ∀ act ∈ acts, ∀ c ∈ drawCalls Bresenham (frameThreshold f frames) none act.records,
        0 ≤ c.x → c.x < (width : Int) → 0 ≤ c.y → c.y < (height : Int) →
        (renderFrame uint8Impl Bresenham pal width height frames acts f).pixAt c.x c.y ≤
          F64.toUint8 uint8Impl
            (F64.mul (F64.sub (frameThreshold f frames) c.r.p) (.fin 0xff))) ∧
    (∀ (mercatorMeters : ℚ → ℚ → ℚ × ℚ) (pal : List Color) (g g2 : Globals),
      render uint8Impl mercatorMeters Bresenham pal g = .ok g2 →
        g2.ims = (List.range g.frames).map
          (renderFrame uint8Impl Bresenham pal g.width g2.height g.frames g2.activities)) := by
  refine ⟨?_, ?_, ?_, ?_, ?_, ?_, ?_, ?_⟩
  · intro c hc
    obtain ⟨hmem, h0, h1⟩ := mem_drawCalls Bresenham fp recs rprev c hc
    exact ⟨hmem, (window_iff _).1 ⟨h0, h1⟩⟩
  · intro r hr c hc habs
    obtain ⟨_, h0, h1⟩ := mem_drawCalls Bresenham fp recs rprev c hc
    rw [habs] at h0 h1
    rcases (window_iff _).1 ⟨h0, h1⟩ with hn | ⟨q, hq, hq0, hq1⟩
    · rcases hr with ⟨q, hq, _⟩ | ⟨s, hs⟩
      · rw [hn] at hq; cases hq
      · rw [hn] at hs; cases hs
    · rcases hr with ⟨q1, hq2, hlt⟩ | ⟨s, hs⟩
      · rw [hq] at hq2
        cases hq2
        rcases hlt with hlt | hlt
        · exact absurd hq0 (not_le.2 hlt)
        · exact absurd hq1 (not_le.2 hlt)
      · rw [hq] at hs; cases hs
  · intro r rs hw
    obtain ⟨h0, h1⟩ := (window_iff _).2 hw
    exact drawCalls_first Bresenham fp r rs h0 h1
  · intro q h0 h1
    obtain ⟨hmul, hv0, hv1⟩ := mul_255_fin h0 h1
    obtain ⟨hfl0, hfl1⟩ := floor_roundQ_255 h0 h1
    have hci : F64.toUint8 uint8Impl (F64.mul (.fin q) (.fin 0xff)) =
        ⌊roundQ (q * 255)⌋.toNat := by
      rw [hmul]
      exact (toUint8_fin uint8Impl hv0 hv1).1
    refine ⟨hmul, hv0, hv1, roundQ_error_255 (by positivity) (by linarith), hci, hfl0, hfl1, ?_⟩
    intro im w h x y hc hin
    unfold setPix
    rw [hci]
    exact pixAt_setPixCi_self hc x y _ hin
  · have h255 : roundQ (255 : ℚ) = 255 := by
      have := roundQ_intCast 255 (by norm_num)
      simpa using this
    refine ⟨?_, ?_, rfl, fun _ _ => rfl⟩
    · obtain ⟨hmul, hv0, hv1⟩ := mul_255_fin (le_refl (0 : ℚ)) (by norm_num)
      rw [hmul, (toUint8_fin uint8Impl hv0 hv1).1]
      simp [roundQ_zero]
    · obtain ⟨hmul, hv0, hv1⟩ := mul_255_fin (by norm_num : (0 : ℚ) ≤ 1) (le_refl 1)
      rw [hmul, (toUint8_fin uint8Impl hv0 hv1).1, one_mul, h255]
      simp
  · intro im w h act hc c hcall hin
    exact (foldl_setPix uint8Impl fp (drawCalls Bresenham fp none act.records) hc).2.2 c hcall hin
  · intro pal width height frames f acts act hact c hcall hx0 hx1 hy0 hy1
    have hc := newCanvas_isCanvas width height pal
    have hin : (Point.mk c.x c.y).In (newCanvas width height pal).Rect = true :=
      (In_canvas_iff hc c.x c.y).2 ⟨⟨hx0, hx1⟩, ⟨hy0, hy1⟩⟩
    exact (foldl_drawActivity uint8Impl Bresenham (frameThreshold f frames) acts hc).2.2
      act hact c hcall hin
  · intro mercatorMeters pal g g2 hr
    exact (render_ok uint8Impl mercatorMeters Bresenham pal g g2 hr).2.2.1

/-- Witness for C3: a record with progress 1/2 in a frame with threshold 1, hence
`pp = 1/2`, is drawn at its pixel `(1, 1)` of a blank canvas, which then holds the index
`floor(127.5) = 127`. -/
theorem drawCalls_colour_index_witness :
    drawCalls sampleLine (.fin 1) none halfwayTrack.records =
        [⟨⟨0, 0, 0, 1, 1, .fin (1 / 2)⟩, 1, 1⟩] ∧
      (drawActivity sampleUint8 sampleLine (.fin 1) (newCanvas 3 3 []) halfwayTrack).pixAt 1 1
        = 127 := by
  have hr : roundQ ((1 : ℚ) - 1 / 2) = 1 / 2 := by
    have e : (1 : ℚ) - 1 / 2 = ((1 : Int) : ℚ) * (2 : ℚ) ^ (-1 : Int) := by norm_num
    rw [e, roundQ_dyadic 1 (-1) (by norm_num) (by norm_num)]
    norm_num
  have hsub : F64.sub (.fin 1) (.fin (1 / 2)) = .fin (1 / 2) := by
    show roundF64 ((1 : ℚ) - 1 / 2) = _
    rw [roundF64_fin (by rw [hr]; norm_num) (by rw [hr]; norm_num), hr]
  have hprod : roundQ ((1 / 2 : ℚ) * 255) = 255 / 2 := by
    have e : (1 / 2 : ℚ) * 255 = ((255 : Int) : ℚ) * (2 : ℚ) ^ (-1 : Int) := by norm_num
    rw [e, roundQ_dyadic 255 (-1) (by norm_num) (by norm_num)]
    norm_num
  have hfloor : ⌊(255 / 2 : ℚ)⌋ = 127 := by
    rw [Int.floor_eq_iff]
    norm_num
  have hcalls : drawCalls sampleLine (.fin 1) none halfwayTrack.records =
      [⟨⟨0, 0, 0, 1, 1, .fin (1 / 2)⟩, 1, 1⟩] := by
    have := (drawCalls_colour_index sampleUint8 sampleLine (.fin 1) none []).2.2.1
      ⟨0, 0, 0, 1, 1, .fin (1 / 2)⟩ [] (Or.inr ⟨1 / 2, hsub, by norm_num, by norm_num⟩)
    simpa [halfwayTrack, drawCalls] using this
  refine ⟨hcalls, ?_⟩
  have hpix := ((drawCalls_colour_index sampleUint8 sampleLine (.fin 1) none []).2.2.2.1
    (1 / 2) (by norm_num) (by norm_num)).2.2.2.2.2.2.2 (newCanvas 3 3 []) 3 3 1 1
    (newCanvas_isCanvas 3 3 []) (by decide)
  rw [hprod, hfloor] at hpix
  unfold drawActivity
  rw [hcalls]
  simp only [List.foldl]
  rw [hsub, hpix]
  decide

end RainbowRoads
